import Mathlib

/-!
Integral: transposition table, evaluation cache, static exchange evaluation,
move-ordering history and the progress report of the data generator.

A shallow embedding of `src/engine/search/transpo.cc`,
`src/engine/evaluation/eval_cache.h`, `src/engine/evaluation/evaluation.cc`,
`src/engine/search/history/history.h`,
`src/engine/search/history/unified_history.h` and of two statements of
`src/data_gen/data_gen.cc`, with the properties of the design document proved
about it.

Conventions of the embedding.

* The header `transpo.h` is not part of the sources at hand.  Its constants
  (`kTTClusterSize`, `kMaxTTAge`, `kScoreNone`, the enumerator `kExact`), the
  helper `CorrectScore` and the cluster lookup `operator[]` are therefore
  parameters of the definitions that use them.
* Memory reached through `table_` is a function from cluster index to cluster,
  and a cluster is a function from slot index to entry; only the slots below
  `kTTClusterSize` are ever looked at.
* The table owns the clusters below `table_size_`.  `HashFullChecked` and
  `ClearChecked` are `HashFull` and `Clear` with every access checked against
  that bound; they have no result when an access falls outside the table.
* Operands narrower than `int` are promoted to `int`, so the arithmetic on
  ages and depths is arithmetic on `Int`; `U32` results are reduced modulo
  `2 ^ 32` and `std::size_t` results modulo `2 ^ 64`.
* The field types of an entry are declared in `transpo.h`; a field holds the
  value assigned to it, the key being cut to 16 bits by the cast in `Save`.
* The workers of `Clear` write zeros to their own ranges and are joined before
  the generation is reset; they are run one after the other here.
* The board, the move class, the bitboards and the move generator are declared
  in absent headers: a snapshot is the record of the values of its accessors, a
  bitboard is a natural number read as a 64-bit word, and the attack functions
  are the fields of a parameter `MoveGen`.
* The exchange loop of `StaticExchange` is run with a bound on the number of
  iterations and yields `none` when the bound is used up.
* The score of `StaticExchange` is an exact integer in `seePrelude`, `seeIter`
  and `StaticExchange`, and a 32-bit `int` in `seePreludeI32`, `seeIterI32` and
  `StaticExchangeI32`; the two agree where the `int` does not overflow.
* The tables of the segmented history design and the helper `ScaleBonus` are
  declared in absent headers; the former are parameters, the latter follows the
  design document.
-/

namespace search

/-! ## Machine integers -/

/-- Largest value of a 32-bit `int`. -/
def INT_MAX : Int := 2 ^ 31 - 1

/-- Conversion of an integer to `U32` (reduction modulo `2 ^ 32`). -/
def toU32 (x : Int) : Int := x % 2 ^ 32

/-- Conversion of an integer to a 32-bit `int` (two's complement wrap). -/
def toI32 (x : Int) : Int := (x + 2 ^ 31) % 2 ^ 32 - 2 ^ 31

/-- Reduction of a natural number to `std::size_t` (64 bits). -/
def toSize (x : Nat) : Nat := x % 2 ^ 64

/-- Subtraction of two `std::size_t` values, wrapping below zero. -/
def subSize (a b : Nat) : Nat := (a % 2 ^ 64 + 2 ^ 64 - b % 2 ^ 64) % 2 ^ 64

/-! ## Data model -/

/-- Modelled from the spec: the `Move` class is external to the sources at
hand; a move is its raw encoding and the empty move is the encoding `0`, so
that the conversion to `bool` used by `Save` is `data != 0`. -/
structure Move where
  data : Nat
  deriving DecidableEq

/-- Conversion of a move to `bool`: true when the move is not empty. -/
def Move.toBool (m : Move) : Bool := decide (m.data ≠ 0)

/-- One slot of the transposition table (fields of `TranspositionTableEntry`
used by `transpo.cc`). -/
structure TranspositionTableEntry where
  key : Nat
  score : Int
  depth : Int
  age : Int
  flag : Nat
  was_in_pv : Bool
  static_eval : Int
  move : Move
  deriving DecidableEq

/-- Modelled from the spec: `CompareKey` is declared in the absent header
`transpo.h`; it holds when the stored 16-bit key equals the low 16 bits of the
full key ("exact 16-bit key match"). -/
def TranspositionTableEntry.CompareKey (e : TranspositionTableEntry) (key : Nat) : Bool :=
  decide (e.key = key % 65536)

/-- The entry all of whose bytes are zero. -/
def zeroEntry : TranspositionTableEntry :=
  { key := 0, score := 0, depth := 0, age := 0, flag := 0, was_in_pv := false,
    static_eval := 0, move := ⟨0⟩ }

/-- A bucket of `kTTClusterSize` entries, `entries[0 .. kTTClusterSize)`. -/
structure TranspositionTableCluster where
  entries : Nat → TranspositionTableEntry

/-- The cluster all of whose bytes are zero. -/
def zeroCluster : TranspositionTableCluster := ⟨fun _ => zeroEntry⟩

/-- The table: the memory behind `table_`, its capacity in clusters and the
current generation. -/
structure TranspositionTable where
  table_ : Nat → TranspositionTableCluster
  table_size_ : Nat
  age_ : Int

/-- A pointer to an entry: the cluster it lies in and its slot there. -/
structure EntryPtr where
  cluster : Nat
  slot : Nat
  deriving DecidableEq

namespace TranspositionTable

/-- Read through an entry pointer. -/
def deref (t : TranspositionTable) (p : EntryPtr) : TranspositionTableEntry :=
  (t.table_ p.cluster).entries p.slot

/-- Write through an entry pointer. -/
def store (t : TranspositionTable) (p : EntryPtr) (e : TranspositionTableEntry) :
    TranspositionTable :=
  { t with
    table_ := fun c =>
      if c = p.cluster then
        ⟨fun s => if s = p.slot then e else (t.table_ c).entries s⟩
      else t.table_ c }

/-- The function `GetAgeDelta`: `(kMaxTTAge + age_ - entry->age) % kMaxTTAge`, computed in
`int` (C++ remainder truncates toward zero) and returned as `U32`. -/
def GetAgeDelta (kMaxTTAge : Int) (t : TranspositionTable) (entry : TranspositionTableEntry) :
    Int :=
  toU32 ((kMaxTTAge + t.age_ - entry.age).tmod kMaxTTAge)

/-- The replacement quality as `Probe` computes it:
`entry->depth - 8 * GetAgeDelta(entry)` is evaluated in `U32` and the result
is converted to `int`. -/
def quality (kMaxTTAge : Int) (t : TranspositionTable) (entry : TranspositionTableEntry) :
    Int :=
  toI32 (toU32 (toU32 entry.depth - toU32 (8 * GetAgeDelta kMaxTTAge t entry)))

/-- The scan of `Probe`: `n` iterations remain, `i` is the loop variable. -/
def probeLoop (kMaxTTAge : Int) (t : TranspositionTable) (cluster : TranspositionTableCluster)
    (key16 : Nat) : Nat → Nat → Int → Nat → Nat
  | 0, _, _, min_quality_idx => min_quality_idx
  | n + 1, i, min_quality, min_quality_idx =>
    let entry := cluster.entries i
    if entry.key = 0 ∨ entry.key = key16 then i
    else
      let q := quality kMaxTTAge t entry
      if q < min_quality then probeLoop kMaxTTAge t cluster key16 n (i + 1) q i
      else probeLoop kMaxTTAge t cluster key16 n (i + 1) min_quality min_quality_idx

/-- The function `Probe`: the slot of the key's cluster that is empty or holds the key, or
else the slot of least quality.  `index` is the cluster lookup `operator[]`. -/
def Probe (kTTClusterSize : Nat) (kMaxTTAge : Int) (index : Nat → Nat)
    (t : TranspositionTable) (key : Nat) : EntryPtr :=
  let cluster := t.table_ (index key)
  let key16 := key % 65536
  ⟨index key, probeLoop kMaxTTAge t cluster key16 kTTClusterSize 0 INT_MAX 0⟩

/-- A slot ends the scan of `Probe` at once: it is empty or holds `key16`. -/
def hits (cluster : TranspositionTableCluster) (key16 : Nat) (i : Nat) : Prop :=
  (cluster.entries i).key = 0 ∨ (cluster.entries i).key = key16

instance (cluster : TranspositionTableCluster) (key16 i : Nat) :
    Decidable (hits cluster key16 i) := by
  unfold hits; infer_instance

/-- The condition under which `Save` overwrites the fields other than the
move. -/
def overwrites (kExact : Nat) (age_ : Int) (old_entry new_entry : TranspositionTableEntry)
    (key : Nat) (in_pv : Bool) : Prop :=
  old_entry.CompareKey key = false ∨ new_entry.flag = kExact ∨
    new_entry.depth + 3 + 2 * (if in_pv then 1 else 0) ≥ old_entry.depth ∨
    old_entry.age ≠ age_

instance (kExact : Nat) (age_ : Int) (o n : TranspositionTableEntry) (key : Nat) (in_pv : Bool) :
    Decidable (overwrites kExact age_ o n key in_pv) := by
  unfold overwrites; infer_instance

/-- The body of `Save` on the entry `old_entry` points to: the move is
replaced when the candidate has one or the key differs; the other fields are
replaced under `overwrites`. -/
def saveEntry (kExact : Nat) (CorrectScore : Int → Int → Int) (age_ : Int)
    (e0 new_entry : TranspositionTableEntry) (key : Nat) (ply : Int) (in_pv : Bool) :
    TranspositionTableEntry :=
  let e1 :=
    if new_entry.move.toBool = true ∨ e0.CompareKey key = false then
      { e0 with move := new_entry.move }
    else e0
  if overwrites kExact age_ e1 new_entry key in_pv then
    { e1 with
      key := key % 65536
      score := CorrectScore new_entry.score (-ply)
      depth := new_entry.depth
      age := age_
      flag := new_entry.flag
      was_in_pv := new_entry.was_in_pv
      static_eval := new_entry.static_eval }
  else e1

/-- The function `Save`: `saveEntry` applied in place to the entry behind `old_entry`. -/
def Save (kExact : Nat) (CorrectScore : Int → Int → Int) (t : TranspositionTable)
    (old_entry : EntryPtr) (new_entry : TranspositionTableEntry) (key : Nat) (ply : Int)
    (in_pv : Bool) : TranspositionTable :=
  t.store old_entry
    (saveEntry kExact CorrectScore t.age_ (t.deref old_entry) new_entry key ply in_pv)

/-- The function `Age`: the generation advances by one modulo `kMaxTTAge`. -/
def Age (kMaxTTAge : Int) (t : TranspositionTable) : TranspositionTable :=
  { t with age_ := (t.age_ + 1).tmod kMaxTTAge }

/-- The predicate of `count_if` in `HashFull`. -/
def isLive (kScoreNone : Int) (t : TranspositionTable) (entry : TranspositionTableEntry) :
    Bool :=
  decide (entry.age = t.age_) && decide (entry.key ≠ 0) && decide (entry.score ≠ kScoreNone)

/-- The call of `std::ranges::count_if` over the `kTTClusterSize` entries of a cluster. -/
def countIf (kTTClusterSize : Nat) (p : TranspositionTableEntry → Bool)
    (cluster : TranspositionTableCluster) : Nat :=
  ((List.range kTTClusterSize).filter (fun j => p (cluster.entries j))).length

/-- The function `HashFull`: the loop over the first 1000 clusters adds up the live slots;
the sum is divided by `kTTClusterSize`.  The sum is at most
`1000 * kTTClusterSize`, far below `INT_MAX`.  The memory is a function of
the cluster index, so an access `table_[i]` with `i` not below `table_size_`
has a value here, where the source reads outside the allocation;
`HashFullChecked` is the same loop with every access checked. -/
def HashFull (kTTClusterSize : Nat) (kScoreNone : Int) (t : TranspositionTable) : Nat :=
  let count := (List.range 1000).foldl
    (fun count i => count + countIf kTTClusterSize (isLive kScoreNone t) (t.table_ i)) 0
  count / kTTClusterSize

/-- The number of clusters each worker of `Clear` is given:
`(table_size_ + num_threads - 1) / num_threads` in `std::size_t`. -/
def clearChunks (table_size_ num_threads : Nat) : Nat :=
  toSize (table_size_ + num_threads - 1) / num_threads

/-- First cluster zeroed by worker `i`: `chunks * i` in `std::size_t`. -/
def clearIndex (chunks i : Nat) : Nat := toSize (chunks * i)

/-- Number of clusters zeroed by worker `i`:
`std::min(chunks, table_size_ - clear_index)`, the subtraction being unsigned.
The byte count handed to `memset` is this number times the size of a cluster.
-/
def clearCount (table_size_ chunks i : Nat) : Nat :=
  min chunks (subSize table_size_ (clearIndex chunks i))

/-- The `memset` to zero of `count` whole clusters starting at cluster
`start`. -/
def memsetZero (mem : Nat → TranspositionTableCluster) (start count : Nat) :
    Nat → TranspositionTableCluster :=
  fun j => if start ≤ j ∧ j < start + count then zeroCluster else mem j

/-- The function `Clear`: worker `i` zeroes its range; after all workers are
joined the generation is reset.  The workers are run one after the other, and
`num_threads` is not negative.  The memory is a function of the cluster
index, so a `memset` that passes `table_size_` changes the memory behind the
table here, where the source writes outside the allocation; `ClearChecked` is
the same code with every `memset` checked. -/
def Clear (t : TranspositionTable) (num_threads : Nat) : TranspositionTable :=
  let chunks := clearChunks t.table_size_ num_threads
  { t with
    table_ := (List.range num_threads).foldl
      (fun mem i => memsetZero mem (clearIndex chunks i) (clearCount t.table_size_ chunks i))
      t.table_
    age_ := 0 }

/-- The age delta in the words of the design document: the cyclic distance of
the entry's generation from the current one, modulo the cycle length. -/
def specAgeDelta (cycle_length : Int) (t : TranspositionTable)
    (entry : TranspositionTableEntry) : Int :=
  (t.age_ - entry.age) % cycle_length

/-- The quality in the words of the design document, as an exact signed
integer: `depth - 8 * age_delta`. -/
def specQuality (cycle_length : Int) (t : TranspositionTable)
    (entry : TranspositionTableEntry) : Int :=
  entry.depth - 8 * specAgeDelta cycle_length t entry

/-- The function `Age` called `k` times in a row. -/
def ageTimes (kMaxTTAge : Int) : Nat → TranspositionTable → TranspositionTable
  | 0, t => t
  | k + 1, t => ageTimes kMaxTTAge k (Age kMaxTTAge t)

/-- The live slots among the first 1000 clusters, in the words of the design
document: the pairs (cluster, slot) whose generation is the current one and
whose key and score are not empty. -/
def liveSlots (kTTClusterSize : Nat) (kScoreNone : Int) (t : TranspositionTable) :
    Finset (Nat × Nat) :=
  (Finset.range 1000 ×ˢ Finset.range kTTClusterSize).filter
    (fun p : Nat × Nat => ((t.table_ p.1).entries p.2).age = t.age_ ∧
      ((t.table_ p.1).entries p.2).key ≠ 0 ∧
      ((t.table_ p.1).entries p.2).score ≠ kScoreNone)

/-- The range of clusters `[clear_index, clear_index + count)` zeroed by worker
`i` of `Clear`, as a predicate on cluster indices. -/
def inWorkerRange (table_size_ num_threads i j : Nat) : Prop :=
  clearIndex (clearChunks table_size_ num_threads) i ≤ j ∧
    j < clearIndex (clearChunks table_size_ num_threads) i +
      clearCount table_size_ (clearChunks table_size_ num_threads) i

instance (table_size_ num_threads i j : Nat) :
    Decidable (inWorkerRange table_size_ num_threads i j) := by
  unfold inWorkerRange; infer_instance

/-! ### Sample data -/

/-- A full cluster of three slots: keys 1, 2, 3, depths 10, 3, 11 and
generations 5, 3, 2. -/
def sampleCluster : TranspositionTableCluster :=
  ⟨fun j =>
    match j with
    | 0 => { zeroEntry with key := 1, depth := 10, age := 5, move := ⟨7⟩ }
    | 1 => { zeroEntry with key := 2, depth := 3, age := 3, move := ⟨8⟩ }
    | _ => { zeroEntry with key := 3, depth := 11, age := 2, move := ⟨9⟩ }⟩

/-- A table of eight clusters, each equal to `sampleCluster`, in generation
5. -/
def sampleTable : TranspositionTable :=
  { table_ := fun _ => sampleCluster, table_size_ := 8, age_ := 5 }

/-- A table of 1024 clusters, each equal to `sampleCluster`, in generation
5. -/
def sampleLargeTable : TranspositionTable :=
  { table_ := fun _ => sampleCluster, table_size_ := 1024, age_ := 5 }

/-- A cluster lookup for a table of eight clusters. -/
def sampleIndex (key : Nat) : Nat := key % 8

/-- A candidate entry without a move. -/
def sampleCandidate : TranspositionTableEntry :=
  { zeroEntry with score := 42, depth := 12, flag := 1, static_eval := 17 }

end TranspositionTable

end search

namespace eval

/-- An entry of the evaluation cache: the full key and the score. -/
structure EvalCacheEntry where
  key : Nat
  score : Int
  deriving DecidableEq

/-- The evaluation cache: `entries_[kCacheSize]`. -/
structure EvalCache where
  entries_ : Nat → EvalCacheEntry

namespace EvalCache

/-- Number of entries, `1 << 16`. -/
def kCacheSize : Nat := 1 <<< 16

/-- Index mask, `kCacheSize - 1`. -/
def kCacheMask : Nat := kCacheSize - 1

/-- The function `Clear`: every entry is zeroed. -/
def Clear (_c : EvalCache) : EvalCache := ⟨fun _ => ⟨0, 0⟩⟩

/-- The function `Probe`: the result and the value of the out-parameter `score`
afterwards. -/
def Probe (c : EvalCache) (key : Nat) (score : Int) : Bool × Int :=
  let index := key &&& kCacheMask
  let entry := c.entries_ index
  if entry.key = key then (true, entry.score) else (false, score)

/-- The function `Store`: unconditional overwrite of the indexed entry. -/
def Store (c : EvalCache) (key : Nat) (score : Int) : EvalCache :=
  let index := key &&& kCacheMask
  ⟨fun i => if i = index then ⟨key, score⟩ else c.entries_ i⟩

end EvalCache

end eval

/-! ## Board model

The board, the moves, the bitboards and the move generator are declared in
headers that are not part of the sources at hand; what the functions below
need from them is modelled here or taken as a parameter. -/

namespace chess

/-- The two sides. -/
inductive Color where
  | kWhite
  | kBlack
  deriving DecidableEq

/-- Modelled from the spec: `FlipColor` is declared in an absent header; it
yields the other side. -/
def FlipColor : Color → Color
  | .kWhite => .kBlack
  | .kBlack => .kWhite

/-- The numeric value of a colour when it is used as an array index. -/
def Color.toNat : Color → Nat
  | .kWhite => 0
  | .kBlack => 1

/-- The piece types, `kNone` standing for an empty square. -/
inductive PieceType where
  | kPawn
  | kKnight
  | kBishop
  | kRook
  | kQueen
  | kKing
  | kNone
  deriving DecidableEq

/-- The numeric value of a piece type when it is used in index arithmetic. -/
def PieceType.toNat : PieceType → Nat
  | .kPawn => 0
  | .kKnight => 1
  | .kBishop => 2
  | .kRook => 3
  | .kQueen => 4
  | .kKing => 5
  | .kNone => 6

/-- A bitboard is a 64-bit word, bit `sq` standing for square `sq`. -/
abbrev BitBoard := Nat

/-- Modelled from the spec: `BitBoard::IsSet`, the test of one bit. -/
def IsSet (b : BitBoard) (sq : Nat) : Bool := b.testBit sq

/-- Modelled from the spec: `BitBoard::ClearBit`, the word with bit `sq`
cleared. -/
def ClearBit (b : BitBoard) (sq : Nat) : BitBoard := b - (b &&& (1 <<< sq))

/-- Search for the lowest set bit: `n` positions remain, `i` is the next. -/
def lsbFrom (b : BitBoard) : Nat → Nat → Nat
  | 0, i => i
  | n + 1, i => if b.testBit i then i else lsbFrom b n (i + 1)

/-- Modelled from the spec: `BitBoard::GetLsb`, the index of the least
significant member (64 when the low 64 bits are clear). -/
def GetLsb (b : BitBoard) : Nat := lsbFrom b 64 0

/-- Modelled from the spec: `BitBoard::PopCount`, the number of members. -/
def PopCount (b : BitBoard) : Nat := ((List.range 64).filter (fun i => b.testBit i)).length

/-- Complement of a bitboard within 64 bits (`operator~`). -/
def bitNot (b : BitBoard) : BitBoard := (2 ^ 64 - 1) ^^^ (b % 2 ^ 64)

/-- The board snapshot, given by the values of its accessors: `Pawns()` ...
`Kings()` for both sides together, `Pawns(color)`, `King(color)` and
`Occupied(color)` for one side, the pin masks, the side to move and the
keys. -/
structure BoardState where
  turn : Color
  zobrist_key : Nat
  pawn_key : Nat
  GetPieceType : Nat → PieceType
  GetPieceColor : Nat → Color
  Pawns : BitBoard
  Knights : BitBoard
  Bishops : BitBoard
  Rooks : BitBoard
  Queens : BitBoard
  Kings : BitBoard
  PawnsOf : Color → BitBoard
  KingOf : Color → BitBoard
  Occupied : BitBoard
  OccupiedOf : Color → BitBoard
  pinned : Color → BitBoard

end chess

namespace eval

open chess

/-- The function `Evaluate`.  `nnueEvaluate` is the network oracle,
`kSeePieceScores` the table of exchange values and `DATAGEN` the preprocessor
switch of the raw mode.  The product is an `int`; the out-parameter of `Probe`
is not initialised, which is immaterial as it is read only after a hit. -/
def Evaluate (DATAGEN : Bool) (kSeePieceScores : PieceType → Int) (kMaterialScaleBase : Int)
    (nnueEvaluate : BoardState → Int) (eval_cache : EvalCache) (board : BoardState) :
    Int × EvalCache :=
  let key := board.zobrist_key
  let probed := eval_cache.Probe key 0
  if probed.1 = true then (probed.2, eval_cache)
  else
    let network_eval := nnueEvaluate board
    if DATAGEN = true then (network_eval, eval_cache.Store key network_eval)
    else
      let material_phase : Int :=
        kSeePieceScores .kKnight * (PopCount board.Knights : Int) +
        kSeePieceScores .kBishop * (PopCount board.Bishops : Int) +
        kSeePieceScores .kRook * (PopCount board.Rooks : Int) +
        kSeePieceScores .kQueen * (PopCount board.Queens : Int)
      let final_eval :=
        (search.toI32 (network_eval * (kMaterialScaleBase + material_phase))).tdiv 32768
      (final_eval, eval_cache.Store key final_eval)

/-- The material phase in the words of the design document: the sum of the
counts of knights, bishops, rooks and queens weighted by their exchange
values. -/
def specMaterialPhase (V : PieceType → Int) (board : BoardState) : Int :=
  V .kKnight * (PopCount board.Knights : Int) + V .kBishop * (PopCount board.Bishops : Int) +
    V .kRook * (PopCount board.Rooks : Int) + V .kQueen * (PopCount board.Queens : Int)

end eval


namespace eval

open chess

/-- The functions of the move class and of the move generator that
`StaticExchange` and the history tables call; they are declared in absent
headers and are parameters here.  `PawnAttacks sq c` is the set of squares a
pawn of colour `c` on `sq` attacks, `BishopMoves sq occ` and `RookMoves sq occ`
are the slider attacks from `sq` under the occupancy `occ`, and
`RayIntersecting a b` is the line through `a` and `b`. -/
structure MoveGen where
  GetFrom : search.Move → Nat
  GetTo : search.Move → Nat
  IsEnPassant : search.Move → BoardState → Bool
  IsCapture : search.Move → BoardState → Bool
  PawnAttacks : Nat → Color → BitBoard
  KnightMoves : Nat → BitBoard
  KingAttacks : Nat → BitBoard
  BishopMoves : Nat → BitBoard → BitBoard
  RookMoves : Nat → BitBoard → BitBoard
  RayIntersecting : Nat → Nat → BitBoard

/-- The pin masks that `StaticExchange` computes before its loop. -/
structure SeePins where
  white_pinned : BitBoard
  black_pinned : BitBoard
  white_pinned_aligned : BitBoard
  black_pinned_aligned : BitBoard

/-- The pinned pieces of each side and those of them on the line through the
destination and their own king. -/
def seePins (mg : MoveGen) (state : BoardState) (to_sq : Nat) : SeePins :=
  let white_pinned := state.pinned .kWhite &&& state.OccupiedOf .kWhite
  let black_pinned := state.pinned .kBlack &&& state.OccupiedOf .kBlack
  { white_pinned := white_pinned
    black_pinned := black_pinned
    white_pinned_aligned :=
      if white_pinned ≠ 0 then
        mg.RayIntersecting to_sq (GetLsb (state.KingOf .kWhite)) &&& white_pinned
      else 0
    black_pinned_aligned :=
      if black_pinned ≠ 0 then
        mg.RayIntersecting to_sq (GetLsb (state.KingOf .kBlack)) &&& black_pinned
      else 0 }

/-- The variables of the exchange loop at the head of an iteration. -/
structure SeeState where
  turn : Color
  winner : Color
  all_attackers : BitBoard
  occupied : BitBoard
  score : Int
  deriving DecidableEq

/-- The outcome of the code before the loop, or of one iteration: the function
returns `b`, or the loop goes on in the state `st`. -/
inductive SeeStep where
  | done (b : Bool)
  | next (st : SeeState)

/-- The attackers of the side `turn` that may capture: its pieces in the
attacker set, without the pinned pieces that are off the line to their king.
-/
def seeOurAttackers (state : BoardState) (pins : SeePins) (turn : Color)
    (all_attackers : BitBoard) : BitBoard :=
  let our_attackers := all_attackers &&& state.OccupiedOf turn
  if turn = .kWhite ∧ pins.white_pinned ≠ 0 then
    our_attackers &&& (bitNot pins.white_pinned ||| pins.white_pinned_aligned)
  else if turn = .kBlack ∧ pins.black_pinned ≠ 0 then
    our_attackers &&& (bitNot pins.black_pinned ||| pins.black_pinned_aligned)
  else our_attackers

/-- The choice of the least valuable attacker: its value, the occupancy without
it and the attacker set with the x-ray attackers it uncovers; `none` when only
a king is left to capture. -/
def seePick (mg : MoveGen) (kSeePieceScores : PieceType → Int) (state : BoardState) (to_sq : Nat)
    (our_attackers all_attackers occupied : BitBoard) : Option (Int × BitBoard × BitBoard) :=
  if our_attackers &&& state.Pawns ≠ 0 then
    let occupied := ClearBit occupied (GetLsb (our_attackers &&& state.Pawns))
    some (kSeePieceScores .kPawn, occupied,
      all_attackers ||| (mg.BishopMoves to_sq occupied &&& (state.Bishops ||| state.Queens)))
  else if our_attackers &&& state.Knights ≠ 0 then
    let occupied := ClearBit occupied (GetLsb (our_attackers &&& state.Knights))
    some (kSeePieceScores .kKnight, occupied, all_attackers)
  else if our_attackers &&& state.Bishops ≠ 0 then
    let occupied := ClearBit occupied (GetLsb (our_attackers &&& state.Bishops))
    some (kSeePieceScores .kBishop, occupied,
      all_attackers ||| (mg.BishopMoves to_sq occupied &&& (state.Bishops ||| state.Queens)))
  else if our_attackers &&& state.Rooks ≠ 0 then
    let occupied := ClearBit occupied (GetLsb (our_attackers &&& state.Rooks))
    some (kSeePieceScores .kRook, occupied,
      all_attackers ||| (mg.RookMoves to_sq occupied &&& (state.Rooks ||| state.Queens)))
  else if our_attackers &&& state.Queens ≠ 0 then
    let occupied := ClearBit occupied (GetLsb (our_attackers &&& state.Queens))
    some (kSeePieceScores .kQueen, occupied,
      all_attackers |||
        ((mg.RookMoves to_sq occupied &&& (state.Queens ||| state.Rooks)) |||
          (mg.BishopMoves to_sq occupied &&& (state.Queens ||| state.Bishops))))
  else none

/-- One iteration of the exchange loop.  A `break` is followed by
`return state.turn == winner`.  The score is an exact integer here
(`seeIterI32` has the wrap of the 32-bit `int`). -/
def seeIter (mg : MoveGen) (kSeePieceScores : PieceType → Int) (state : BoardState) (to_sq : Nat)
    (st : SeeState) : SeeStep :=
  let turn := FlipColor st.turn
  let all_attackers := st.all_attackers &&& st.occupied
  let our_attackers := seeOurAttackers state (seePins mg state to_sq) turn all_attackers
  if our_attackers = 0 then .done (decide (state.turn = st.winner))
  else
    let winner := FlipColor st.winner
    match seePick mg kSeePieceScores state to_sq our_attackers all_attackers st.occupied with
    | none =>
      if all_attackers &&& state.OccupiedOf (FlipColor turn) ≠ 0 then
        .done (decide (state.turn ≠ winner))
      else .done (decide (state.turn = winner))
    | some (attacker_value, occupied, all_attackers) =>
      let score := -st.score + 1 + attacker_value
      if score ≤ 0 then .done (decide (state.turn = winner))
      else .next ⟨turn, winner, all_attackers, occupied, score⟩

/-- The set of all pieces attacking the destination when the loop is entered,
under the occupancy without the origin and the destination. -/
def seeAllAttackers (mg : MoveGen) (state : BoardState) (to_sq : Nat) (occupied : BitBoard) :
    BitBoard :=
  let white_pawn_attacks := mg.PawnAttacks to_sq .kWhite
  let black_pawn_attacks := mg.PawnAttacks to_sq .kBlack
  let pawn_attackers := (white_pawn_attacks &&& state.PawnsOf .kBlack) |||
    (black_pawn_attacks &&& state.PawnsOf .kWhite)
  let knight_attackers := mg.KnightMoves to_sq &&& state.Knights
  let king_attackers := mg.KingAttacks to_sq &&& state.Kings
  let bishop_attacks := mg.BishopMoves to_sq occupied
  let rook_attacks := mg.RookMoves to_sq occupied
  let diagonal_attackers := bishop_attacks &&& (state.Bishops ||| state.Queens)
  let straight_attackers := rook_attacks &&& (state.Rooks ||| state.Queens)
  (pawn_attackers ||| knight_attackers ||| king_attackers ||| diagonal_attackers |||
    straight_attackers) &&& occupied

/-- The moves that `StaticExchange` does not simulate: en passant captures
and king moves over two squares (castling). -/
def seeIgnoresMove (mg : MoveGen) (move : search.Move) (state : BoardState) : Prop :=
  mg.IsEnPassant move state = true ∨
    (state.GetPieceType (mg.GetFrom move) = .kKing ∧
      |(mg.GetFrom move : Int) - (mg.GetTo move : Int)| = 2)

instance (mg : MoveGen) (move : search.Move) (state : BoardState) :
    Decidable (seeIgnoresMove mg move state) := by
  unfold seeIgnoresMove; infer_instance

/-- The code of `StaticExchange` before its loop: an early result, or the
state in which the loop is entered.  The score is an exact integer here; it
is the score of the source as long as the 32-bit `int` does not overflow
(`seePreludeI32` has the wrap). -/
def seePrelude (mg : MoveGen) (kSeePieceScores : PieceType → Int) (move : search.Move)
    (threshold : Int) (state : BoardState) : SeeStep :=
  let from_sq := mg.GetFrom move
  let to_sq := mg.GetTo move
  let from_piece := state.GetPieceType from_sq
  if seeIgnoresMove mg move state then .done (decide (threshold ≤ 0))
  else
    let score := kSeePieceScores (state.GetPieceType to_sq) - threshold
    if score < 0 then .done false
    else
      let score := kSeePieceScores from_piece - score
      if score ≤ 0 then .done true
      else
        let occupied := ClearBit (ClearBit state.Occupied from_sq) to_sq
        .next ⟨state.turn, state.turn, seeAllAttackers mg state to_sq occupied, occupied, score⟩

/-- The exchange loop, run for at most `fuel` iterations. -/
def seeLoop (mg : MoveGen) (kSeePieceScores : PieceType → Int) (state : BoardState) (to_sq : Nat) :
    Nat → SeeState → Option Bool
  | 0, _ => none
  | fuel + 1, st =>
    match seeIter mg kSeePieceScores state to_sq st with
    | .done b => some b
    | .next st2 => seeLoop mg kSeePieceScores state to_sq fuel st2

/-- The function `StaticExchange`.  Every iteration that goes on takes a piece
off a 64-bit occupancy, so 65 iterations are allowed for. -/
def StaticExchange (mg : MoveGen) (kSeePieceScores : PieceType → Int) (move : search.Move)
    (threshold : Int) (state : BoardState) : Option Bool :=
  match seePrelude mg kSeePieceScores move threshold state with
  | .done b => some b
  | .next st => seeLoop mg kSeePieceScores state (mg.GetTo move) 65 st

/-- The state at the head of iteration `n` of the loop (counted from 0), when
the loop is entered and gets that far. -/
def seeStateAt (mg : MoveGen) (kSeePieceScores : PieceType → Int) (move : search.Move)
    (threshold : Int) (state : BoardState) : Nat → Option SeeState
  | 0 =>
    match seePrelude mg kSeePieceScores move threshold state with
    | .done _ => none
    | .next st => some st
  | n + 1 =>
    match seeStateAt mg kSeePieceScores move threshold state n with
    | none => none
    | some st =>
      match seeIter mg kSeePieceScores state (mg.GetTo move) st with
      | .done _ => none
      | .next st2 => some st2

/-- The attackers that may capture in the iteration that starts in the state
`st`; they belong to the side `FlipColor st.turn`. -/
def seeAvailable (mg : MoveGen) (state : BoardState) (to_sq : Nat) (st : SeeState) : BitBoard :=
  seeOurAttackers state (seePins mg state to_sq) (FlipColor st.turn)
    (st.all_attackers &&& st.occupied)

/-- Only kings are available to capture: there is an available attacker and
none is a pawn, knight, bishop, rook or queen. -/
def seeOnlyKings (mg : MoveGen) (state : BoardState) (to_sq : Nat) (st : SeeState) : Prop :=
  seeAvailable mg state to_sq st ≠ 0 ∧
    seeAvailable mg state to_sq st &&& state.Pawns = 0 ∧
    seeAvailable mg state to_sq st &&& state.Knights = 0 ∧
    seeAvailable mg state to_sq st &&& state.Bishops = 0 ∧
    seeAvailable mg state to_sq st &&& state.Rooks = 0 ∧
    seeAvailable mg state to_sq st &&& state.Queens = 0

instance (mg : MoveGen) (state : BoardState) (to_sq : Nat) (st : SeeState) :
    Decidable (seeOnlyKings mg state to_sq st) := by
  unfold seeOnlyKings; infer_instance

/-- The side opposing the one that captures in the iteration starting in `st`
still has a piece in the attacker set of the destination. -/
def seeOpponentAttacks (state : BoardState) (st : SeeState) : Prop :=
  (st.all_attackers &&& st.occupied) &&& state.OccupiedOf (FlipColor (FlipColor st.turn)) ≠ 0

instance (state : BoardState) (st : SeeState) : Decidable (seeOpponentAttacks state st) := by
  unfold seeOpponentAttacks; infer_instance

/-- The attackers of the opponent of the side to move that may recapture on
the destination right after the move. -/
def seeFirstDefenders (mg : MoveGen) (move : search.Move) (state : BoardState) : BitBoard :=
  let occupied := ClearBit (ClearBit state.Occupied (mg.GetFrom move)) (mg.GetTo move)
  seeOurAttackers state (seePins mg state (mg.GetTo move)) (FlipColor state.turn)
    (seeAllAttackers mg state (mg.GetTo move) occupied &&& occupied)

/-! ### The exchange in 32-bit arithmetic

`Score` and `int` are 32-bit in the source.  The definitions above keep the
score as an exact integer; the definitions below are the same code with every
value stored in `score` reduced by `toI32`. -/

/-- The code of `StaticExchange` before its loop, the variable `score` being a
32-bit `int`: the margin `*kSeePieceScores[...] - threshold` and the difference
`*kSeePieceScores[from_piece] - score` wrap. -/
def seePreludeI32 (mg : MoveGen) (kSeePieceScores : PieceType → Int) (move : search.Move)
    (threshold : Int) (state : BoardState) : SeeStep :=
  let from_sq := mg.GetFrom move
  let to_sq := mg.GetTo move
  let from_piece := state.GetPieceType from_sq
  if seeIgnoresMove mg move state then .done (decide (threshold ≤ 0))
  else
    let score := search.toI32 (kSeePieceScores (state.GetPieceType to_sq) - threshold)
    if score < 0 then .done false
    else
      let score := search.toI32 (kSeePieceScores from_piece - score)
      if score ≤ 0 then .done true
      else
        let occupied := ClearBit (ClearBit state.Occupied from_sq) to_sq
        .next ⟨state.turn, state.turn, seeAllAttackers mg state to_sq occupied, occupied, score⟩

/-- One iteration of the exchange loop, the variable `score` being a 32-bit
`int`: `-score + 1 + attacker_value` wraps. -/
def seeIterI32 (mg : MoveGen) (kSeePieceScores : PieceType → Int) (state : BoardState)
    (to_sq : Nat) (st : SeeState) : SeeStep :=
  let turn := FlipColor st.turn
  let all_attackers := st.all_attackers &&& st.occupied
  let our_attackers := seeOurAttackers state (seePins mg state to_sq) turn all_attackers
  if our_attackers = 0 then .done (decide (state.turn = st.winner))
  else
    let winner := FlipColor st.winner
    match seePick mg kSeePieceScores state to_sq our_attackers all_attackers st.occupied with
    | none =>
      if all_attackers &&& state.OccupiedOf (FlipColor turn) ≠ 0 then
        .done (decide (state.turn ≠ winner))
      else .done (decide (state.turn = winner))
    | some (attacker_value, occupied, all_attackers) =>
      let score := search.toI32 (-st.score + 1 + attacker_value)
      if score ≤ 0 then .done (decide (state.turn = winner))
      else .next ⟨turn, winner, all_attackers, occupied, score⟩

/-- The exchange loop in 32-bit arithmetic, run for at most `fuel` iterations.
-/
def seeLoopI32 (mg : MoveGen) (kSeePieceScores : PieceType → Int) (state : BoardState)
    (to_sq : Nat) : Nat → SeeState → Option Bool
  | 0, _ => none
  | fuel + 1, st =>
    match seeIterI32 mg kSeePieceScores state to_sq st with
    | .done b => some b
    | .next st2 => seeLoopI32 mg kSeePieceScores state to_sq fuel st2

/-- The function `StaticExchange` in 32-bit arithmetic.  Every iteration that
goes on takes a piece off a 64-bit occupancy, so 65 iterations are allowed for.
-/
def StaticExchangeI32 (mg : MoveGen) (kSeePieceScores : PieceType → Int) (move : search.Move)
    (threshold : Int) (state : BoardState) : Option Bool :=
  match seePreludeI32 mg kSeePieceScores move threshold state with
  | .done b => some b
  | .next st => seeLoopI32 mg kSeePieceScores state (mg.GetTo move) 65 st

end eval


namespace search

namespace history

open chess

/-- Conversion of an integer to `I16` (two's complement wrap). -/
def toI16 (x : Int) : Int := (x + 2 ^ 15) % 2 ^ 16 - 2 ^ 15

/-- The scale shared by the history weights. -/
def kHistoryWeightScale : Int := 1024

/-- Modelled from the spec: `kSquareCount`, declared in an absent header; a
board has 64 squares. -/
def kSquareCount : Nat := 64

/-- Modelled from the spec: `kNumPieceTypes`, declared in an absent header;
there are six piece types. -/
def kNumPieceTypes : Nat := 6

/-- Size of the pawn-key index space, `2 ^ 14`. -/
def kPawnCount : Nat := 16384

/-- The tunable weights of `GetMoveScore` (`TUNABLE` values, each declared
with the range 0 to 2048). -/
structure HistoryWeights where
  kQuietHistoryWeight : Int
  kFirstContinuationHistoryWeight : Int
  kSecondContinuationHistoryWeight : Int
  kFourthContinuationHistoryWeight : Int
  kPawnHistoryWeight : Int

/-- The weights lie in their declared range. -/
def HistoryWeights.inRange (w : HistoryWeights) : Prop :=
  (0 ≤ w.kQuietHistoryWeight ∧ w.kQuietHistoryWeight ≤ 2048) ∧
  (0 ≤ w.kFirstContinuationHistoryWeight ∧ w.kFirstContinuationHistoryWeight ≤ 2048) ∧
  (0 ≤ w.kSecondContinuationHistoryWeight ∧ w.kSecondContinuationHistoryWeight ≤ 2048) ∧
  (0 ≤ w.kFourthContinuationHistoryWeight ∧ w.kFourthContinuationHistoryWeight ≤ 2048) ∧
  (0 ≤ w.kPawnHistoryWeight ∧ w.kPawnHistoryWeight ≤ 2048)

instance (w : HistoryWeights) : Decidable w.inRange := by
  unfold HistoryWeights.inRange; infer_instance

/-- A value fits the type `I16`. -/
def isI16 (x : Int) : Prop := -32768 ≤ x ∧ x ≤ 32767

instance (x : Int) : Decidable (isI16 x) := by
  unfold isI16; infer_instance

/-- One frame of the search stack, as far as the history tables read it. -/
structure StackEntry where
  move : Move
  threats : BitBoard

/-- The statement `score += x * weight` on an `I32` accumulator. -/
def addWeighted (score x weight : Int) : Int := toI32 (score + toI32 (x * weight))

/-- The weighted combination in the words of the design document: the
capture score alone for a capture, else the sub-scores times their weights,
summed and divided by the scale with truncation. -/
def specMoveScore (w : HistoryWeights) (is_capture : Bool) (capture q c1 c2 c4 p : Int) : Int :=
  if is_capture = true then capture
  else
    (q * w.kQuietHistoryWeight + c1 * w.kFirstContinuationHistoryWeight +
      c2 * w.kSecondContinuationHistoryWeight + c4 * w.kFourthContinuationHistoryWeight +
      p * w.kPawnHistoryWeight).tdiv 1024

/-! ### Segmented design -/

/-- The five tables of the segmented design; their classes are declared in
absent headers, so each is given by its `GetScore`.  A stack pointer is the
view of the frames at and below it. -/
structure SegmentedTables where
  quietGetScore : BoardState → Move → BitBoard → Int
  continuationGetScore : BoardState → Move → (Nat → StackEntry) → Int
  pawnGetScore : BoardState → Move → Int
  captureGetScore : BoardState → Move → Int

namespace History

/-- The function `History::GetCaptureMoveScore`. -/
def GetCaptureMoveScore (tables : SegmentedTables) (state : BoardState) (move : Move) : Int :=
  tables.captureGetScore state move

/-- The function `History::GetQuietMoveScore`; `stack k` is the frame
`stack - k`. -/
def GetQuietMoveScore (w : HistoryWeights) (tables : SegmentedTables) (state : BoardState)
    (move : Move) (stack : Nat → StackEntry) : Int :=
  let move_score := 0
  let move_score := addWeighted move_score
    (tables.quietGetScore state move (stack 0).threats) w.kQuietHistoryWeight
  let move_score := addWeighted move_score
    (tables.continuationGetScore state move (fun k => stack (k + 1)))
    w.kFirstContinuationHistoryWeight
  let move_score := addWeighted move_score
    (tables.continuationGetScore state move (fun k => stack (k + 2)))
    w.kSecondContinuationHistoryWeight
  let move_score := addWeighted move_score
    (tables.continuationGetScore state move (fun k => stack (k + 4)))
    w.kFourthContinuationHistoryWeight
  let move_score := addWeighted move_score (tables.pawnGetScore state move) w.kPawnHistoryWeight
  move_score.tdiv kHistoryWeightScale

/-- The function `History::GetMoveScore`. -/
def GetMoveScore (mg : eval.MoveGen) (w : HistoryWeights) (tables : SegmentedTables)
    (state : BoardState) (move : Move) (stack : Nat → StackEntry) : Int :=
  if mg.IsCapture move state = true then GetCaptureMoveScore tables state move
  else GetQuietMoveScore w tables state move stack

end History

/-! ### Unified design -/

/-- The record `HistoryEntry`. -/
structure HistoryEntry where
  quiet_score : Nat → Nat → Int
  capture_score : Int
  continuation_scores : Nat → Int
  pawn_score : Int
  correction_score : Int

/-- The tables of `UnifiedHistory`. -/
structure UnifiedHistory where
  main_table_ : Nat → HistoryEntry
  continuation_table_ : Nat → HistoryEntry
  pawn_table_ : Nat → Int
  capture_table_ : Nat → Nat → Nat → Nat → Int
  correction_table_ : Nat → Int

/-- The `HistoryEntry` all of whose bytes are zero. -/
def zeroHistoryEntry : HistoryEntry :=
  { quiet_score := fun _ _ => 0, capture_score := 0, continuation_scores := fun _ => 0,
    pawn_score := 0, correction_score := 0 }

/-- The function template `std::clamp`. -/
def stdClamp (v lo hi : Int) : Int := if v < lo then lo else if hi < v then hi else v

/-- The saturating sum in the words of the design document. -/
def specSaturatingSum (s b : Int) : Int := min 32000 (max (-32000) (s + b))

/-- Modelled from the spec: `ScaleBonus` is declared in the absent header
`bonus.h`; the increment is `bonus - stored_score * |bonus| / max_magnitude`
with the truncating division of C++. -/
def ScaleBonus (max_magnitude : Int) (score bonus : Int) : Int :=
  bonus - (score * |bonus|).tdiv max_magnitude

/-- The scores obtained by applying the same bonus again and again to a score
that starts at 0: `s_(n+1) = s_n + ScaleBonus(s_n, b)`. -/
def gravitySeq (max_magnitude bonus : Int) : Nat → Int
  | 0 => 0
  | n + 1 => gravitySeq max_magnitude bonus n +
      ScaleBonus max_magnitude (gravitySeq max_magnitude bonus n) bonus

namespace UnifiedHistory

/-- The function `Clear`: all five tables are zeroed. -/
def Clear (_h : UnifiedHistory) : UnifiedHistory :=
  { main_table_ := fun _ => zeroHistoryEntry
    continuation_table_ := fun _ => zeroHistoryEntry
    pawn_table_ := fun _ => 0
    capture_table_ := fun _ _ _ _ => 0
    correction_table_ := fun _ => 0 }

/-- The function `GetMainIndex`. -/
def GetMainIndex (mg : eval.MoveGen) (turn : Color) (move : Move) : Nat :=
  turn.toNat * kSquareCount * kSquareCount + mg.GetFrom move * kSquareCount + mg.GetTo move

/-- The function `GetContinuationIndex`; `piece` is a `U8`. -/
def GetContinuationIndex (mg : eval.MoveGen) (piece : Nat) (to_sq : Nat) (move : Move) : Nat :=
  let piece_type := piece &&& 7
  let color := piece >>> 3
  (color * kNumPieceTypes + piece_type) * kSquareCount * kSquareCount +
    to_sq * kSquareCount + mg.GetTo move

/-- The function `GetPawnIndex`. -/
def GetPawnIndex (turn : Color) (pawn_key : Nat) (to_sq : Nat) : Nat :=
  (turn.toNat * kPawnCount + (pawn_key &&& (kPawnCount - 1))) * kSquareCount + to_sq

/-- The function `GetCorrectionIndex`. -/
def GetCorrectionIndex (turn : Color) (pawn_key : Nat) : Nat :=
  turn.toNat * 16384 + (pawn_key &&& 16383)

/-- The function `GetQuietScore`. -/
def GetQuietScore (mg : eval.MoveGen) (h : UnifiedHistory) (state : BoardState) (move : Move)
    (threats : BitBoard) : Int :=
  let idx := GetMainIndex mg state.turn move
  let entry := h.main_table_ idx
  let from_threat := if IsSet threats (mg.GetFrom move) = true then 1 else 0
  let to_threat := if IsSet threats (mg.GetTo move) = true then 1 else 0
  entry.quiet_score from_threat to_threat

/-- The function `GetCaptureScore`. -/
def GetCaptureScore (mg : eval.MoveGen) (h : UnifiedHistory) (state : BoardState)
    (move : Move) : Int :=
  let from_sq := mg.GetFrom move
  let to_sq := mg.GetTo move
  let attacker := state.GetPieceType from_sq
  let victim := if mg.IsEnPassant move state = true then PieceType.kPawn
    else state.GetPieceType to_sq
  h.capture_table_ state.turn.toNat attacker.toNat to_sq victim.toNat

/-- The function `GetContinuationScore`; `stack` is `none` for a null pointer
and `stack k` is the frame `stack - k`. -/
def GetContinuationScore (mg : eval.MoveGen) (h : UnifiedHistory) (state : BoardState)
    (move : Move) (stack : Option (Nat → StackEntry)) (ply_offset : Int) : Int :=
  if ply_offset < 0 ∨ ply_offset > 4 then 0
  else
    match stack with
    | none => 0
    | some frames =>
      if (frames ply_offset.toNat).move.toBool = false then 0
      else
        let prev_move := (frames ply_offset.toNat).move
        let prev_to := mg.GetTo prev_move
        let prev_piece_type := state.GetPieceType prev_to
        let prev_color := state.GetPieceColor prev_to
        let prev_piece := (prev_piece_type.toNat * 2 + prev_color.toNat) % 256
        if prev_piece_type = .kNone then 0
        else
          let cont_idx := GetContinuationIndex mg prev_piece prev_to move
          let score_idx := if ply_offset = 1 then 0 else if ply_offset = 2 then 1 else 2
          (h.continuation_table_ cont_idx).continuation_scores score_idx

/-- The function `GetPawnScore`. -/
def GetPawnScore (mg : eval.MoveGen) (h : UnifiedHistory) (state : BoardState) (move : Move) :
    Int :=
  let pawn_key := state.pawn_key
  let idx := GetPawnIndex state.turn pawn_key (mg.GetTo move)
  h.pawn_table_ idx

/-- The function `UnifiedHistory::GetMoveScore`. -/
def GetMoveScore (mg : eval.MoveGen) (w : HistoryWeights) (h : UnifiedHistory)
    (state : BoardState) (move : Move) (stack : Nat → StackEntry) : Int :=
  if mg.IsCapture move state = true then GetCaptureScore mg h state move
  else
    let score := 0
    let threats := (stack 0).threats
    let score := addWeighted score (GetQuietScore mg h state move threats) w.kQuietHistoryWeight
    let score := addWeighted score (GetContinuationScore mg h state move (some stack) 1)
      w.kFirstContinuationHistoryWeight
    let score := addWeighted score (GetContinuationScore mg h state move (some stack) 2)
      w.kSecondContinuationHistoryWeight
    let score := addWeighted score (GetContinuationScore mg h state move (some stack) 4)
      w.kFourthContinuationHistoryWeight
    let score := addWeighted score (GetPawnScore mg h state move) w.kPawnHistoryWeight
    score.tdiv kHistoryWeightScale

/-- The function `UpdateCorrectionScore`: `score + bonus` is an `int`, it is
converted to `I16` for `std::clamp<I16>` and then clamped. -/
def UpdateCorrectionScore (h : UnifiedHistory) (state : BoardState) (pawn_key : Nat)
    (bonus : Int) : UnifiedHistory :=
  let idx := GetCorrectionIndex state.turn pawn_key
  let score := h.correction_table_ idx
  { h with
    correction_table_ := fun i =>
      if i = idx then stdClamp (toI16 (score + bonus)) (-32000) 32000
      else h.correction_table_ i }

/-- A call of `UpdateCorrectionScore`: the snapshot, the pawn key and the
bonus. -/
structure CorrectionCall where
  state : BoardState
  pawn_key : Nat
  bonus : Int

/-- A sequence of calls of `UpdateCorrectionScore`, in order. -/
def applyCorrections (calls : List CorrectionCall) (h : UnifiedHistory) : UnifiedHistory :=
  calls.foldl (fun h c => UpdateCorrectionScore h c.state c.pawn_key c.bonus) h

end UnifiedHistory

end history

end search


/-! ### Sample positions

A small move generator by plain geometry (square = rank * 8 + file) and four
positions for the exchange evaluator. -/

namespace eval

open chess

/-- The square reached from `sq` by `df` files and `dr` ranks, as a one-bit
board; empty when it falls off the board. -/
def sampleStep (sq : Nat) (df dr : Int) : BitBoard :=
  let f := ((sq % 8 : Nat) : Int) + df
  let r := ((sq / 8 : Nat) : Int) + dr
  if 0 ≤ f ∧ f ≤ 7 ∧ 0 ≤ r ∧ r ≤ 7 then 2 ^ (r * 8 + f).toNat else 0

/-- The squares seen from `sq` in the direction `(df, dr)` up to and including
the first occupied one; `n` steps remain. -/
def sampleSlide (occ : BitBoard) (df dr : Int) : Nat → Nat → BitBoard
  | 0, _ => 0
  | n + 1, sq =>
    let t := sampleStep sq df dr
    if t = 0 then 0
    else if occ &&& t ≠ 0 then t
    else t ||| sampleSlide occ df dr n (GetLsb t)

/-- The full line through `a` in the direction `(df, dr)`. -/
def sampleLine (a : Nat) (df dr : Int) : BitBoard :=
  2 ^ a ||| sampleSlide 0 df dr 7 a ||| sampleSlide 0 (-df) (-dr) 7 a

/-- A move generator for the sample positions; a move is encoded as
`from + 64 * to`, and no sample move is en passant. -/
def sampleMoveGen : MoveGen :=
  { GetFrom := fun m => m.data % 64
    GetTo := fun m => m.data / 64 % 64
    IsEnPassant := fun _ _ => false
    IsCapture := fun m s => decide (s.GetPieceType (m.data / 64 % 64) ≠ PieceType.kNone)
    PawnAttacks := fun sq c =>
      match c with
      | .kWhite => sampleStep sq (-1) 1 ||| sampleStep sq 1 1
      | .kBlack => sampleStep sq (-1) (-1) ||| sampleStep sq 1 (-1)
    KnightMoves := fun sq =>
      sampleStep sq 1 2 ||| sampleStep sq 2 1 ||| sampleStep sq 2 (-1) ||| sampleStep sq 1 (-2) |||
        sampleStep sq (-1) (-2) ||| sampleStep sq (-2) (-1) ||| sampleStep sq (-2) 1 |||
        sampleStep sq (-1) 2
    KingAttacks := fun sq =>
      sampleStep sq 1 0 ||| sampleStep sq 1 1 ||| sampleStep sq 0 1 ||| sampleStep sq (-1) 1 |||
        sampleStep sq (-1) 0 ||| sampleStep sq (-1) (-1) ||| sampleStep sq 0 (-1) |||
        sampleStep sq 1 (-1)
    BishopMoves := fun sq occ =>
      sampleSlide occ 1 1 7 sq ||| sampleSlide occ 1 (-1) 7 sq ||| sampleSlide occ (-1) 1 7 sq |||
        sampleSlide occ (-1) (-1) 7 sq
    RookMoves := fun sq occ =>
      sampleSlide occ 1 0 7 sq ||| sampleSlide occ (-1) 0 7 sq ||| sampleSlide occ 0 1 7 sq |||
        sampleSlide occ 0 (-1) 7 sq
    RayIntersecting := fun a b =>
      if (sampleLine a 1 0).testBit b then sampleLine a 1 0
      else if (sampleLine a 0 1).testBit b then sampleLine a 0 1
      else if (sampleLine a 1 1).testBit b then sampleLine a 1 1
      else if (sampleLine a 1 (-1)).testBit b then sampleLine a 1 (-1)
      else 0 }

/-- Sample exchange values: pawn 100, knight and bishop 300, rook 500, queen
900. -/
def sampleSeeScores : PieceType → Int
  | .kPawn => 100
  | .kKnight => 300
  | .kBishop => 300
  | .kRook => 500
  | .kQueen => 900
  | .kKing => 0
  | .kNone => 0

/-- A piece on the board: its square, type and colour. -/
structure SamplePiece where
  sq : Nat
  type : PieceType
  color : Color

/-- The squares of the pieces that satisfy `p`. -/
def sampleBits (pieces : List SamplePiece) (p : SamplePiece → Bool) : BitBoard :=
  (pieces.filter p).foldl (fun b x => b ||| 2 ^ x.sq) 0

/-- The snapshot of a list of pieces, without pins. -/
def sampleBoard (turn : Color) (key : Nat) (pieces : List SamplePiece) : BoardState :=
  { turn := turn
    zobrist_key := key
    pawn_key := key
    GetPieceType := fun sq =>
      match pieces.find? (fun x => decide (x.sq = sq)) with
      | some x => x.type
      | none => .kNone
    GetPieceColor := fun sq =>
      match pieces.find? (fun x => decide (x.sq = sq)) with
      | some x => x.color
      | none => .kWhite
    Pawns := sampleBits pieces (fun x => decide (x.type = .kPawn))
    Knights := sampleBits pieces (fun x => decide (x.type = .kKnight))
    Bishops := sampleBits pieces (fun x => decide (x.type = .kBishop))
    Rooks := sampleBits pieces (fun x => decide (x.type = .kRook))
    Queens := sampleBits pieces (fun x => decide (x.type = .kQueen))
    Kings := sampleBits pieces (fun x => decide (x.type = .kKing))
    PawnsOf := fun c => sampleBits pieces (fun x => decide (x.type = .kPawn ∧ x.color = c))
    KingOf := fun c => sampleBits pieces (fun x => decide (x.type = .kKing ∧ x.color = c))
    Occupied := sampleBits pieces (fun _ => true)
    OccupiedOf := fun c => sampleBits pieces (fun x => decide (x.color = c))
    pinned := fun _ => 0 }

/-- White to move: Kg1, Qd4 against Kg8, pawns d5 and e6.  The queen may take
the pawn d5, which the pawn e6 defends. -/
def sampleDefended : BoardState :=
  sampleBoard .kWhite 70001
    [⟨6, .kKing, .kWhite⟩, ⟨27, .kQueen, .kWhite⟩, ⟨62, .kKing, .kBlack⟩,
      ⟨35, .kPawn, .kBlack⟩, ⟨44, .kPawn, .kBlack⟩]

/-- White to move: Kg1, Qd4 against Kg8, pawn d5.  Nothing defends the pawn. -/
def sampleUndefended : BoardState :=
  sampleBoard .kWhite 70002
    [⟨6, .kKing, .kWhite⟩, ⟨27, .kQueen, .kWhite⟩, ⟨62, .kKing, .kBlack⟩,
      ⟨35, .kPawn, .kBlack⟩]

/-- White to move: Kg1, pawn e4 against Kg8, Qd5, pawn e6.  The pawn may take
the queen. -/
def samplePawnTakesQueen : BoardState :=
  sampleBoard .kWhite 70003
    [⟨6, .kKing, .kWhite⟩, ⟨28, .kPawn, .kWhite⟩, ⟨62, .kKing, .kBlack⟩,
      ⟨35, .kQueen, .kBlack⟩, ⟨44, .kPawn, .kBlack⟩]

/-- White to move: Kg1, Rd1, pawn c4 against Ke6, pawn d5.  The rook may take
the pawn, which only the king defends, while the pawn c4 attacks d5 too. -/
def sampleKingDefends : BoardState :=
  sampleBoard .kWhite 70004
    [⟨6, .kKing, .kWhite⟩, ⟨3, .kRook, .kWhite⟩, ⟨26, .kPawn, .kWhite⟩,
      ⟨44, .kKing, .kBlack⟩, ⟨35, .kPawn, .kBlack⟩]

/-- The state in which the loop is entered after the rook d1 has taken the
pawn d5 in `sampleKingDefends` with threshold 0. -/
def sampleKingEntry : SeeState :=
  { turn := .kWhite
    winner := .kWhite
    all_attackers := seeAllAttackers sampleMoveGen sampleKingDefends 35
      (ClearBit (ClearBit sampleKingDefends.Occupied 3) 35)
    occupied := ClearBit (ClearBit sampleKingDefends.Occupied 3) 35
    score := 400 }

/-- The move from `from_sq` to `to_sq` in the encoding of `sampleMoveGen`. -/
def sampleMove (from_sq to_sq : Nat) : search.Move := ⟨from_sq + 64 * to_sq⟩

/-- An evaluation cache that holds the score 55 for the key 70002. -/
def sampleCache : EvalCache := (EvalCache.Clear ⟨fun _ => ⟨0, 0⟩⟩).Store 70002 55

end eval

namespace search

namespace history

open chess

/-- The default weights of the source. -/
def sampleWeights : HistoryWeights :=
  { kQuietHistoryWeight := 984
    kFirstContinuationHistoryWeight := 1192
    kSecondContinuationHistoryWeight := 949
    kFourthContinuationHistoryWeight := 969
    kPawnHistoryWeight := 1047 }

/-- Segmented tables with constant scores. -/
def sampleTables : SegmentedTables :=
  { quietGetScore := fun _ _ _ => 100
    continuationGetScore := fun _ _ _ => -50
    pawnGetScore := fun _ _ => 7
    captureGetScore := fun _ _ => 300 }

/-- A cleared unified history. -/
def sampleHistory : UnifiedHistory :=
  UnifiedHistory.Clear
    { main_table_ := fun _ => zeroHistoryEntry
      continuation_table_ := fun _ => zeroHistoryEntry
      pawn_table_ := fun _ => 0
      capture_table_ := fun _ _ _ _ => 0
      correction_table_ := fun _ => 0 }

/-- A search stack without moves and threats. -/
def sampleStack : Nat → StackEntry := fun _ => ⟨⟨0⟩, 0⟩

end history

end search


namespace search

namespace TranspositionTable

/-- A call made on the table by the search: `Age()`, or `Save` on the slot
that `Probe` returns for the same key. -/
inductive TTOp where
  | age
  | save (key : Nat) (new_entry : TranspositionTableEntry) (ply : Int) (in_pv : Bool)

/-- The low 16 bits of the key of a `Save` are not zero (an `Age` has no key).
-/
def TTOp.keyNonzero : TTOp → Prop
  | .age => True
  | .save key _ _ _ => key % 65536 ≠ 0

/-- The table after one call. -/
def applyOp (kTTClusterSize : Nat) (kMaxTTAge : Int) (index : Nat → Nat) (kExact : Nat)
    (CorrectScore : Int → Int → Int) (t : TranspositionTable) : TTOp → TranspositionTable
  | .age => Age kMaxTTAge t
  | .save key new_entry ply in_pv =>
    Save kExact CorrectScore t (Probe kTTClusterSize kMaxTTAge index t key) new_entry key ply
      in_pv

/-- The table after a sequence of calls, in order. -/
def applyOps (kTTClusterSize : Nat) (kMaxTTAge : Int) (index : Nat → Nat) (kExact : Nat)
    (CorrectScore : Int → Int → Int) (ops : List TTOp) (t : TranspositionTable) :
    TranspositionTable :=
  ops.foldl (applyOp kTTClusterSize kMaxTTAge index kExact CorrectScore) t

/-- The empty slots of a cluster come after its used slots. -/
def emptySlotsLast (kTTClusterSize : Nat) (cluster : TranspositionTableCluster) : Prop :=
  ∀ i j, i ≤ j → j < kTTClusterSize → (cluster.entries i).key = 0 →
    (cluster.entries j).key = 0

/-- The access `table_[i]`: the table owns the clusters `0` to
`table_size_ - 1`; an index that is not below `table_size_` is outside the
allocation, and the access has no defined value (`none`). -/
def clusterAt (t : TranspositionTable) (i : Nat) : Option TranspositionTableCluster :=
  if i < t.table_size_ then some (t.table_ i) else none

/-- The function `HashFull` with every access `table_[i]` of its loop checked
against the allocation: `none` when an access falls outside the table. -/
def HashFullChecked (kTTClusterSize : Nat) (kScoreNone : Int) (t : TranspositionTable) :
    Option Nat :=
  let count := (List.range 1000).foldl
    (fun count i =>
      match count, clusterAt t i with
      | some count, some cluster =>
        some (count + countIf kTTClusterSize (isLive kScoreNone t) cluster)
      | _, _ => none)
    (some 0)
  count.map (fun count => count / kTTClusterSize)

/-- The `memset` of one worker of `Clear` checked against the allocation of
`table_size_` clusters: `none` when the range `[start, start + count)` is not
inside the table, or when an earlier worker has already left it. -/
def memsetZeroChecked (table_size_ : Nat) (mem : Option (Nat → TranspositionTableCluster))
    (start count : Nat) : Option (Nat → TranspositionTableCluster) :=
  match mem with
  | none => none
  | some mem => if start + count ≤ table_size_ then some (memsetZero mem start count) else none

/-- The function `Clear` with the `memset` of every worker checked against the
allocation: `none` when a worker writes outside the table. -/
def ClearChecked (t : TranspositionTable) (num_threads : Nat) : Option TranspositionTable :=
  let chunks := clearChunks t.table_size_ num_threads
  match (List.range num_threads).foldl
      (fun mem i =>
        memsetZeroChecked t.table_size_ mem (clearIndex chunks i)
          (clearCount t.table_size_ chunks i))
      (some t.table_) with
  | none => none
  | some table_ => some { t with table_ := table_, age_ := 0 }

/-- A table of two zeroed clusters, the memory behind it being zero. -/
def sampleTinyTable : TranspositionTable :=
  { table_ := fun _ => zeroCluster, table_size_ := 2, age_ := 0 }

/-- A table of one cluster. -/
def sampleOneCluster : TranspositionTable :=
  { table_ := fun _ => zeroCluster, table_size_ := 1, age_ := 0 }

/-- A candidate entry of the given depth with a lower bound. -/
def sampleEntry (depth : Int) : TranspositionTableEntry :=
  { zeroEntry with score := 10, depth := depth, flag := 1 }

/-- Four saves into the one cluster: keys 1, 2 and 3 with depths 1, 5 and 9
fill the three slots, then the key 65536, whose low 16 bits are zero, replaces
the slot of least quality. -/
def sampleOps : List TTOp :=
  [.save 1 (sampleEntry 1) 0 false, .save 2 (sampleEntry 5) 0 false,
    .save 3 (sampleEntry 9) 0 false, .save 65536 (sampleEntry 1) 0 false]

/-- Three saves into the one cluster: keys 1, 2 and 3. -/
def sampleOpsNonzero : List TTOp :=
  [.save 1 (sampleEntry 1) 0 false, .age, .save 2 (sampleEntry 5) 0 false,
    .save 3 (sampleEntry 9) 0 false]

end TranspositionTable

end search

namespace eval

open chess

namespace EvalCache

/-- A call of `Store`: the key and the score. -/
structure StoreCall where
  key : Nat
  score : Int

/-- The cache after a sequence of calls of `Store`, in order. -/
def applyStores (stores : List StoreCall) (c : EvalCache) : EvalCache :=
  stores.foldl (fun c s => c.Store s.key s.score) c

end EvalCache

/-- The variable `next_attacker` of the iteration: the pawns among the
available attackers, else the knights, bishops, rooks or queens among them;
zero when only a king is left. -/
def seeNextAttacker (state : BoardState) (our_attackers : BitBoard) : BitBoard :=
  if our_attackers &&& state.Pawns ≠ 0 then our_attackers &&& state.Pawns
  else if our_attackers &&& state.Knights ≠ 0 then our_attackers &&& state.Knights
  else if our_attackers &&& state.Bishops ≠ 0 then our_attackers &&& state.Bishops
  else if our_attackers &&& state.Rooks ≠ 0 then our_attackers &&& state.Rooks
  else if our_attackers &&& state.Queens ≠ 0 then our_attackers &&& state.Queens
  else 0

/-- The square of the attacker that the iteration starting in `st` selects and
takes off the occupancy, if it selects one. -/
def seeSelected (mg : MoveGen) (state : BoardState) (to_sq : Nat) (st : SeeState) :
    Option Nat :=
  if seeNextAttacker state (seeAvailable mg state to_sq st) = 0 then none
  else some (GetLsb (seeNextAttacker state (seeAvailable mg state to_sq st)))

/-- White to move: Kc1, Rd1, Bc3 against Kh8, pawns d5 and e6, knight f6.  The
bishop c3 pins the knight f6 to the king h8, and d5 is not on the line through
the knight and the king; the rook may take the pawn d5. -/
def samplePinned : BoardState :=
  { sampleBoard .kWhite 70005
      [⟨2, .kKing, .kWhite⟩, ⟨3, .kRook, .kWhite⟩, ⟨18, .kBishop, .kWhite⟩,
        ⟨63, .kKing, .kBlack⟩, ⟨35, .kPawn, .kBlack⟩, ⟨44, .kPawn, .kBlack⟩,
        ⟨45, .kKnight, .kBlack⟩] with
    pinned := fun c =>
      match c with
      | .kWhite => 0
      | .kBlack => 2 ^ 45 }

/-- The state in which the loop is entered after the rook d1 has taken the
pawn d5 in `samplePinned` with threshold 0. -/
def samplePinnedEntry : SeeState :=
  { turn := .kWhite
    winner := .kWhite
    all_attackers := seeAllAttackers sampleMoveGen samplePinned 35
      (ClearBit (ClearBit samplePinned.Occupied 3) 35)
    occupied := ClearBit (ClearBit samplePinned.Occupied 3) 35
    score := 400 }

end eval

namespace data_gen

/-- The statement of `Generate` that fits the number of games to the number of
threads: `config.num_games -= config.num_games % config.num_threads`. -/
def roundNumGames (num_games num_threads : Nat) : Nat := num_games - num_games % num_threads

/-- The modulus of the progress report in `GameLoop`:
`std::min<U64>(config.num_games / 50, 1000ULL)`. -/
def progressModulus (num_games : Nat) : Nat := min (num_games / 50) 1000

/-- The test `completed % modulus == 0 || completed == 1` of `GameLoop`; the
remainder is taken first, and `none` stands for a remainder by zero. -/
def progressTest (num_games completed : Nat) : Option Bool :=
  if progressModulus num_games = 0 then none
  else some (decide (completed % progressModulus num_games = 0) || decide (completed = 1))

end data_gen


/-! # Properties -/

namespace search

namespace TranspositionTable

theorem deref_store (t : TranspositionTable) (p : EntryPtr) (e : TranspositionTableEntry) :
    (t.store p e).deref p = e := by
  simp [deref, store]

theorem store_age (t : TranspositionTable) (p : EntryPtr) (e : TranspositionTableEntry) :
    (t.store p e).age_ = t.age_ := rfl

/-- The scan stops at the first slot that hits. -/
theorem probeLoop_hit (kMaxTTAge : Int) (t : TranspositionTable)
    (cluster : TranspositionTableCluster) (key16 : Nat) :
    ∀ (n i : Nat) (mq : Int) (mi j : Nat), i ≤ j → j < i + n → hits cluster key16 j →
      (∀ k, i ≤ k → k < j → ¬ hits cluster key16 k) →
      probeLoop kMaxTTAge t cluster key16 n i mq mi = j := by
  intro n
  induction n with
  | zero => intro i mq mi j h1 h2; omega
  | succ n ih =>
    intro i mq mi j h1 h2 hj hbefore
    by_cases hij : i = j
    · subst hij
      have hj2 : (cluster.entries i).key = 0 ∨ (cluster.entries i).key = key16 := hj
      simp only [probeLoop, hj2, if_true]
    · have hi : ¬ ((cluster.entries i).key = 0 ∨ (cluster.entries i).key = key16) :=
        hbefore i (le_refl i) (by omega)
      have hrec : ∀ mq2 mi2, probeLoop kMaxTTAge t cluster key16 n (i + 1) mq2 mi2 = j :=
        fun mq2 mi2 => ih (i + 1) mq2 mi2 j (by omega) (by omega) hj
          (fun k hk1 hk2 => hbefore k (by omega) hk2)
      simp only [probeLoop, hi, if_false]
      split
      · exact hrec _ _
      · exact hrec _ _

/-- When no slot hits, the scan returns the slot of least quality seen, the
earliest one among equals; the running minimum `mq` at `mi` is kept when no
later slot is strictly below it. -/
theorem probeLoop_miss (kMaxTTAge : Int) (t : TranspositionTable)
    (cluster : TranspositionTableCluster) (key16 : Nat) :
    ∀ (n i : Nat) (mq : Int) (mi : Nat),
      (∀ k, i ≤ k → k < i + n → ¬ hits cluster key16 k) →
      (probeLoop kMaxTTAge t cluster key16 n i mq mi = mi ∧
        ∀ k, i ≤ k → k < i + n → mq ≤ quality kMaxTTAge t (cluster.entries k)) ∨
      (i ≤ probeLoop kMaxTTAge t cluster key16 n i mq mi ∧
        probeLoop kMaxTTAge t cluster key16 n i mq mi < i + n ∧
        quality kMaxTTAge t
          (cluster.entries (probeLoop kMaxTTAge t cluster key16 n i mq mi)) < mq ∧
        (∀ k, i ≤ k → k < i + n →
          quality kMaxTTAge t
            (cluster.entries (probeLoop kMaxTTAge t cluster key16 n i mq mi)) ≤
          quality kMaxTTAge t (cluster.entries k)) ∧
        (∀ k, i ≤ k → k < probeLoop kMaxTTAge t cluster key16 n i mq mi →
          quality kMaxTTAge t
            (cluster.entries (probeLoop kMaxTTAge t cluster key16 n i mq mi)) <
          quality kMaxTTAge t (cluster.entries k))) := by
  intro n
  induction n with
  | zero =>
    intro i mq mi _
    left
    exact ⟨rfl, fun k h1 h2 => by omega⟩
  | succ n ih =>
    intro i mq mi hno
    have hi : ¬ ((cluster.entries i).key = 0 ∨ (cluster.entries i).key = key16) :=
      hno i (le_refl i) (by omega)
    have hno2 : ∀ k, i + 1 ≤ k → k < i + 1 + n → ¬ hits cluster key16 k :=
      fun k h1 h2 => hno k (by omega) (by omega)
    simp only [probeLoop, hi, if_false]
    by_cases hq : quality kMaxTTAge t (cluster.entries i) < mq
    · simp only [hq, if_true]
      rcases ih (i + 1) (quality kMaxTTAge t (cluster.entries i)) i hno2 with
        ⟨hr, hall⟩ | ⟨h1, h2, h3, h4, h5⟩
      · right
        rw [hr]
        refine ⟨le_refl i, by omega, hq, ?_, fun k h1 h2 => by omega⟩
        intro k h1 h2
        by_cases hk : k = i
        · subst hk; exact le_refl _
        · exact hall k (by omega) (by omega)
      · right
        refine ⟨by omega, by omega, lt_trans h3 hq, ?_, ?_⟩
        · intro k hk1 hk2
          by_cases hk : k = i
          · subst hk; exact le_of_lt h3
          · exact h4 k (by omega) (by omega)
        · intro k hk1 hk2
          by_cases hk : k = i
          · subst hk; exact h3
          · exact h5 k (by omega) hk2
    · simp only [hq, if_false]
      rcases ih (i + 1) mq mi hno2 with ⟨hr, hall⟩ | ⟨h1, h2, h3, h4, h5⟩
      · left
        refine ⟨hr, ?_⟩
        intro k h1 h2
        by_cases hk : k = i
        · subst hk; exact not_lt.mp hq
        · exact hall k (by omega) (by omega)
      · right
        refine ⟨by omega, by omega, h3, ?_, ?_⟩
        · intro k hk1 hk2
          by_cases hk : k = i
          · subst hk; exact le_of_lt (lt_of_lt_of_le h3 (not_lt.mp hq))
          · exact h4 k (by omega) (by omega)
        · intro k hk1 hk2
          by_cases hk : k = i
          · subst hk; exact lt_of_lt_of_le h3 (not_lt.mp hq)
          · exact h5 k (by omega) hk2

/-- After `saveEntry` the slot holds the low 16 bits of the key, whether or
not the fields were overwritten. -/
theorem saveEntry_key (kExact : Nat) (CorrectScore : Int → Int → Int) (age_ : Int)
    (e0 new_entry : TranspositionTableEntry) (key : Nat) (ply : Int) (in_pv : Bool) :
    (saveEntry kExact CorrectScore age_ e0 new_entry key ply in_pv).key = key % 65536 := by
  unfold saveEntry
  dsimp only
  by_cases hk : e0.key = key % 65536
  · split_ifs <;> simp_all
  · have h1 : e0.CompareKey key = false := by
      simp [TranspositionTableEntry.CompareKey, hk]
    simp [h1, overwrites, TranspositionTableEntry.CompareKey, hk]

/-- With at least one slot, the scan returns a slot of the cluster before
which no slot hits. -/
theorem probeLoop_first (kMaxTTAge : Int) (t : TranspositionTable)
    (cluster : TranspositionTableCluster) (key16 n : Nat) (mq : Int) (hn : 0 < n) :
    probeLoop kMaxTTAge t cluster key16 n 0 mq 0 < n ∧
      ∀ k, k < probeLoop kMaxTTAge t cluster key16 n 0 mq 0 → ¬ hits cluster key16 k := by
  by_cases h : ∃ j, j < n ∧ hits cluster key16 j
  · have hspec := Nat.find_spec h
    have hmin : ∀ k, k < Nat.find h → ¬ hits cluster key16 k := by
      intro k hk hhit
      exact Nat.find_min h hk ⟨lt_trans hk hspec.1, hhit⟩
    have hr := probeLoop_hit kMaxTTAge t cluster key16 n 0 mq 0 (Nat.find h) (Nat.zero_le _)
      (by omega) hspec.2 (fun k _ hk => hmin k hk)
    rw [hr]
    exact ⟨hspec.1, hmin⟩
  · have hno : ∀ k, k < n → ¬ hits cluster key16 k := fun k hk hhit => h ⟨k, hk, hhit⟩
    constructor
    · rcases probeLoop_miss kMaxTTAge t cluster key16 n 0 mq 0
        (fun k _ hk => hno k (by omega)) with ⟨hr, _⟩ | ⟨_, h2, _⟩
      · omega
      · omega
    · intro k hk
      rcases probeLoop_miss kMaxTTAge t cluster key16 n 0 mq 0
        (fun k _ hk => hno k (by omega)) with ⟨hr, _⟩ | ⟨_, h2, _⟩
      · omega
      · exact hno k (by omega)

/-- C1: probing a key, saving a candidate for that key into the slot found,
and probing the key again yields the same slot, for every table state,
candidate, ply and PV flag. -/
theorem probe_save_probe_same_slot (kTTClusterSize : Nat) (kMaxTTAge : Int)
    (index : Nat → Nat) (kExact : Nat) (CorrectScore : Int → Int → Int)
    (t : TranspositionTable) (key : Nat) (candidate : TranspositionTableEntry) (ply : Int)
    (in_pv : Bool) :
    Probe kTTClusterSize kMaxTTAge index
        (Save kExact CorrectScore t (Probe kTTClusterSize kMaxTTAge index t key)
          candidate key ply in_pv) key =
      Probe kTTClusterSize kMaxTTAge index t key := by
  rcases Nat.eq_zero_or_pos kTTClusterSize with hz | hpos
  · subst hz
    simp [Probe, probeLoop]
  · obtain ⟨_, hbefore⟩ :=
      probeLoop_first kMaxTTAge t (t.table_ (index key)) (key % 65536) kTTClusterSize
        INT_MAX hpos
    have hlt :=
      (probeLoop_first kMaxTTAge t (t.table_ (index key)) (key % 65536) kTTClusterSize
        INT_MAX hpos).1
    simp only [Probe, EntryPtr.mk.injEq, true_and]
    apply probeLoop_hit
    · exact Nat.zero_le _
    · omega
    · simp only [hits, Save, store, deref, if_true]
      right
      exact saveEntry_key _ _ _ _ _ _ _ _
    · intro k _ hk hhit
      apply hbefore k hk
      have hne : k ≠ probeLoop kMaxTTAge t (t.table_ (index key)) (key % 65536)
          kTTClusterSize 0 INT_MAX 0 := by omega
      simpa [hits, Save, store, hne] using hhit

/-- C2: `Save` overwrites key, score, depth, age, flag, PV flag and static
evaluation exactly when the stored key differs from the low 16 bits of the
key, or the candidate is exact, or `depth + 3 + 2 * in_pv >= slot.depth`, or
the slot is of another generation.  Then the slot holds the low 16 bits of the
key, `CorrectScore(score, -ply)`, the current generation and the candidate's
depth, flag, PV flag and static evaluation; otherwise the seven fields are as
before. -/
theorem save_overwrites_iff (kExact : Nat) (CorrectScore : Int → Int → Int)
    (t : TranspositionTable) (slot : EntryPtr) (candidate : TranspositionTableEntry)
    (key : Nat) (ply : Int) (in_pv : Bool) :
    if (t.deref slot).key ≠ key % 65536 ∨ candidate.flag = kExact ∨
          candidate.depth + 3 + 2 * (if in_pv then 1 else 0) ≥ (t.deref slot).depth ∨
          (t.deref slot).age ≠ t.age_ then
      ((Save kExact CorrectScore t slot candidate key ply in_pv).deref slot).key =
          key % 65536 ∧
        ((Save kExact CorrectScore t slot candidate key ply in_pv).deref slot).score =
          CorrectScore candidate.score (-ply) ∧
        ((Save kExact CorrectScore t slot candidate key ply in_pv).deref slot).depth =
          candidate.depth ∧
        ((Save kExact CorrectScore t slot candidate key ply in_pv).deref slot).age =
          t.age_ ∧
        ((Save kExact CorrectScore t slot candidate key ply in_pv).deref slot).flag =
          candidate.flag ∧
        ((Save kExact CorrectScore t slot candidate key ply in_pv).deref slot).was_in_pv =
          candidate.was_in_pv ∧
        ((Save kExact CorrectScore t slot candidate key ply in_pv).deref slot).static_eval =
          candidate.static_eval
    else
      ((Save kExact CorrectScore t slot candidate key ply in_pv).deref slot).key =
          (t.deref slot).key ∧
        ((Save kExact CorrectScore t slot candidate key ply in_pv).deref slot).score =
          (t.deref slot).score ∧
        ((Save kExact CorrectScore t slot candidate key ply in_pv).deref slot).depth =
          (t.deref slot).depth ∧
        ((Save kExact CorrectScore t slot candidate key ply in_pv).deref slot).age =
          (t.deref slot).age ∧
        ((Save kExact CorrectScore t slot candidate key ply in_pv).deref slot).flag =
          (t.deref slot).flag ∧
        ((Save kExact CorrectScore t slot candidate key ply in_pv).deref slot).was_in_pv =
          (t.deref slot).was_in_pv ∧
        ((Save kExact CorrectScore t slot candidate key ply in_pv).deref slot).static_eval =
          (t.deref slot).static_eval := by
  rw [Save, deref_store]
  generalize t.deref slot = e0
  unfold saveEntry overwrites TranspositionTableEntry.CompareKey
  dsimp only
  split_ifs <;> simp_all <;> omega

/-- C3: when the candidate's move is empty and the slot's stored key matches
the key, `Save` leaves the slot's move as it was, whether or not the other
fields are overwritten; so the move changes only when the candidate carries a
move or the key does not match. -/
theorem save_keeps_move (kExact : Nat) (CorrectScore : Int → Int → Int)
    (t : TranspositionTable) (slot : EntryPtr) (candidate : TranspositionTableEntry)
    (key : Nat) (ply : Int) (in_pv : Bool)
    (hmove : candidate.move.toBool = false)
    (hkey : (t.deref slot).CompareKey key = true) :
    ((Save kExact CorrectScore t slot candidate key ply in_pv).deref slot).move =
      (t.deref slot).move := by
  rw [Save, deref_store]
  generalize t.deref slot = e0 at hkey ⊢
  unfold saveEntry
  dsimp only
  split_ifs <;> simp_all

/-- C3 at a sample slot: key 2 is stored in slot 1, the candidate has no
move, and the move 8 of the slot survives the save. -/
theorem save_keeps_move_witness :
    sampleCandidate.move.toBool = false ∧
      (sampleTable.deref ⟨0, 1⟩).CompareKey (65536 + 2) = true ∧
      ((Save 3 (fun s p => s + p) sampleTable ⟨0, 1⟩ sampleCandidate (65536 + 2) 4
          true).deref ⟨0, 1⟩).move = (sampleTable.deref ⟨0, 1⟩).move :=
  ⟨by decide, by decide,
    save_keeps_move 3 (fun s p => s + p) sampleTable ⟨0, 1⟩ sampleCandidate (65536 + 2) 4 true
      (by decide) (by decide)⟩

/-- On well-formed generations the age delta of the code is the cyclic
distance of the design document. -/
theorem getAgeDelta_eq_spec (kMaxTTAge : Int) (t : TranspositionTable)
    (entry : TranspositionTableEntry) (hM : 0 < kMaxTTAge) (hM2 : kMaxTTAge ≤ 2 ^ 27)
    (ha : 0 ≤ t.age_) (he : entry.age < kMaxTTAge) :
    GetAgeDelta kMaxTTAge t entry = specAgeDelta kMaxTTAge t entry := by
  unfold GetAgeDelta specAgeDelta toU32
  rw [Int.tmod_eq_emod (by omega) (by omega)]
  have h1 : (kMaxTTAge + t.age_ - entry.age) % kMaxTTAge = (t.age_ - entry.age) % kMaxTTAge := by
    rw [show kMaxTTAge + t.age_ - entry.age = kMaxTTAge + (t.age_ - entry.age) by ring]
    exact Int.add_emod_self_left
  rw [h1]
  have h2 := Int.emod_nonneg (t.age_ - entry.age) (ne_of_gt hM)
  have h3 := Int.emod_lt_of_pos (t.age_ - entry.age) hM
  omega

/-- On well-formed entries the quality computed in 32-bit unsigned arithmetic
is the exact signed quality of the design document. -/
theorem quality_eq_spec (kMaxTTAge : Int) (t : TranspositionTable)
    (entry : TranspositionTableEntry) (hM : 0 < kMaxTTAge) (hM2 : kMaxTTAge ≤ 2 ^ 27)
    (ha : 0 ≤ t.age_) (he : entry.age < kMaxTTAge)
    (hd1 : -2 ^ 30 ≤ entry.depth) (hd2 : entry.depth < 2 ^ 30) :
    quality kMaxTTAge t entry = specQuality kMaxTTAge t entry := by
  unfold quality specQuality
  rw [getAgeDelta_eq_spec kMaxTTAge t entry hM hM2 ha he]
  have h2 : 0 ≤ specAgeDelta kMaxTTAge t entry :=
    Int.emod_nonneg (t.age_ - entry.age) (ne_of_gt hM)
  have h3 : specAgeDelta kMaxTTAge t entry < kMaxTTAge :=
    Int.emod_lt_of_pos (t.age_ - entry.age) hM
  unfold toU32 toI32
  omega

/-- The quality computed by the code is a 32-bit `int`. -/
theorem quality_le_INT_MAX (kMaxTTAge : Int) (t : TranspositionTable)
    (entry : TranspositionTableEntry) : quality kMaxTTAge t entry ≤ INT_MAX := by
  unfold quality toI32 INT_MAX
  omega

/-- C4: when no slot of the key's cluster is empty or holds the key's low 16
bits, `Probe` returns the lowest-index slot of minimal quality in that cluster,
the quality being the exact signed integer `depth - 8 * age_delta` although the
code computes it in 32-bit unsigned arithmetic and converts the result to
`int`.  Entries are well-formed: generations lie in `[0, kMaxTTAge)` and depths
fit a narrow integer type. -/
theorem probe_evicts_lowest_index_min_quality (kTTClusterSize : Nat) (kMaxTTAge : Int)
    (index : Nat → Nat) (t : TranspositionTable) (key : Nat)
    (hsize : 0 < kTTClusterSize) (hM : 0 < kMaxTTAge) (hM2 : kMaxTTAge ≤ 2 ^ 27)
    (hage : 0 ≤ t.age_)
    (hnohit : ∀ j, j < kTTClusterSize →
      ((t.table_ (index key)).entries j).key ≠ 0 ∧
        ((t.table_ (index key)).entries j).key ≠ key % 65536)
    (hwf : ∀ j, j < kTTClusterSize →
      ((t.table_ (index key)).entries j).age < kMaxTTAge ∧
        -2 ^ 30 ≤ ((t.table_ (index key)).entries j).depth ∧
        ((t.table_ (index key)).entries j).depth < 2 ^ 30) :
    (Probe kTTClusterSize kMaxTTAge index t key).cluster = index key ∧
      (Probe kTTClusterSize kMaxTTAge index t key).slot < kTTClusterSize ∧
      (∀ j, j < kTTClusterSize →
        specQuality kMaxTTAge t
            (t.deref (Probe kTTClusterSize kMaxTTAge index t key)) ≤
          specQuality kMaxTTAge t ((t.table_ (index key)).entries j)) ∧
      (∀ j, j < (Probe kTTClusterSize kMaxTTAge index t key).slot →
        specQuality kMaxTTAge t
            (t.deref (Probe kTTClusterSize kMaxTTAge index t key)) <
          specQuality kMaxTTAge t ((t.table_ (index key)).entries j)) := by
  have hq : ∀ j, j < kTTClusterSize →
      quality kMaxTTAge t ((t.table_ (index key)).entries j) =
        specQuality kMaxTTAge t ((t.table_ (index key)).entries j) :=
    fun j hj => quality_eq_spec kMaxTTAge t _ hM hM2 hage (hwf j hj).1 (hwf j hj).2.1
      (hwf j hj).2.2
  have hno : ∀ k, 0 ≤ k → k < 0 + kTTClusterSize →
      ¬ hits (t.table_ (index key)) (key % 65536) k := by
    intro k _ hk hhit
    have := hnohit k (by omega)
    rcases hhit with h | h
    · exact this.1 h
    · exact this.2 h
  simp only [Probe, deref]
  refine ⟨trivial, ?_⟩
  rcases probeLoop_miss kMaxTTAge t (t.table_ (index key)) (key % 65536) kTTClusterSize 0
      INT_MAX 0 hno with ⟨hr, hall⟩ | ⟨_, h2, _, h4, h5⟩
  · rw [hr]
    have hmax : ∀ k, k < kTTClusterSize →
        quality kMaxTTAge t ((t.table_ (index key)).entries k) = INT_MAX :=
      fun k hk => le_antisymm (quality_le_INT_MAX _ _ _) (hall k (Nat.zero_le _) (by omega))
    refine ⟨hsize, ?_, fun j hj => by omega⟩
    intro j hj
    rw [← hq j hj, ← hq 0 hsize, hmax j hj, hmax 0 hsize]
  · have hlt : probeLoop kMaxTTAge t (t.table_ (index key)) (key % 65536) kTTClusterSize 0
        INT_MAX 0 < kTTClusterSize := by omega
    refine ⟨hlt, ?_, ?_⟩
    · intro j hj
      rw [← hq j hj, ← hq _ hlt]
      exact h4 j (Nat.zero_le _) (by omega)
    · intro j hj
      rw [← hq j (by omega), ← hq _ hlt]
      exact h5 j (Nat.zero_le _) hj

/-- C4 at the sample table: key 9 is in no slot of its cluster; the qualities
are 10, -13 and -13, and the scan returns slot 1, the first of the two
minimal slots. -/
theorem probe_evicts_lowest_index_min_quality_witness :
    Probe 3 32 sampleIndex sampleTable 9 = ⟨1, 1⟩ ∧
      specQuality 32 sampleTable (sampleCluster.entries 0) = 10 ∧
      specQuality 32 sampleTable (sampleCluster.entries 1) = -13 ∧
      specQuality 32 sampleTable (sampleCluster.entries 2) = -13 ∧
      ((Probe 3 32 sampleIndex sampleTable 9).cluster = sampleIndex 9 ∧
        (Probe 3 32 sampleIndex sampleTable 9).slot < 3 ∧
        (∀ j, j < 3 →
          specQuality 32 sampleTable (sampleTable.deref (Probe 3 32 sampleIndex sampleTable 9)) ≤
            specQuality 32 sampleTable ((sampleTable.table_ (sampleIndex 9)).entries j)) ∧
        (∀ j, j < (Probe 3 32 sampleIndex sampleTable 9).slot →
          specQuality 32 sampleTable (sampleTable.deref (Probe 3 32 sampleIndex sampleTable 9)) <
            specQuality 32 sampleTable ((sampleTable.table_ (sampleIndex 9)).entries j))) :=
  ⟨by decide, by decide, by decide, by decide,
    probe_evicts_lowest_index_min_quality 3 32 sampleIndex sampleTable 9
      (by decide) (by decide) (by decide) (by decide) (by decide) (by decide)⟩

/-- The state of memory after a run of workers: a cluster is zero when some
worker's range holds it, and untouched otherwise. -/
theorem foldl_memsetZero (start count : Nat → Nat) :
    ∀ (l : List Nat) (mem : Nat → TranspositionTableCluster) (j : Nat),
      (∃ i, i ∈ l ∧ start i ≤ j ∧ j < start i + count i) →
      (l.foldl (fun mem i => memsetZero mem (start i) (count i)) mem) j = zeroCluster := by
  intro l
  induction l using List.reverseRecOn with
  | nil => intro mem j h; obtain ⟨i, hi, _⟩ := h; simp at hi
  | append_singleton l a ih =>
    intro mem j h
    rw [List.foldl_append]
    simp only [List.foldl_cons, List.foldl_nil, memsetZero]
    by_cases ha : start a ≤ j ∧ j < start a + count a
    · simp [ha]
    · rw [if_neg ha]
      apply ih
      obtain ⟨i, hi, hr⟩ := h
      rcases List.mem_append.mp hi with h1 | h1
      · exact ⟨i, h1, hr⟩
      · simp only [List.mem_singleton] at h1
        subst h1
        exact absurd hr ha

/-- The number of clusters per worker is the rounded-up quotient: it is
positive and `num_threads` chunks cover the table. -/
theorem clearChunks_spec (T N : Nat) (hN : 1 ≤ N) (hNT : N ≤ T) (hT : T < 2 ^ 63) :
    0 < clearChunks T N ∧ T ≤ clearChunks T N * N := by
  unfold clearChunks toSize
  rw [Nat.mod_eq_of_lt (by omega)]
  have h1 : T + N - 1 < N * ((T + N - 1) / N + 1) := Nat.lt_mul_div_succ _ (by omega)
  have h3 : N * ((T + N - 1) / N + 1) = (T + N - 1) / N * N + N := by ring
  rw [h3] at h1
  exact ⟨Nat.div_pos (by omega) (by omega), by omega⟩

/-- Every cluster of the table lies in the range of some worker of `Clear`. -/
theorem clear_covers (T N : Nat) (hN : 1 ≤ N) (hNT : N ≤ T) (hT : T < 2 ^ 63) (j : Nat)
    (hj : j < T) : ∃ i, i < N ∧ inWorkerRange T N i j := by
  obtain ⟨hc, hcover⟩ := clearChunks_spec T N hN hNT hT
  refine ⟨j / clearChunks T N, ?_, ?_⟩
  · apply Nat.div_lt_of_lt_mul
    omega
  · have h1 : clearChunks T N * (j / clearChunks T N) ≤ j := Nat.mul_div_le _ _
    have h2 : j < clearChunks T N * (j / clearChunks T N + 1) := Nat.lt_mul_div_succ _ hc
    rw [Nat.mul_add, Nat.mul_one] at h2
    have hidx : clearIndex (clearChunks T N) (j / clearChunks T N) =
        clearChunks T N * (j / clearChunks T N) := by
      unfold clearIndex toSize
      exact Nat.mod_eq_of_lt (by omega)
    have hsub : subSize T (clearChunks T N * (j / clearChunks T N)) =
        T - clearChunks T N * (j / clearChunks T N) := by
      unfold subSize
      omega
    unfold inWorkerRange clearCount
    rw [hidx, hsub]
    refine ⟨h1, ?_⟩
    rcases Nat.le_total (clearChunks T N) (T - clearChunks T N * (j / clearChunks T N)) with
      h | h
    · rw [Nat.min_eq_left h]; omega
    · rw [Nat.min_eq_right h]; omega

/-- After `Clear` with `1 <= N <= T` workers every cluster below the capacity
is the zero cluster. -/
theorem clear_cluster_zero (t : TranspositionTable) (N : Nat)
    (hN : 1 ≤ N) (hNT : N ≤ t.table_size_) (hT : t.table_size_ < 2 ^ 63) (c : Nat)
    (hc : c < t.table_size_) : (Clear t N).table_ c = zeroCluster := by
  obtain ⟨i, hi, hr⟩ := clear_covers t.table_size_ N hN hNT hT c hc
  unfold Clear
  exact foldl_memsetZero _ _ _ _ _ ⟨i, List.mem_range.mpr hi, hr⟩

/-- Once a checked worker of `Clear` has left the table, the later workers do
not bring the run back. -/
theorem foldl_memsetZeroChecked_none (T : Nat) (start count : Nat → Nat) (l : List Nat) :
    l.foldl (fun mem i => memsetZeroChecked T mem (start i) (count i)) none = none := by
  induction l with
  | nil => rfl
  | cons a l ih =>
    rw [List.foldl_cons]
    exact ih

/-- When every range is inside the table, the checked workers of `Clear` do what
the unchecked workers do. -/
theorem foldl_memsetZeroChecked_some (T : Nat) (start count : Nat → Nat) (l : List Nat)
    (h : ∀ i ∈ l, start i + count i ≤ T) (mem : Nat → TranspositionTableCluster) :
    l.foldl (fun mem i => memsetZeroChecked T mem (start i) (count i)) (some mem) =
      some (l.foldl (fun mem i => memsetZero mem (start i) (count i)) mem) := by
  induction l generalizing mem with
  | nil => rfl
  | cons a l ih =>
    rw [List.foldl_cons, List.foldl_cons]
    have ha : start a + count a ≤ T := h a (List.mem_cons_self a l)
    have hstep : memsetZeroChecked T (some mem) (start a) (count a) =
        some (memsetZero mem (start a) (count a)) := by
      unfold memsetZeroChecked
      simp only [if_pos ha]
    rw [hstep]
    exact ih (fun i hi => h i (List.mem_cons_of_mem a hi)) _

/-- When some range is not inside the table, the checked workers of `Clear` have
no result. -/
theorem foldl_memsetZeroChecked_out (T : Nat) (start count : Nat → Nat) (l : List Nat)
    (h : ∃ i ∈ l, T < start i + count i) (mem : Option (Nat → TranspositionTableCluster)) :
    l.foldl (fun mem i => memsetZeroChecked T mem (start i) (count i)) mem = none := by
  induction l generalizing mem with
  | nil =>
    obtain ⟨i, hi, _⟩ := h
    simp at hi
  | cons a l ih =>
    rw [List.foldl_cons]
    obtain ⟨i, hi, hout⟩ := h
    rcases List.mem_cons.mp hi with h1 | h1
    · subst h1
      have hstep : memsetZeroChecked T mem (start i) (count i) = none := by
        unfold memsetZeroChecked
        cases mem with
        | none => rfl
        | some m => simp only [if_neg (not_le.mpr hout)]
      rw [hstep]
      exact foldl_memsetZeroChecked_none T start count l
    · exact ih ⟨i, h1, hout⟩ _

/-- When the range of every worker is inside the table, the checked `Clear` is
`Clear`. -/
theorem clearChecked_of_in_bounds (t : TranspositionTable) (N : Nat)
    (h : ∀ i, i < N →
      clearIndex (clearChunks t.table_size_ N) i +
        clearCount t.table_size_ (clearChunks t.table_size_ N) i ≤ t.table_size_) :
    ClearChecked t N = some (Clear t N) := by
  unfold ClearChecked Clear
  dsimp only
  rw [foldl_memsetZeroChecked_some t.table_size_
    (fun i => clearIndex (clearChunks t.table_size_ N) i)
    (fun i => clearCount t.table_size_ (clearChunks t.table_size_ N) i) (List.range N)
    (fun i hi => h i (List.mem_range.mp hi))]

/-- When the range of some worker is not inside the table, the checked `Clear`
has no result. -/
theorem clearChecked_of_out_of_bounds (t : TranspositionTable) (N i : Nat) (hi : i < N)
    (h : t.table_size_ < clearIndex (clearChunks t.table_size_ N) i +
      clearCount t.table_size_ (clearChunks t.table_size_ N) i) :
    ClearChecked t N = none := by
  unfold ClearChecked
  dsimp only
  rw [foldl_memsetZeroChecked_out t.table_size_
    (fun i => clearIndex (clearChunks t.table_size_ N) i)
    (fun i => clearCount t.table_size_ (clearChunks t.table_size_ N) i) (List.range N)
    ⟨i, List.mem_range.mpr hi, h⟩]

/-- A result of the checked `Clear` is the result of `Clear`. -/
theorem clearChecked_eq_clear (t t2 : TranspositionTable) (N : Nat)
    (h : ClearChecked t N = some t2) : t2 = Clear t N := by
  by_cases hin : ∀ i, i < N →
      clearIndex (clearChunks t.table_size_ N) i +
        clearCount t.table_size_ (clearChunks t.table_size_ N) i ≤ t.table_size_
  · rw [clearChecked_of_in_bounds t N hin] at h
    exact (Option.some.inj h).symm
  · rw [not_forall] at hin
    obtain ⟨i, hi⟩ := hin
    rw [Classical.not_imp] at hi
    rw [clearChecked_of_out_of_bounds t N i hi.1 (not_le.mp hi.2)] at h
    simp at h

/-- Where no worker of `Clear` leaves the table, `Clear(N)` with `1 <= N <= T`
workers leaves every entry of every cluster in `[0, T)` with all its fields
zero and the generation 0.  (`T < 2 ^ 63`: the table fits the address space.)
-/
theorem clearChecked_zeroes_table (t t2 : TranspositionTable) (N : Nat)
    (hN : 1 ≤ N) (hNT : N ≤ t.table_size_) (hT : t.table_size_ < 2 ^ 63)
    (h : ClearChecked t N = some t2) :
    (∀ c, c < t.table_size_ → ∀ s, (t2.table_ c).entries s = zeroEntry) ∧
      t2.age_ = 0 ∧ t2.table_size_ = t.table_size_ := by
  rw [clearChecked_eq_clear t t2 N h]
  refine ⟨?_, rfl, rfl⟩
  intro c hc s
  rw [clear_cluster_zero t N hN hNT hT c hc]
  rfl

/-- The checked `Clear` with as many workers as clusters, or with one worker,
stays inside a table of eight clusters. -/
theorem clearChecked_sample_in_bounds :
    ClearChecked sampleTable 8 = some (Clear sampleTable 8) ∧
      ClearChecked sampleTable 1 = some (Clear sampleTable 1) ∧
      ClearChecked sampleTable 4 = some (Clear sampleTable 4) :=
  ⟨clearChecked_of_in_bounds sampleTable 8 (by decide),
    clearChecked_of_in_bounds sampleTable 1 (by decide),
    clearChecked_of_in_bounds sampleTable 4 (by decide)⟩

/-- C5, the code at `T = 8`, `N = 7`: `Clear(7)` on a table of eight clusters
does not end with a zeroed table of its own: each worker is given 2 clusters,
worker 5 starts at cluster 10 and the unsigned `8 - 10` does not clamp its
count, so its `memset` covers the clusters 10 and 11, outside the allocation of
clusters 0 to 7, and the checked run has no result.  The same holds for a
table of 32768 clusters and 300 workers (worker 298). -/
theorem clear_overflows_allocation :
    sampleTable.table_size_ = 8 ∧ ClearChecked sampleTable 7 = none ∧
      ClearChecked { sampleTable with table_size_ := 32768 } 300 = none :=
  ⟨rfl, clearChecked_of_out_of_bounds sampleTable 7 5 (by decide) (by decide),
    clearChecked_of_out_of_bounds { sampleTable with table_size_ := 32768 } 300 298
      (by decide) (by decide)⟩

/-- C6, the code at `T = 8`, `N = 7`: each worker is given 2 clusters, worker 5
starts at cluster 10, the unsigned subtraction `8 - 10` wraps to
`2 ^ 64 - 2`, so the worker zeroes the clusters 10 and 11, which lie outside
`[0, 8)`.  The same happens at `T = 32768`, `N = 300`: chunks of 110 clusters,
worker 298 starts at cluster 32780. -/
theorem clear_worker_leaves_table :
    (clearChunks 8 7 = 2 ∧ clearIndex 2 5 = 10 ∧ subSize 8 10 = 2 ^ 64 - 2 ∧
      clearCount 8 2 5 = 2 ∧ inWorkerRange 8 7 5 10 ∧ inWorkerRange 8 7 5 11 ∧
      ¬ (10 < 8)) ∧
    (clearChunks 32768 300 = 110 ∧ clearIndex 110 298 = 32780 ∧
      clearCount 32768 110 298 = 110 ∧ inWorkerRange 32768 300 298 32780 ∧
      ¬ (32780 < 32768)) := by
  decide

/-- C7: after `Clear`, for every key, `Probe` returns slot 0 of the key's
cluster and that slot is zero in every field, its key included.  The cluster
lookup yields an index below the capacity. -/
theorem probe_after_clear (kTTClusterSize : Nat) (kMaxTTAge : Int) (index : Nat → Nat)
    (t : TranspositionTable) (N : Nat) (key : Nat)
    (hN : 1 ≤ N) (hNT : N ≤ t.table_size_) (hT : t.table_size_ < 2 ^ 63)
    (hidx : index key < t.table_size_) :
    Probe kTTClusterSize kMaxTTAge index (Clear t N) key = ⟨index key, 0⟩ ∧
      ((Clear t N).deref (Probe kTTClusterSize kMaxTTAge index (Clear t N) key)).key = 0 ∧
      (Clear t N).deref (Probe kTTClusterSize kMaxTTAge index (Clear t N) key) = zeroEntry := by
  have hz : ∀ s, ((Clear t N).table_ (index key)).entries s = zeroEntry := by
    intro s
    rw [clear_cluster_zero t N hN hNT hT (index key) hidx]
    rfl
  have hp : Probe kTTClusterSize kMaxTTAge index (Clear t N) key = ⟨index key, 0⟩ := by
    simp only [Probe, EntryPtr.mk.injEq, true_and]
    cases kTTClusterSize with
    | zero => rfl
    | succ n => simp [probeLoop, hz 0, zeroEntry]
  rw [hp]
  exact ⟨rfl, by simp [deref, hz 0, zeroEntry], by simp [deref, hz 0]⟩

/-- C7 at the sample table, cleared by four workers, probed with key 9. -/
theorem probe_after_clear_witness :
    Probe 3 32 sampleIndex (Clear sampleTable 4) 9 = ⟨sampleIndex 9, 0⟩ ∧
      ((Clear sampleTable 4).deref (Probe 3 32 sampleIndex (Clear sampleTable 4) 9)).key = 0 ∧
      (Clear sampleTable 4).deref (Probe 3 32 sampleIndex (Clear sampleTable 4) 9) =
        zeroEntry :=
  probe_after_clear 3 32 sampleIndex sampleTable 4 9 (by decide) (by decide) (by decide)
    (by decide)

/-- The generation after `k` calls of `Age`. -/
theorem ageTimes_age (kMaxTTAge : Int) (hM : 0 < kMaxTTAge) :
    ∀ (k : Nat) (t : TranspositionTable), 0 ≤ t.age_ → t.age_ < kMaxTTAge →
      (ageTimes kMaxTTAge k t).age_ = (t.age_ + (k : Int)) % kMaxTTAge := by
  intro k
  induction k with
  | zero =>
    intro t h0 h1
    simp only [ageTimes, Nat.cast_zero, add_zero]
    exact (Int.emod_eq_of_lt h0 h1).symm
  | succ k ih =>
    intro t h0 h1
    have hage : (Age kMaxTTAge t).age_ = (t.age_ + 1) % kMaxTTAge := by
      simp only [Age]
      exact Int.tmod_eq_emod (by omega) (by omega)
    have h2 : 0 ≤ (Age kMaxTTAge t).age_ := by
      rw [hage]; exact Int.emod_nonneg _ (ne_of_gt hM)
    have h3 : (Age kMaxTTAge t).age_ < kMaxTTAge := by
      rw [hage]; exact Int.emod_lt_of_pos _ hM
    simp only [ageTimes]
    rw [ih (Age kMaxTTAge t) h2 h3, hage, Int.emod_add_emod]
    congr 1
    push_cast
    ring

/-- C8: an entry stamped with the generation `g` in `[0, kMaxTTAge)` that is
current before `K` calls of `Age` has, after them, the age delta
`K mod kMaxTTAge`, and the current generation is still in `[0, kMaxTTAge)`. -/
theorem age_delta_after_K_ages (kMaxTTAge : Int) (t : TranspositionTable)
    (entry : TranspositionTableEntry) (K : Nat)
    (hM : 0 < kMaxTTAge) (hM2 : kMaxTTAge ≤ 2 ^ 30)
    (hg0 : 0 ≤ t.age_) (hg1 : t.age_ < kMaxTTAge) (hstamp : entry.age = t.age_) :
    GetAgeDelta kMaxTTAge (ageTimes kMaxTTAge K t) entry = (K : Int) % kMaxTTAge ∧
      0 ≤ (ageTimes kMaxTTAge K t).age_ ∧ (ageTimes kMaxTTAge K t).age_ < kMaxTTAge := by
  have hage := ageTimes_age kMaxTTAge hM K t hg0 hg1
  have h0 : 0 ≤ (ageTimes kMaxTTAge K t).age_ := by
    rw [hage]; exact Int.emod_nonneg _ (ne_of_gt hM)
  have h1 : (ageTimes kMaxTTAge K t).age_ < kMaxTTAge := by
    rw [hage]; exact Int.emod_lt_of_pos _ hM
  refine ⟨?_, h0, h1⟩
  unfold GetAgeDelta toU32
  rw [Int.tmod_eq_emod (by omega) (by omega)]
  have h2 : (kMaxTTAge + (ageTimes kMaxTTAge K t).age_ - entry.age) % kMaxTTAge =
      (K : Int) % kMaxTTAge := by
    rw [hage, hstamp,
      show kMaxTTAge + (t.age_ + (K : Int)) % kMaxTTAge - t.age_ =
        (t.age_ + (K : Int)) % kMaxTTAge + (kMaxTTAge - t.age_) by ring,
      Int.emod_add_emod]
    rw [show t.age_ + (K : Int) + (kMaxTTAge - t.age_) = (K : Int) + kMaxTTAge by ring]
    exact Int.add_emod_self
  rw [h2]
  have h3 := Int.emod_nonneg (K : Int) (ne_of_gt hM)
  have h4 := Int.emod_lt_of_pos (K : Int) hM
  omega

/-- C8 at the sample table: cycle length 32, generation 5, 70 calls of `Age`;
the age delta is `70 mod 32 = 6`. -/
theorem age_delta_after_K_ages_witness :
    (70 : Int) % 32 = 6 ∧
      (GetAgeDelta 32 (ageTimes 32 70 sampleTable) (sampleCluster.entries 0) =
          ((70 : Nat) : Int) % 32 ∧
        0 ≤ (ageTimes 32 70 sampleTable).age_ ∧ (ageTimes 32 70 sampleTable).age_ < 32) :=
  ⟨by decide,
    age_delta_after_K_ages 32 sampleTable (sampleCluster.entries 0) 70 (by decide)
      (by decide) (by decide) (by decide) (by decide)⟩

/-- The counting loop of `HashFull` is a sum over the clusters. -/
theorem foldl_add_eq_sum (f : Nat → Nat) (n : Nat) :
    (List.range n).foldl (fun count i => count + f i) 0 = Finset.sum (Finset.range n) f := by
  induction n with
  | zero => rfl
  | succ n ih =>
    rw [List.range_succ, List.foldl_append, ih, Finset.sum_range_succ]
    rfl

/-- The count of `count_if` over a cluster is a sum of indicators over its slots. -/
theorem countIf_eq_sum (n : Nat) (p : TranspositionTableEntry → Bool)
    (cluster : TranspositionTableCluster) :
    countIf n p cluster =
      Finset.sum (Finset.range n) (fun j => if p (cluster.entries j) = true then 1 else 0) := by
  induction n with
  | zero => rfl
  | succ n ih =>
    unfold countIf at ih ⊢
    rw [List.range_succ, List.filter_append, List.length_append, ih, Finset.sum_range_succ]
    congr 1
    by_cases h : p (cluster.entries n) = true <;> simp [List.filter, h]

/-- The count accumulated by `HashFull` is the number of live slots among the
first 1000 clusters. -/
theorem hashFull_count (kTTClusterSize : Nat) (kScoreNone : Int) (t : TranspositionTable) :
    (List.range 1000).foldl
        (fun count i => count + countIf kTTClusterSize (isLive kScoreNone t) (t.table_ i)) 0 =
      (liveSlots kTTClusterSize kScoreNone t).card := by
  rw [foldl_add_eq_sum (fun i => countIf kTTClusterSize (isLive kScoreNone t) (t.table_ i))]
  unfold liveSlots
  rw [Finset.card_filter, Finset.sum_product]
  apply Finset.sum_congr rfl
  intro i _
  rw [countIf_eq_sum]
  apply Finset.sum_congr rfl
  intro j _
  simp [isLive, and_assoc]

/-- C9: `HashFull` returns the number of slots of the first 1000 clusters
whose generation is the current one, whose key is not zero and whose score is
not `kScoreNone`, divided by the cluster size and rounded down; the result is
at most 1000, and it is 0 right after `Clear`.  The table has at least 1000
clusters, which `HashFull` reads. -/
theorem hashFull_spec (kTTClusterSize : Nat) (kScoreNone : Int) (t : TranspositionTable)
    (N : Nat) (_hsize : 0 < kTTClusterSize) (hcap : 1000 ≤ t.table_size_)
    (hN : 1 ≤ N) (hNT : N ≤ t.table_size_) (hT : t.table_size_ < 2 ^ 63) :
    HashFull kTTClusterSize kScoreNone t =
        (liveSlots kTTClusterSize kScoreNone t).card / kTTClusterSize ∧
      HashFull kTTClusterSize kScoreNone t ≤ 1000 ∧
      HashFull kTTClusterSize kScoreNone (Clear t N) = 0 := by
  have hdef : ∀ u : TranspositionTable, HashFull kTTClusterSize kScoreNone u =
      (liveSlots kTTClusterSize kScoreNone u).card / kTTClusterSize := by
    intro u
    unfold HashFull
    simp only [hashFull_count]
  refine ⟨hdef t, ?_, ?_⟩
  · rw [hdef t]
    apply Nat.div_le_of_le_mul
    calc (liveSlots kTTClusterSize kScoreNone t).card
        ≤ (Finset.range 1000 ×ˢ Finset.range kTTClusterSize).card :=
          Finset.card_filter_le _ _
      _ = 1000 * kTTClusterSize := by simp [Finset.card_product]
      _ = kTTClusterSize * 1000 := Nat.mul_comm _ _
  · rw [hdef (Clear t N)]
    have hempty : liveSlots kTTClusterSize kScoreNone (Clear t N) = ∅ := by
      unfold liveSlots
      simp only [Finset.filter_eq_empty_iff, Finset.mem_product, Finset.mem_range]
      intro p hp
      rw [clear_cluster_zero t N hN hNT hT p.1 (lt_of_lt_of_le hp.1 hcap)]
      simp [zeroCluster, zeroEntry]
    rw [hempty]
    simp

/-- C9 at a table of 1024 clusters of three slots, cleared by seven workers. -/
theorem hashFull_spec_witness :
    HashFull 3 32002 sampleLargeTable = (liveSlots 3 32002 sampleLargeTable).card / 3 ∧
      HashFull 3 32002 sampleLargeTable ≤ 1000 ∧
      HashFull 3 32002 (Clear sampleLargeTable 7) = 0 :=
  hashFull_spec 3 32002 sampleLargeTable 7 (by decide) (by simp [sampleLargeTable])
    (by decide) (by simp [sampleLargeTable]) (by simp [sampleLargeTable])

end TranspositionTable

end search

namespace eval

namespace EvalCache

/-- C10: for every cache state, key `K` and score `S`, after `Store(K, S)` the
call `Probe(K)` reports a hit and sets the score to exactly `S`, whatever the
out-parameter held before. -/
theorem probe_after_store (c : EvalCache) (K : Nat) (S : Int) (score0 : Int) :
    Probe (Store c K S) K score0 = (true, S) := by
  simp [Probe, Store]

end EvalCache

end eval

namespace eval

open chess

namespace EvalCache

/-- The bucket index `key & kCacheMask` is the key modulo `2 ^ 16`. -/
theorem index_eq_mod (key : Nat) : key &&& kCacheMask = key % 2 ^ 16 := by
  have h : kCacheMask = 2 ^ 16 - 1 := by decide
  rw [h]
  exact Nat.and_pow_two_sub_one_eq_mod key 16

/-- C11: for keys `K1 != K2` of the same bucket (equal modulo `2 ^ 16`) and
all scores, after `Store(K1, S1)` and then `Store(K2, S2)` the call
`Probe(K2)` reports a hit with `S2`, `Probe(K1)` reports a miss, and every
bucket other than that of `K2` is as it was before the two stores. -/
theorem store_overwrites_bucket (c : EvalCache) (K1 K2 : Nat) (S1 S2 score0 : Int)
    (hne : K1 ≠ K2) (hbucket : K1 % 2 ^ 16 = K2 % 2 ^ 16) :
    Probe (Store (Store c K1 S1) K2 S2) K2 score0 = (true, S2) ∧
      (Probe (Store (Store c K1 S1) K2 S2) K1 score0).1 = false ∧
      ∀ i, i ≠ K2 % 2 ^ 16 →
        (Store (Store c K1 S1) K2 S2).entries_ i = c.entries_ i := by
  have h1 := index_eq_mod K1
  have h2 := index_eq_mod K2
  refine ⟨by simp [Probe, Store], ?_, ?_⟩
  · have hk : ¬ K2 = K1 := fun h => hne h.symm
    have hb : K1 % 65536 = K2 % 65536 := by simpa using hbucket
    simp [Probe, Store, h1, h2, hb, hk]
  · intro i hi
    have hi1 : i ≠ K1 % 2 ^ 16 := by rw [hbucket]; exact hi
    simp only [Store, h1, h2]
    rw [if_neg hi, if_neg hi1]

/-- C11 at the keys 5 and 65541, which share bucket 5. -/
theorem store_overwrites_bucket_witness :
    Probe (Store (Store sampleCache 5 10) 65541 20) 65541 0 = (true, 20) ∧
      (Probe (Store (Store sampleCache 5 10) 65541 20) 5 0).1 = false ∧
      ∀ i, i ≠ 65541 % 2 ^ 16 →
        (Store (Store sampleCache 5 10) 65541 20).entries_ i = sampleCache.entries_ i :=
  store_overwrites_bucket sampleCache 5 65541 10 20 0 (by decide) (by decide)

end EvalCache

/-- On a hit `Evaluate` returns the cached score and leaves the cache as it
is. -/
theorem evaluate_hit (DATAGEN : Bool) (V : PieceType → Int) (base : Int)
    (nnue : BoardState → Int) (c : EvalCache) (board : BoardState)
    (hhit : (c.entries_ (board.zobrist_key &&& EvalCache.kCacheMask)).key = board.zobrist_key) :
    Evaluate DATAGEN V base nnue c board =
      ((c.entries_ (board.zobrist_key &&& EvalCache.kCacheMask)).score, c) := by
  simp [Evaluate, EvalCache.Probe, hhit]

/-- On a miss in the scaled mode `Evaluate` returns the scaled value and
stores it. -/
theorem evaluate_miss (V : PieceType → Int) (base : Int)
    (nnue : BoardState → Int) (c : EvalCache) (board : BoardState)
    (hmiss : (c.entries_ (board.zobrist_key &&& EvalCache.kCacheMask)).key ≠ board.zobrist_key)
    (hfit1 : -2 ^ 31 ≤ nnue board * (base + specMaterialPhase V board))
    (hfit2 : nnue board * (base + specMaterialPhase V board) < 2 ^ 31) :
    Evaluate false V base nnue c board =
      ((nnue board * (base + specMaterialPhase V board)).tdiv 32768,
        c.Store board.zobrist_key
          ((nnue board * (base + specMaterialPhase V board)).tdiv 32768)) := by
  have hw : search.toI32 (nnue board * (base + specMaterialPhase V board)) =
      nnue board * (base + specMaterialPhase V board) := by
    unfold search.toI32
    omega
  unfold specMaterialPhase at hw
  simp [Evaluate, EvalCache.Probe, hmiss, specMaterialPhase, hw]

/-- C12: in the scaled mode `Evaluate` returns the cached score when the cache
holds the zobrist key, whatever the oracle; otherwise it returns
`raw * (kMaterialScaleBase + phase) / 32768` with truncating division, `raw`
being the value of the oracle and `phase` the piece counts weighted by the
exchange values, and stores that result; an `Evaluate` of the same snapshot
right afterwards returns the same score, whatever the oracle then yields.  The
product fits an `int`. -/
theorem evaluate_scaled (V : PieceType → Int) (base : Int)
    (nnue : BoardState → Int) (c : EvalCache) (board : BoardState)
    (hfit1 : -2 ^ 31 ≤ nnue board * (base + specMaterialPhase V board))
    (hfit2 : nnue board * (base + specMaterialPhase V board) < 2 ^ 31) :
    Evaluate false V base nnue c board =
        (if (c.entries_ (board.zobrist_key &&& EvalCache.kCacheMask)).key = board.zobrist_key
          then ((c.entries_ (board.zobrist_key &&& EvalCache.kCacheMask)).score, c)
          else
            ((nnue board * (base + specMaterialPhase V board)).tdiv 32768,
              c.Store board.zobrist_key
                ((nnue board * (base + specMaterialPhase V board)).tdiv 32768))) ∧
      ∀ nnue2 : BoardState → Int,
        (Evaluate false V base nnue2 (Evaluate false V base nnue c board).2 board).1 =
          (Evaluate false V base nnue c board).1 := by
  by_cases hhit :
      (c.entries_ (board.zobrist_key &&& EvalCache.kCacheMask)).key = board.zobrist_key
  · rw [if_pos hhit, evaluate_hit false V base nnue c board hhit]
    refine ⟨rfl, fun nnue2 => ?_⟩
    rw [evaluate_hit false V base nnue2 c board hhit]
  · rw [if_neg hhit, evaluate_miss V base nnue c board hhit hfit1 hfit2]
    refine ⟨rfl, fun nnue2 => ?_⟩
    rw [evaluate_hit false V base nnue2 _ board (by simp [EvalCache.Store])]
    simp [EvalCache.Store]

/-- C12 at a position with one queen, the oracle value 100 and the base scale
26909: the key is not cached and the result is `100 * 27809 / 32768 = 84`. -/
theorem evaluate_scaled_witness :
    (Evaluate false sampleSeeScores 26909 (fun _ => 100) sampleCache sampleDefended).1 = 84 ∧
      (Evaluate false sampleSeeScores 26909 (fun _ => 100) sampleCache sampleDefended =
        (if (sampleCache.entries_
              (sampleDefended.zobrist_key &&& EvalCache.kCacheMask)).key =
            sampleDefended.zobrist_key
          then ((sampleCache.entries_
              (sampleDefended.zobrist_key &&& EvalCache.kCacheMask)).score, sampleCache)
          else
            (((fun _ => 100) sampleDefended *
                (26909 + specMaterialPhase sampleSeeScores sampleDefended)).tdiv 32768,
              sampleCache.Store sampleDefended.zobrist_key
                (((fun _ => 100) sampleDefended *
                  (26909 + specMaterialPhase sampleSeeScores sampleDefended)).tdiv 32768))) ∧
      ∀ nnue2 : BoardState → Int,
        (Evaluate false sampleSeeScores 26909 nnue2
            (Evaluate false sampleSeeScores 26909 (fun _ => 100) sampleCache
              sampleDefended).2 sampleDefended).1 =
          (Evaluate false sampleSeeScores 26909 (fun _ => 100) sampleCache
            sampleDefended).1) :=
  ⟨by decide,
    evaluate_scaled sampleSeeScores 26909 (fun _ => 100) sampleCache sampleDefended
      (by decide) (by decide)⟩

end eval

namespace eval

open chess

/-- The other side is a different side. -/
theorem flipColor_ne (c : Color) : FlipColor c ≠ c := by
  cases c <;> simp [FlipColor]

/-- When the move is simulated and the first two tests pass, the loop is
entered in the state built from the snapshot. -/
theorem seePrelude_enters (mg : MoveGen) (V : PieceType → Int) (move : search.Move)
    (threshold : Int) (state : BoardState)
    (hsim : ¬ seeIgnoresMove mg move state)
    (hmargin : 0 ≤ V (state.GetPieceType (mg.GetTo move)) - threshold)
    (hscore : 0 < V (state.GetPieceType (mg.GetFrom move)) -
      (V (state.GetPieceType (mg.GetTo move)) - threshold)) :
    seePrelude mg V move threshold state =
      .next ⟨state.turn, state.turn,
        seeAllAttackers mg state (mg.GetTo move)
          (ClearBit (ClearBit state.Occupied (mg.GetFrom move)) (mg.GetTo move)),
        ClearBit (ClearBit state.Occupied (mg.GetFrom move)) (mg.GetTo move),
        V (state.GetPieceType (mg.GetFrom move)) -
          (V (state.GetPieceType (mg.GetTo move)) - threshold)⟩ := by
  unfold seePrelude
  simp only [if_neg hsim, if_neg (not_lt.mpr hmargin), if_neg (not_le.mpr hscore)]

/-- C14: for a simulated move with margin `m = V(victim) - threshold >= 0` and
`s0 = V(mover) - m > 0`, when a pawn of the opponent is among its available
attackers of the destination and `V(pawn) + 1 <= s0`, `StaticExchange` returns
false. -/
theorem see_false_when_pawn_recaptures (mg : MoveGen) (V : PieceType → Int)
    (move : search.Move) (threshold : Int) (state : BoardState)
    (hsim : ¬ seeIgnoresMove mg move state)
    (hmargin : 0 ≤ V (state.GetPieceType (mg.GetTo move)) - threshold)
    (hscore : 0 < V (state.GetPieceType (mg.GetFrom move)) -
      (V (state.GetPieceType (mg.GetTo move)) - threshold))
    (hpawn : seeFirstDefenders mg move state &&& state.Pawns ≠ 0)
    (hvalue : V .kPawn + 1 ≤ V (state.GetPieceType (mg.GetFrom move)) -
      (V (state.GetPieceType (mg.GetTo move)) - threshold)) :
    StaticExchange mg V move threshold state = some false := by
  have hne : seeFirstDefenders mg move state ≠ 0 := by
    intro h
    rw [h] at hpawn
    simp at hpawn
  unfold seeFirstDefenders at hpawn hne
  have hturn : ¬ state.turn = FlipColor state.turn := fun h => flipColor_ne state.turn h.symm
  unfold StaticExchange
  rw [seePrelude_enters mg V move threshold state hsim hmargin hscore]
  simp only [seeLoop, seeIter, seePick, if_neg hne, if_pos hpawn]
  rw [if_pos (by omega)]
  simp [hturn]

/-- C14 at the sample position: the queen d4 takes the pawn d5, which the pawn
e6 defends, with threshold 0. -/
theorem see_false_when_pawn_recaptures_witness :
    StaticExchange sampleMoveGen sampleSeeScores (sampleMove 27 35) 0 sampleDefended =
      some false :=
  see_false_when_pawn_recaptures sampleMoveGen sampleSeeScores (sampleMove 27 35) 0
    sampleDefended (by decide) (by decide) (by decide) (by decide) (by decide)

end eval

namespace eval

open chess

/-- An iteration that goes on hands the turn and the winner flag to the other
side. -/
theorem seeIter_next_flips (mg : MoveGen) (V : PieceType → Int) (state : BoardState)
    (to_sq : Nat) (st st2 : SeeState) (h : seeIter mg V state to_sq st = .next st2) :
    st2.turn = FlipColor st.turn ∧ st2.winner = FlipColor st.winner := by
  unfold seeIter at h
  dsimp only at h
  split at h
  · exact absurd h (by simp)
  · split at h
    · split at h <;> exact absurd h (by simp)
    · split at h
      · exact absurd h (by simp)
      · injection h with h
        subst h
        exact ⟨rfl, rfl⟩

/-- At the head of every iteration the winner flag is the side that moved
last. -/
theorem seeStateAt_winner (mg : MoveGen) (V : PieceType → Int) (move : search.Move)
    (threshold : Int) (state : BoardState) :
    ∀ (n : Nat) (st : SeeState), seeStateAt mg V move threshold state n = some st →
      st.winner = st.turn := by
  intro n
  induction n with
  | zero =>
    intro st h
    unfold seeStateAt at h
    split at h
    · exact absurd h (by simp)
    · rename_i st0 hpre
      simp only [Option.some.injEq] at h
      subst h
      unfold seePrelude at hpre
      dsimp only at hpre
      split_ifs at hpre
      injection hpre with hpre
      subst hpre
      rfl
  | succ n ih =>
    intro st h
    unfold seeStateAt at h
    split at h
    · exact absurd h (by simp)
    · rename_i st1 hst1
      split at h
      · exact absurd h (by simp)
      · rename_i st2 hiter
        simp only [Option.some.injEq] at h
        subst h
        obtain ⟨h1, h2⟩ := seeIter_next_flips mg V state (mg.GetTo move) st1 st2 hiter
        rw [h1, h2, ih st1 hst1]

/-- Running the loop from its entry for `n` more iterations than from the
state at the head of iteration `n` gives the same result. -/
theorem seeStateAt_loop (mg : MoveGen) (V : PieceType → Int) (move : search.Move)
    (threshold : Int) (state : BoardState) :
    ∀ (n : Nat) (st : SeeState), seeStateAt mg V move threshold state n = some st →
      ∃ st0, seePrelude mg V move threshold state = .next st0 ∧
        ∀ k, seeLoop mg V state (mg.GetTo move) (n + k) st0 =
          seeLoop mg V state (mg.GetTo move) k st := by
  intro n
  induction n with
  | zero =>
    intro st h
    unfold seeStateAt at h
    split at h
    · exact absurd h (by simp)
    · rename_i st0 hpre
      simp only [Option.some.injEq] at h
      subst h
      exact ⟨st0, hpre, fun k => by rw [Nat.zero_add]⟩
  | succ n ih =>
    intro st h
    unfold seeStateAt at h
    split at h
    · exact absurd h (by simp)
    · rename_i st1 hst1
      split at h
      · exact absurd h (by simp)
      · rename_i st2 hiter
        simp only [Option.some.injEq] at h
        subst h
        obtain ⟨st0, hpre, hloop⟩ := ih st1 hst1
        refine ⟨st0, hpre, fun k => ?_⟩
        rw [show n + 1 + k = n + (k + 1) by omega, hloop (k + 1)]
        simp only [seeLoop, hiter]

/-- C15: in an iteration of the exchange loop in which only kings are
available to the side that is to capture, if the opposing side still has a
piece in the attacker set of the destination the capture by the king is
rejected and `StaticExchange` returns true exactly when the side of the king
is not the side that made the original move; if the opposing side has none,
the king captures and `StaticExchange` returns true exactly when the side of
the king is the side that made the original move. -/
theorem see_king_capture (mg : MoveGen) (V : PieceType → Int) (move : search.Move)
    (threshold : Int) (state : BoardState) (n : Nat) (st : SeeState)
    (hn : n < 65)
    (hst : seeStateAt mg V move threshold state n = some st)
    (hkings : seeOnlyKings mg state (mg.GetTo move) st) :
    seeIter mg V state (mg.GetTo move) st =
        .done (if seeOpponentAttacks state st then decide (FlipColor st.turn ≠ state.turn)
          else decide (FlipColor st.turn = state.turn)) ∧
      StaticExchange mg V move threshold state =
        some (if seeOpponentAttacks state st then decide (FlipColor st.turn ≠ state.turn)
          else decide (FlipColor st.turn = state.turn)) := by
  have hw := seeStateAt_winner mg V move threshold state n st hst
  obtain ⟨h0, hP, hN, hB, hR, hQ⟩ := hkings
  unfold seeAvailable at h0 hP hN hB hR hQ
  have hiter : seeIter mg V state (mg.GetTo move) st =
      .done (if seeOpponentAttacks state st then decide (FlipColor st.turn ≠ state.turn)
        else decide (FlipColor st.turn = state.turn)) := by
    unfold seeIter seePick seeOpponentAttacks
    simp only [if_neg h0, hP, hN, hB, hR, hQ, ne_eq, not_true_eq_false, if_false, hw]
    by_cases hopp : (st.all_attackers &&& st.occupied) &&&
        state.OccupiedOf (FlipColor (FlipColor st.turn)) = 0
    · simp [hopp, eq_comm]
    · simp [hopp, eq_comm]
  refine ⟨hiter, ?_⟩
  obtain ⟨st0, hpre, hloop⟩ := seeStateAt_loop mg V move threshold state n st hst
  unfold StaticExchange
  rw [hpre]
  dsimp only
  rw [show 65 = n + (64 - n + 1) by omega, hloop (64 - n + 1)]
  simp only [seeLoop, hiter]

/-- C15 at the sample position, first iteration: the rook d1 has taken the
pawn d5, only the king e6 can recapture, and the pawn c4 still attacks d5; the
capture by the king is rejected and the result is true. -/
theorem see_king_capture_witness :
    seeOpponentAttacks sampleKingDefends sampleKingEntry ∧
      StaticExchange sampleMoveGen sampleSeeScores (sampleMove 3 35) 0 sampleKingDefends =
        some true ∧
      (seeIter sampleMoveGen sampleSeeScores sampleKingDefends
          (sampleMoveGen.GetTo (sampleMove 3 35)) sampleKingEntry =
          .done (if seeOpponentAttacks sampleKingDefends sampleKingEntry
            then decide (FlipColor sampleKingEntry.turn ≠ sampleKingDefends.turn)
            else decide (FlipColor sampleKingEntry.turn = sampleKingDefends.turn)) ∧
        StaticExchange sampleMoveGen sampleSeeScores (sampleMove 3 35) 0 sampleKingDefends =
          some (if seeOpponentAttacks sampleKingDefends sampleKingEntry
            then decide (FlipColor sampleKingEntry.turn ≠ sampleKingDefends.turn)
            else decide (FlipColor sampleKingEntry.turn = sampleKingDefends.turn))) :=
  ⟨by decide, by decide,
    see_king_capture sampleMoveGen sampleSeeScores (sampleMove 3 35) 0 sampleKingDefends 0
      sampleKingEntry (by decide) (by decide) (by decide)⟩

end eval

namespace search

namespace history

open chess

/-- The product of an `I16` score and a weight in its range is far inside the
range of `int`. -/
theorem mul_weight_bound (x W : Int) (hx : isI16 x) (h0 : 0 ≤ W) (h1 : W ≤ 2048) :
    -67108864 ≤ x * W ∧ x * W ≤ 67108864 := by
  obtain ⟨hx1, hx2⟩ := hx
  constructor <;> nlinarith

/-- The five weighted additions on the `I32` accumulator never wrap. -/
theorem addWeighted_exact (w : HistoryWeights) (q c1 c2 c4 p : Int) (hw : w.inRange)
    (hq : isI16 q) (h1 : isI16 c1) (h2 : isI16 c2) (h4 : isI16 c4) (hp : isI16 p) :
    addWeighted
        (addWeighted
          (addWeighted
            (addWeighted (addWeighted 0 q w.kQuietHistoryWeight) c1
              w.kFirstContinuationHistoryWeight)
            c2 w.kSecondContinuationHistoryWeight)
          c4 w.kFourthContinuationHistoryWeight)
        p w.kPawnHistoryWeight =
      q * w.kQuietHistoryWeight + c1 * w.kFirstContinuationHistoryWeight +
        c2 * w.kSecondContinuationHistoryWeight + c4 * w.kFourthContinuationHistoryWeight +
        p * w.kPawnHistoryWeight := by
  obtain ⟨⟨a1, a2⟩, ⟨b1, b2⟩, ⟨d1, d2⟩, ⟨e1, e2⟩, ⟨f1, f2⟩⟩ := hw
  have mq := mul_weight_bound q _ hq a1 a2
  have m1 := mul_weight_bound c1 _ h1 b1 b2
  have m2 := mul_weight_bound c2 _ h2 d1 d2
  have m4 := mul_weight_bound c4 _ h4 e1 e2
  have mp := mul_weight_bound p _ hp f1 f2
  unfold addWeighted toI32
  omega

/-- C17: `GetMoveScore` returns the capture-history score for a capture and,
for a quiet move, `(q*Wq + c1*W1 + c2*W2 + c4*W4 + p*Wp) / 1024` with
truncating division, `q` being the quiet score of the threat bucket, `c1`,
`c2`, `c4` the continuation scores at lookback 1, 2 and 4 and `p` the pawn
score; the segmented and the unified design are the same combination, each of
its own sub-scores.  The sub-scores are `I16` values and the weights lie in
their declared range. -/
theorem getMoveScore_combination (mg : eval.MoveGen) (w : HistoryWeights)
    (tables : SegmentedTables) (h : UnifiedHistory) (state : BoardState) (move : Move)
    (stack : Nat → StackEntry) (hw : w.inRange)
    (hsq : isI16 (tables.quietGetScore state move (stack 0).threats))
    (hs1 : isI16 (tables.continuationGetScore state move (fun k => stack (k + 1))))
    (hs2 : isI16 (tables.continuationGetScore state move (fun k => stack (k + 2))))
    (hs4 : isI16 (tables.continuationGetScore state move (fun k => stack (k + 4))))
    (hsp : isI16 (tables.pawnGetScore state move))
    (huq : isI16 (UnifiedHistory.GetQuietScore mg h state move (stack 0).threats))
    (hu1 : isI16 (UnifiedHistory.GetContinuationScore mg h state move (some stack) 1))
    (hu2 : isI16 (UnifiedHistory.GetContinuationScore mg h state move (some stack) 2))
    (hu4 : isI16 (UnifiedHistory.GetContinuationScore mg h state move (some stack) 4))
    (hup : isI16 (UnifiedHistory.GetPawnScore mg h state move)) :
    History.GetMoveScore mg w tables state move stack =
        specMoveScore w (mg.IsCapture move state) (tables.captureGetScore state move)
          (tables.quietGetScore state move (stack 0).threats)
          (tables.continuationGetScore state move (fun k => stack (k + 1)))
          (tables.continuationGetScore state move (fun k => stack (k + 2)))
          (tables.continuationGetScore state move (fun k => stack (k + 4)))
          (tables.pawnGetScore state move) ∧
      UnifiedHistory.GetMoveScore mg w h state move stack =
        specMoveScore w (mg.IsCapture move state) (UnifiedHistory.GetCaptureScore mg h state move)
          (UnifiedHistory.GetQuietScore mg h state move (stack 0).threats)
          (UnifiedHistory.GetContinuationScore mg h state move (some stack) 1)
          (UnifiedHistory.GetContinuationScore mg h state move (some stack) 2)
          (UnifiedHistory.GetContinuationScore mg h state move (some stack) 4)
          (UnifiedHistory.GetPawnScore mg h state move) := by
  constructor
  · unfold History.GetMoveScore specMoveScore
    split
    · rfl
    · unfold History.GetQuietMoveScore
      dsimp only
      rw [addWeighted_exact w _ _ _ _ _ hw hsq hs1 hs2 hs4 hsp]
      rfl
  · unfold UnifiedHistory.GetMoveScore specMoveScore
    split
    · rfl
    · dsimp only
      rw [addWeighted_exact w _ _ _ _ _ hw huq hu1 hu2 hu4 hup]
      rfl

/-- C17 at a quiet move of the sample position with the default weights: the
segmented tables hold 100, -50, -50, -50 and 7, so the sum is -49771 and the
score -48 (rounded toward zero); the unified tables are cleared. -/
theorem getMoveScore_combination_witness :
    History.GetMoveScore eval.sampleMoveGen sampleWeights sampleTables eval.sampleDefended
        (eval.sampleMove 27 28) sampleStack = -48 ∧
      UnifiedHistory.GetMoveScore eval.sampleMoveGen sampleWeights sampleHistory
        eval.sampleDefended (eval.sampleMove 27 28) sampleStack = 0 ∧
      (History.GetMoveScore eval.sampleMoveGen sampleWeights sampleTables eval.sampleDefended
          (eval.sampleMove 27 28) sampleStack =
        specMoveScore sampleWeights
          (eval.sampleMoveGen.IsCapture (eval.sampleMove 27 28) eval.sampleDefended)
          (sampleTables.captureGetScore eval.sampleDefended (eval.sampleMove 27 28))
          (sampleTables.quietGetScore eval.sampleDefended (eval.sampleMove 27 28)
            (sampleStack 0).threats)
          (sampleTables.continuationGetScore eval.sampleDefended (eval.sampleMove 27 28)
            (fun k => sampleStack (k + 1)))
          (sampleTables.continuationGetScore eval.sampleDefended (eval.sampleMove 27 28)
            (fun k => sampleStack (k + 2)))
          (sampleTables.continuationGetScore eval.sampleDefended (eval.sampleMove 27 28)
            (fun k => sampleStack (k + 4)))
          (sampleTables.pawnGetScore eval.sampleDefended (eval.sampleMove 27 28)) ∧
      UnifiedHistory.GetMoveScore eval.sampleMoveGen sampleWeights sampleHistory
          eval.sampleDefended (eval.sampleMove 27 28) sampleStack =
        specMoveScore sampleWeights
          (eval.sampleMoveGen.IsCapture (eval.sampleMove 27 28) eval.sampleDefended)
          (UnifiedHistory.GetCaptureScore eval.sampleMoveGen sampleHistory eval.sampleDefended
            (eval.sampleMove 27 28))
          (UnifiedHistory.GetQuietScore eval.sampleMoveGen sampleHistory eval.sampleDefended
            (eval.sampleMove 27 28) (sampleStack 0).threats)
          (UnifiedHistory.GetContinuationScore eval.sampleMoveGen sampleHistory
            eval.sampleDefended (eval.sampleMove 27 28) (some sampleStack) 1)
          (UnifiedHistory.GetContinuationScore eval.sampleMoveGen sampleHistory
            eval.sampleDefended (eval.sampleMove 27 28) (some sampleStack) 2)
          (UnifiedHistory.GetContinuationScore eval.sampleMoveGen sampleHistory
            eval.sampleDefended (eval.sampleMove 27 28) (some sampleStack) 4)
          (UnifiedHistory.GetPawnScore eval.sampleMoveGen sampleHistory eval.sampleDefended
            (eval.sampleMove 27 28))) :=
  ⟨by decide, by decide,
    getMoveScore_combination eval.sampleMoveGen sampleWeights sampleTables sampleHistory
      eval.sampleDefended (eval.sampleMove 27 28) sampleStack (by decide) (by decide)
      (by decide) (by decide) (by decide) (by decide) (by decide) (by decide) (by decide)
      (by decide) (by decide)⟩

/-- One gravity step keeps a score in `[0, M]` and does not lower it. -/
theorem scaleBonus_step (M b s : Int) (hM : 0 < M) (hb0 : 0 < b) (hb : b ≤ M)
    (hs0 : 0 ≤ s) (hs : s ≤ M) :
    s ≤ s + ScaleBonus M s b ∧ s + ScaleBonus M s b ≤ M := by
  unfold ScaleBonus
  rw [abs_of_pos hb0, Int.tdiv_eq_ediv (Int.mul_nonneg hs0 (le_of_lt hb0)) (le_of_lt hM)]
  have h1 : s * b / M ≤ b := by
    apply Int.ediv_le_of_le_mul hM
    nlinarith
  have h2 : s + b - M ≤ s * b / M := by
    apply Int.le_ediv_of_mul_le hM
    nlinarith
  omega

/-- The gravity sequence stays in `[0, M]`. -/
theorem gravitySeq_range (M b : Int) (hM : 0 < M) (hb0 : 0 < b) (hb : b ≤ M) (n : Nat) :
    0 ≤ gravitySeq M b n ∧ gravitySeq M b n ≤ M := by
  induction n with
  | zero => exact ⟨le_refl 0, le_of_lt hM⟩
  | succ n ih =>
    have h := scaleBonus_step M b (gravitySeq M b n) hM hb0 hb ih.1 ih.2
    simp only [gravitySeq]
    omega

/-- C18: for every bound `M > 0` and every bonus `b` with `0 < b <= M`, the
scores `s_0 = 0`, `s_(n+1) = s_n + (b - s_n * |b| / M)` do not decrease and
never exceed `M`. -/
theorem gravity_monotone_bounded (M b : Int) (n : Nat) (hM : 0 < M) (hb0 : 0 < b)
    (hb : b ≤ M) :
    gravitySeq M b n ≤ gravitySeq M b (n + 1) ∧ gravitySeq M b n ≤ M := by
  have hr := gravitySeq_range M b hM hb0 hb n
  have h := scaleBonus_step M b (gravitySeq M b n) hM hb0 hb hr.1 hr.2
  exact ⟨by simp only [gravitySeq]; exact h.1, hr.2⟩

/-- C18 at the bound 16384 and the bonus 1000: the first scores are 0, 1000,
1939 and 2821. -/
theorem gravity_monotone_bounded_witness :
    (gravitySeq 16384 1000 1 = 1000 ∧ gravitySeq 16384 1000 2 = 1939 ∧
        gravitySeq 16384 1000 3 = 2821) ∧
      (gravitySeq 16384 1000 2 ≤ gravitySeq 16384 1000 (2 + 1) ∧
        gravitySeq 16384 1000 2 ≤ 16384) :=
  ⟨by decide, gravity_monotone_bounded 16384 1000 2 (by decide) (by decide) (by decide)⟩

namespace UnifiedHistory

/-- What `std::clamp` yields for the bounds -32000 and 32000 lies between
them. -/
theorem stdClamp_range (v : Int) :
    -32000 ≤ stdClamp v (-32000) 32000 ∧ stdClamp v (-32000) 32000 ≤ 32000 := by
  unfold stdClamp
  split_ifs <;> omega

/-- A call of `UpdateCorrectionScore` keeps every entry of the correction table
in `[-32000, 32000]`. -/
theorem updateCorrection_keeps_range (h : UnifiedHistory) (state : BoardState)
    (pawn_key : Nat) (bonus : Int)
    (hr : ∀ i, -32000 ≤ h.correction_table_ i ∧ h.correction_table_ i ≤ 32000) (i : Nat) :
    -32000 ≤ (UpdateCorrectionScore h state pawn_key bonus).correction_table_ i ∧
      (UpdateCorrectionScore h state pawn_key bonus).correction_table_ i ≤ 32000 := by
  unfold UpdateCorrectionScore
  dsimp only
  split
  · exact stdClamp_range _
  · exact hr i

/-- A sequence of calls keeps every entry of the correction table in
`[-32000, 32000]`. -/
theorem applyCorrections_keeps_range (calls : List CorrectionCall) :
    ∀ h : UnifiedHistory,
      (∀ i, -32000 ≤ h.correction_table_ i ∧ h.correction_table_ i ≤ 32000) →
      ∀ i, -32000 ≤ (applyCorrections calls h).correction_table_ i ∧
        (applyCorrections calls h).correction_table_ i ≤ 32000 := by
  induction calls with
  | nil => intro h hr i; exact hr i
  | cons c rest ih =>
    intro h hr i
    unfold applyCorrections
    rw [List.foldl_cons]
    exact ih _ (updateCorrection_keeps_range h c.state c.pawn_key c.bonus hr) i

/-- C19: starting from a cleared `UnifiedHistory`, after any sequence of calls
of `UpdateCorrectionScore`, whatever the bonuses, every entry of the correction
table lies in `[-32000, 32000]`. -/
theorem correction_table_in_clamp_range (h0 : UnifiedHistory) (calls : List CorrectionCall)
    (i : Nat) :
    -32000 ≤ (applyCorrections calls (Clear h0)).correction_table_ i ∧
      (applyCorrections calls (Clear h0)).correction_table_ i ≤ 32000 := by
  apply applyCorrections_keeps_range
  intro j
  simp [Clear]

/-- When the exact sum `s + b` fits an `I16`, `UpdateCorrectionScore` stores
the saturating sum. -/
theorem updateCorrection_saturates_when_fits (h : UnifiedHistory) (state : BoardState)
    (pawn_key : Nat) (bonus : Int)
    (hfit : isI16 (h.correction_table_ (GetCorrectionIndex state.turn pawn_key) + bonus)) :
    (UpdateCorrectionScore h state pawn_key bonus).correction_table_
        (GetCorrectionIndex state.turn pawn_key) =
      specSaturatingSum (h.correction_table_ (GetCorrectionIndex state.turn pawn_key)) bonus := by
  obtain ⟨h1, h2⟩ := hfit
  unfold UpdateCorrectionScore specSaturatingSum stdClamp toI16
  simp only [if_true]
  have hw : (h.correction_table_ (GetCorrectionIndex state.turn pawn_key) + bonus + 2 ^ 15) %
      2 ^ 16 - 2 ^ 15 = h.correction_table_ (GetCorrectionIndex state.turn pawn_key) + bonus := by
    omega
  rw [hw]
  split_ifs <;> omega

/-- C20, the code at the stored score 32000 and the bonus 1000: the first call
(bonus 32000 on a cleared table) stores 32000; in the second the sum 33000 is
converted to the `I16` value -32536 before `std::clamp`, so -32000 is stored,
while the saturating sum is 32000. -/
theorem correction_update_wraps :
    (UpdateCorrectionScore sampleHistory eval.sampleDefended 5 32000).correction_table_
        (GetCorrectionIndex eval.sampleDefended.turn 5) = 32000 ∧
      toI16 (32000 + 1000) = -32536 ∧
      (UpdateCorrectionScore
          (UpdateCorrectionScore sampleHistory eval.sampleDefended 5 32000)
          eval.sampleDefended 5 1000).correction_table_
        (GetCorrectionIndex eval.sampleDefended.turn 5) = -32000 ∧
      specSaturatingSum 32000 1000 = 32000 := by
  decide

end UnifiedHistory

end history

end search

namespace search

namespace history

open chess

namespace UnifiedHistory

/-- C21, the code at the piece codes 6 (piece type 3, colour 0) and 8 (piece
type 4, colour 0): `GetContinuationIndex` reads the code as `color * 8 + type`
(`piece & 7`, `piece >> 3`), so both codes give the block `6 * 64 * 64` and
the two pieces share every cell. -/
theorem continuation_index_collision (mg : eval.MoveGen) (to_sq : Nat) (move : Move) :
    GetContinuationIndex mg 6 to_sq move = GetContinuationIndex mg 8 to_sq move ∧
      GetContinuationIndex mg 6 to_sq move = 6 * 64 * 64 + to_sq * 64 + mg.GetTo move ∧
      PieceType.kRook.toNat * 2 + Color.kWhite.toNat = 6 ∧
      PieceType.kQueen.toNat * 2 + Color.kWhite.toNat = 8 := by
  have h1 : (6 : Nat) &&& 7 = 6 := by decide
  have h2 : (6 : Nat) >>> 3 = 0 := by decide
  have h3 : (8 : Nat) &&& 7 = 0 := by decide
  have h4 : (8 : Nat) >>> 3 = 1 := by decide
  refine ⟨?_, ?_, rfl, rfl⟩ <;>
    simp only [GetContinuationIndex, kNumPieceTypes, kSquareCount, h1, h2, h3, h4]

/-- The mask `pawn_key & 16383` is the pawn key modulo 16384. -/
theorem and_16383 (pawn_key : Nat) : pawn_key &&& 16383 = pawn_key % 16384 := by
  have h := Nat.and_pow_two_sub_one_eq_mod pawn_key 14
  norm_num at h
  exact h

/-- The numeric value of a colour is 0 or 1. -/
theorem color_toNat_le (c : Color) : c.toNat ≤ 1 := by
  cases c <;> simp [Color.toNat]

/-- Colours with the same numeric value are the same. -/
theorem color_toNat_inj (c c2 : Color) (h : c.toNat = c2.toNat) : c = c2 := by
  cases c <;> cases c2 <;> simp [Color.toNat] at h ⊢

/-- C29: for colours 0 and 1, squares below 64, piece codes up to 11 and any
pawn key, `GetMainIndex < 2*64*64`, `GetContinuationIndex < 2*6*64*64`,
`GetPawnIndex < 2*16384*64` and `GetCorrectionIndex < 2*16384`; and
`GetMainIndex`, `GetPawnIndex` and `GetCorrectionIndex` are injective on
(colour, from, to), (colour, pawn key mod 16384, to) and (colour, pawn key mod
16384). -/
theorem unified_indices_in_bounds (mg : eval.MoveGen) (c c2 : Color) (move move2 : Move)
    (piece to_sq to_sq2 pawn_key pawn_key2 : Nat)
    (hfrom : mg.GetFrom move < 64) (hto : mg.GetTo move < 64)
    (hfrom2 : mg.GetFrom move2 < 64) (hto2 : mg.GetTo move2 < 64)
    (hpiece : piece ≤ 11) (hsq : to_sq < 64) (hsq2 : to_sq2 < 64) :
    GetMainIndex mg c move < 2 * 64 * 64 ∧
      GetContinuationIndex mg piece to_sq move < 2 * 6 * 64 * 64 ∧
      GetPawnIndex c pawn_key to_sq < 2 * 16384 * 64 ∧
      GetCorrectionIndex c pawn_key < 2 * 16384 ∧
      (GetMainIndex mg c move = GetMainIndex mg c2 move2 →
        c = c2 ∧ mg.GetFrom move = mg.GetFrom move2 ∧ mg.GetTo move = mg.GetTo move2) ∧
      (GetPawnIndex c pawn_key to_sq = GetPawnIndex c2 pawn_key2 to_sq2 →
        c = c2 ∧ pawn_key % 16384 = pawn_key2 % 16384 ∧ to_sq = to_sq2) ∧
      (GetCorrectionIndex c pawn_key = GetCorrectionIndex c2 pawn_key2 →
        c = c2 ∧ pawn_key % 16384 = pawn_key2 % 16384) := by
  have hk := Nat.mod_lt pawn_key (show 0 < 16384 by decide)
  have hk2 := Nat.mod_lt pawn_key2 (show 0 < 16384 by decide)
  have hc := color_toNat_le c
  have hc2 := color_toNat_le c2
  have hp7 : piece &&& 7 = piece % 8 := by
    have h := Nat.and_pow_two_sub_one_eq_mod piece 3
    norm_num at h
    exact h
  have hp3 : piece >>> 3 = piece / 8 := by
    rw [Nat.shiftRight_eq_div_pow]
  have e1 : GetMainIndex mg c move =
      c.toNat * 64 * 64 + mg.GetFrom move * 64 + mg.GetTo move := rfl
  have e1b : GetMainIndex mg c2 move2 =
      c2.toNat * 64 * 64 + mg.GetFrom move2 * 64 + mg.GetTo move2 := rfl
  have e2 : GetContinuationIndex mg piece to_sq move =
      (piece / 8 * 6 + piece % 8) * 64 * 64 + to_sq * 64 + mg.GetTo move := by
    simp only [GetContinuationIndex, kNumPieceTypes, kSquareCount, hp7, hp3]
  have e3 : GetPawnIndex c pawn_key to_sq =
      (c.toNat * 16384 + pawn_key % 16384) * 64 + to_sq := by
    simp only [GetPawnIndex, kPawnCount, kSquareCount, show 16384 - 1 = 16383 by decide,
      and_16383]
  have e3b : GetPawnIndex c2 pawn_key2 to_sq2 =
      (c2.toNat * 16384 + pawn_key2 % 16384) * 64 + to_sq2 := by
    simp only [GetPawnIndex, kPawnCount, kSquareCount, show 16384 - 1 = 16383 by decide,
      and_16383]
  have e4 : GetCorrectionIndex c pawn_key = c.toNat * 16384 + pawn_key % 16384 := by
    simp only [GetCorrectionIndex, and_16383]
  have e4b : GetCorrectionIndex c2 pawn_key2 = c2.toNat * 16384 + pawn_key2 % 16384 := by
    simp only [GetCorrectionIndex, and_16383]
  rw [e1, e1b, e2, e3, e3b, e4, e4b]
  refine ⟨by omega, by omega, by omega, by omega, ?_, ?_, ?_⟩
  · intro h
    exact ⟨color_toNat_inj c c2 (by omega), by omega, by omega⟩
  · intro h
    exact ⟨color_toNat_inj c c2 (by omega), by omega, by omega⟩
  · intro h
    exact ⟨color_toNat_inj c c2 (by omega), by omega⟩

/-- C29 at two moves of the sample move generator. -/
theorem unified_indices_in_bounds_witness :
    GetMainIndex eval.sampleMoveGen .kBlack (eval.sampleMove 27 35) < 2 * 64 * 64 ∧
      GetContinuationIndex eval.sampleMoveGen 11 63 (eval.sampleMove 27 35) <
        2 * 6 * 64 * 64 ∧
      GetPawnIndex .kBlack (2 ^ 64 - 1) 63 < 2 * 16384 * 64 ∧
      GetCorrectionIndex .kBlack (2 ^ 64 - 1) < 2 * 16384 ∧
      (GetMainIndex eval.sampleMoveGen .kBlack (eval.sampleMove 27 35) =
          GetMainIndex eval.sampleMoveGen .kWhite (eval.sampleMove 3 35) →
        Color.kBlack = Color.kWhite ∧
          eval.sampleMoveGen.GetFrom (eval.sampleMove 27 35) =
            eval.sampleMoveGen.GetFrom (eval.sampleMove 3 35) ∧
          eval.sampleMoveGen.GetTo (eval.sampleMove 27 35) =
            eval.sampleMoveGen.GetTo (eval.sampleMove 3 35)) ∧
      (GetPawnIndex .kBlack (2 ^ 64 - 1) 63 = GetPawnIndex .kWhite 5 7 →
        Color.kBlack = Color.kWhite ∧ (2 ^ 64 - 1) % 16384 = 5 % 16384 ∧ 63 = 7) ∧
      (GetCorrectionIndex .kBlack (2 ^ 64 - 1) = GetCorrectionIndex .kWhite 5 →
        Color.kBlack = Color.kWhite ∧ (2 ^ 64 - 1) % 16384 = 5 % 16384) :=
  unified_indices_in_bounds eval.sampleMoveGen .kBlack .kWhite (eval.sampleMove 27 35)
    (eval.sampleMove 3 35) 11 63 7 (2 ^ 64 - 1) 5 (by decide) (by decide) (by decide)
    (by decide) (by decide) (by decide) (by decide)

end UnifiedHistory

end history

end search

namespace data_gen

/-- The modulus of the progress report is zero exactly when fewer than 50
games are configured. -/
theorem progressModulus_eq_zero_iff (num_games : Nat) :
    progressModulus num_games = 0 ↔ num_games < 50 := by
  unfold progressModulus
  omega

/-- C28, the code at `num_games = 10`, `num_threads = 1`: `Generate` leaves the
10 games as they are, `10 / 50 = 0`, so the modulus is `min(0, 1000) = 0` and
the test of the first completed game takes a remainder by zero. -/
theorem progress_modulus_zero :
    roundNumGames 10 1 = 10 ∧ progressModulus (roundNumGames 10 1) = 0 ∧
      progressTest (roundNumGames 10 1) 1 = none := by
  decide

end data_gen

namespace eval

namespace EvalCache

/-- C25, the code at the key 0: right after `Clear` every entry holds the key
0, so `Probe(0)` reports a hit, with the score 0, though nothing was stored. -/
theorem probe_zero_after_clear : Probe (Clear sampleCache) 0 7 = (true, 0) := by
  decide

/-- The keys in a cache built from a cleared one by stores are 0 or stored
keys. -/
theorem applyStores_keys (stores : List StoreCall) :
    ∀ (c : EvalCache) (P : Nat → Prop),
      (∀ i, (c.entries_ i).key = 0 ∨ P (c.entries_ i).key) →
      ∀ i, ((applyStores stores c).entries_ i).key = 0 ∨
        P ((applyStores stores c).entries_ i).key ∨
        ∃ s, s ∈ stores ∧ s.key = ((applyStores stores c).entries_ i).key := by
  induction stores with
  | nil =>
    intro c P h i
    rcases h i with h0 | hP
    · exact Or.inl h0
    · exact Or.inr (Or.inl hP)
  | cons s rest ih =>
    intro c P h i
    have hstep : ∀ j, ((c.Store s.key s.score).entries_ j).key = 0 ∨
        (fun k => P k ∨ k = s.key) ((c.Store s.key s.score).entries_ j).key := by
      intro j
      simp only [Store]
      split
      · exact Or.inr (Or.inr rfl)
      · rcases h j with h0 | hP
        · exact Or.inl h0
        · exact Or.inr (Or.inl hP)
    have hrec := ih (c.Store s.key s.score) (fun k => P k ∨ k = s.key) hstep i
    have happ : applyStores (s :: rest) c = applyStores rest (c.Store s.key s.score) := by
      simp [applyStores]
    rw [happ]
    rcases hrec with h0 | (hP | hs) | ⟨s2, hs2, hk⟩
    · exact Or.inl h0
    · exact Or.inr (Or.inl hP)
    · exact Or.inr (Or.inr ⟨s, List.mem_cons_self _ _, hs.symm⟩)
    · exact Or.inr (Or.inr ⟨s2, List.mem_cons_of_mem _ hs2, hk⟩)

/-- C25 as amended: right after `Clear`, `Probe` reports a miss for every key
other than 0; and after any stores that follow a `Clear`, a hit for a key
other than 0 is reported only if that key was stored since the `Clear`. -/
theorem probe_hit_only_stored (c : EvalCache) (stores : List StoreCall) (K : Nat)
    (score0 : Int) (hK : K ≠ 0) :
    (Probe (Clear c) K score0).1 = false ∧
      ((Probe (applyStores stores (Clear c)) K score0).1 = true →
        ∃ s, s ∈ stores ∧ s.key = K) := by
  constructor
  · have h : ¬ (0 = K) := fun h => hK h.symm
    simp [Probe, Clear, h]
  · intro hhit
    have hkeys := applyStores_keys stores (Clear c) (fun _ => False)
      (fun i => Or.inl (by simp [Clear])) (K &&& kCacheMask)
    have hkey : ((applyStores stores (Clear c)).entries_ (K &&& kCacheMask)).key = K := by
      simp only [Probe] at hhit
      by_contra hne
      rw [if_neg hne] at hhit
      simp at hhit
    rw [hkey] at hkeys
    rcases hkeys with h0 | hF | hs
    · exact absurd h0 hK
    · exact absurd hF id
    · exact hs

/-- C25 as amended, at the key 70002 after two stores. -/
theorem probe_hit_only_stored_witness :
    (Probe (Clear sampleCache) 70002 0).1 = false ∧
      ((Probe (applyStores [⟨5, 10⟩, ⟨70002, 55⟩] (Clear sampleCache)) 70002 0).1 = true →
        ∃ s, s ∈ [(⟨5, 10⟩ : StoreCall), ⟨70002, 55⟩] ∧ s.key = 70002) :=
  probe_hit_only_stored sampleCache [⟨5, 10⟩, ⟨70002, 55⟩] 70002 0 (by decide)

end EvalCache

end eval

namespace search

namespace TranspositionTable

/-- While the loop of `HashFull` stays below the capacity, the checked loop
adds up what the unchecked loop adds up. -/
theorem hashFullChecked_fold_some (kTTClusterSize : Nat) (kScoreNone : Int)
    (t : TranspositionTable) (n : Nat) (hn : n ≤ t.table_size_) :
    (List.range n).foldl
        (fun count i =>
          match count, clusterAt t i with
          | some count, some cluster =>
            some (count + countIf kTTClusterSize (isLive kScoreNone t) cluster)
          | _, _ => none)
        (some 0) =
      some ((List.range n).foldl
        (fun count i => count + countIf kTTClusterSize (isLive kScoreNone t) (t.table_ i)) 0) := by
  induction n with
  | zero => rfl
  | succ k ih =>
    have hk : k < t.table_size_ := by omega
    have hread : clusterAt t k = some (t.table_ k) := by
      unfold clusterAt
      simp only [if_pos hk]
    rw [List.range_succ, List.foldl_append, List.foldl_append, ih (by omega)]
    simp only [List.foldl_cons, List.foldl_nil, hread]

/-- Once the loop of `HashFull` has passed the capacity, the checked loop has no
result. -/
theorem hashFullChecked_fold_none (kTTClusterSize : Nat) (kScoreNone : Int)
    (t : TranspositionTable) (n : Nat) (hn : t.table_size_ < n) :
    (List.range n).foldl
        (fun count i =>
          match count, clusterAt t i with
          | some count, some cluster =>
            some (count + countIf kTTClusterSize (isLive kScoreNone t) cluster)
          | _, _ => none)
        (some 0) = none := by
  induction n with
  | zero => omega
  | succ k ih =>
    rw [List.range_succ, List.foldl_append]
    by_cases hk : t.table_size_ < k
    · rw [ih hk]
      rfl
    · have hread : clusterAt t k = none := by
        unfold clusterAt
        simp only [if_neg (by omega : ¬ k < t.table_size_)]
      rw [hashFullChecked_fold_some kTTClusterSize kScoreNone t k (by omega)]
      simp only [List.foldl_cons, List.foldl_nil, hread]

/-- For a table of at least 1000 clusters every access of `HashFull` is inside
the table, and the checked `HashFull` is `HashFull`. -/
theorem hashFullChecked_of_large (kTTClusterSize : Nat) (kScoreNone : Int)
    (t : TranspositionTable) (hcap : 1000 ≤ t.table_size_) :
    HashFullChecked kTTClusterSize kScoreNone t =
      some (HashFull kTTClusterSize kScoreNone t) := by
  unfold HashFullChecked HashFull
  simp only [hashFullChecked_fold_some kTTClusterSize kScoreNone t 1000 hcap, Option.map_some']

/-- For a table of fewer than 1000 clusters the loop of `HashFull` reaches an
access outside the table, and the checked `HashFull` has no result. -/
theorem hashFullChecked_of_small (kTTClusterSize : Nat) (kScoreNone : Int)
    (t : TranspositionTable) (hcap : t.table_size_ < 1000) :
    HashFullChecked kTTClusterSize kScoreNone t = none := by
  unfold HashFullChecked
  simp only [hashFullChecked_fold_none kTTClusterSize kScoreNone t 1000 hcap, Option.map_none']

/-- C27, the code at a table of two clusters: the loop of `HashFull` runs `i`
from 0 to 999 without consulting `table_size_`; its third access, `table_[2]`,
is outside the table of clusters 0 and 1, so the checked run has no result.
-/
theorem hashFull_reads_outside_small_table :
    sampleTinyTable.table_size_ = 2 ∧ clusterAt sampleTinyTable 2 = none ∧
      HashFullChecked 3 32002 sampleTinyTable = none :=
  ⟨rfl, rfl, hashFullChecked_of_small 3 32002 sampleTinyTable (by simp [sampleTinyTable])⟩

/-- A `Save` of a key with non-zero low 16 bits on the slot that `Probe`
returns for it keeps the empty slots of every cluster behind the used ones. -/
theorem save_probe_keeps_emptySlotsLast (kTTClusterSize : Nat) (kMaxTTAge : Int)
    (index : Nat → Nat) (kExact : Nat) (CorrectScore : Int → Int → Int)
    (t : TranspositionTable) (key : Nat) (new_entry : TranspositionTableEntry) (ply : Int)
    (in_pv : Bool) (hkey : key % 65536 ≠ 0) (c : Nat)
    (h : emptySlotsLast kTTClusterSize (t.table_ c)) :
    emptySlotsLast kTTClusterSize
      ((Save kExact CorrectScore t (Probe kTTClusterSize kMaxTTAge index t key) new_entry key
        ply in_pv).table_ c) := by
  by_cases hc : c = index key
  · subst hc
    intro i j hij hj hi0
    have hpos : 0 < kTTClusterSize := by omega
    obtain ⟨_, hbefore⟩ :=
      probeLoop_first kMaxTTAge t (t.table_ (index key)) (key % 65536) kTTClusterSize INT_MAX
        hpos
    simp only [Save, store, Probe, deref, if_true] at hi0 ⊢
    by_cases hir : i = probeLoop kMaxTTAge t (t.table_ (index key)) (key % 65536)
        kTTClusterSize 0 INT_MAX 0
    · rw [if_pos hir, saveEntry_key] at hi0
      exact absurd hi0 hkey
    · rw [if_neg hir] at hi0
      have hgt : probeLoop kMaxTTAge t (t.table_ (index key)) (key % 65536)
          kTTClusterSize 0 INT_MAX 0 < i := by
        rcases Nat.lt_or_ge i (probeLoop kMaxTTAge t (t.table_ (index key)) (key % 65536)
          kTTClusterSize 0 INT_MAX 0) with hlt | hge
        · exact absurd (Or.inl hi0) (hbefore i hlt)
        · omega
      rw [if_neg (by omega)]
      exact h i j hij hj hi0
  · have hsame : (Save kExact CorrectScore t (Probe kTTClusterSize kMaxTTAge index t key)
        new_entry key ply in_pv).table_ c = t.table_ c := by
      simp [Save, store, Probe, hc]
    rw [hsame]
    exact h

/-- A sequence of calls whose keys have non-zero low 16 bits keeps the empty
slots of a cluster behind its used ones. -/
theorem applyOps_keeps_emptySlotsLast (kTTClusterSize : Nat) (kMaxTTAge : Int)
    (index : Nat → Nat) (kExact : Nat) (CorrectScore : Int → Int → Int) (c : Nat)
    (ops : List TTOp) :
    ∀ t : TranspositionTable, (∀ op, op ∈ ops → op.keyNonzero) →
      emptySlotsLast kTTClusterSize (t.table_ c) →
      emptySlotsLast kTTClusterSize
        ((applyOps kTTClusterSize kMaxTTAge index kExact CorrectScore ops t).table_ c) := by
  induction ops with
  | nil => intro t _ h; exact h
  | cons op rest ih =>
    intro t hops h
    have happ : applyOps kTTClusterSize kMaxTTAge index kExact CorrectScore (op :: rest) t =
        applyOps kTTClusterSize kMaxTTAge index kExact CorrectScore rest
          (applyOp kTTClusterSize kMaxTTAge index kExact CorrectScore t op) := by
      simp [applyOps]
    rw [happ]
    apply ih _ (fun o ho => hops o (List.mem_cons_of_mem _ ho))
    have hop := hops op (List.mem_cons_self _ _)
    cases op with
    | age => exact h
    | save key new_entry ply in_pv =>
      exact save_probe_keeps_emptySlotsLast kTTClusterSize kMaxTTAge index kExact CorrectScore
        t key new_entry ply in_pv hop c h

/-- When the empty slots of the key's cluster come last and some slot stores
the non-zero low 16 bits of the key, `Probe` returns a slot that stores them.
-/
theorem probe_finds_key_of_emptySlotsLast (kTTClusterSize : Nat) (kMaxTTAge : Int)
    (index : Nat → Nat) (t : TranspositionTable) (key j : Nat) (hkey : key % 65536 ≠ 0)
    (hinv : emptySlotsLast kTTClusterSize (t.table_ (index key)))
    (hj : j < kTTClusterSize)
    (hstored : ((t.table_ (index key)).entries j).key = key % 65536) :
    (t.deref (Probe kTTClusterSize kMaxTTAge index t key)).key = key % 65536 := by
  have hex : ∃ k, k < kTTClusterSize ∧ hits (t.table_ (index key)) (key % 65536) k :=
    ⟨j, hj, Or.inr hstored⟩
  have hspec := Nat.find_spec hex
  have hmin : ∀ k, k < Nat.find hex → ¬ hits (t.table_ (index key)) (key % 65536) k := by
    intro k hk hhit
    exact Nat.find_min hex hk ⟨lt_trans hk hspec.1, hhit⟩
  have hr := probeLoop_hit kMaxTTAge t (t.table_ (index key)) (key % 65536) kTTClusterSize 0
    INT_MAX 0 (Nat.find hex) (Nat.zero_le _) (by omega) hspec.2 (fun k _ hk => hmin k hk)
  simp only [Probe, deref]
  rw [hr]
  rcases hspec.2 with h0 | hk
  · have hle : Nat.find hex ≤ j := Nat.find_min' hex ⟨hj, Or.inr hstored⟩
    have := hinv (Nat.find hex) j hle hj h0
    rw [hstored] at this
    exact absurd this hkey
  · exact hk

/-- C24, the code at a table of one cluster of three slots: after the saves
of the keys 1, 2 and 3 (depths 1, 5 and 9) and of the key 65536, whose low 16
bits are zero and which replaces slot 0, slot 2 stores the truncated key 3
but `Probe(3)` returns slot 0, whose key is 0. -/
theorem probe_misses_stored_key :
    (3 : Nat) % 65536 ≠ 0 ∧
      (((applyOps 3 32 (fun _ => 0) 3 (fun s _ => s) sampleOps
        (Clear sampleOneCluster 1)).table_ 0).entries 2).key = 3 % 65536 ∧
      Probe 3 32 (fun _ => 0)
        (applyOps 3 32 (fun _ => 0) 3 (fun s _ => s) sampleOps (Clear sampleOneCluster 1)) 3 =
        ⟨0, 0⟩ ∧
      ((applyOps 3 32 (fun _ => 0) 3 (fun s _ => s) sampleOps
          (Clear sampleOneCluster 1)).deref
        (Probe 3 32 (fun _ => 0)
          (applyOps 3 32 (fun _ => 0) 3 (fun s _ => s) sampleOps (Clear sampleOneCluster 1))
          3)).key ≠ 3 % 65536 := by
  decide

/-- C24 as amended: in every table reached from a cleared table by `Age()`
and by `Save` calls, made on the slot that `Probe` returns for the same key,
whose keys have non-zero low 16 bits, for every key with non-zero low 16 bits
of which some slot of the cluster stores the truncated key, `Probe` returns a
slot that stores that truncated key. -/
theorem probe_finds_stored_key (kTTClusterSize : Nat) (kMaxTTAge : Int) (index : Nat → Nat)
    (kExact : Nat) (CorrectScore : Int → Int → Int) (t : TranspositionTable) (N : Nat)
    (ops : List TTOp) (key j : Nat)
    (hN : 1 ≤ N) (hNT : N ≤ t.table_size_) (hT : t.table_size_ < 2 ^ 63)
    (hidx : index key < t.table_size_)
    (hops : ∀ op, op ∈ ops → op.keyNonzero)
    (hkey : key % 65536 ≠ 0) (hj : j < kTTClusterSize)
    (hstored :
      (((applyOps kTTClusterSize kMaxTTAge index kExact CorrectScore ops (Clear t N)).table_
        (index key)).entries j).key = key % 65536) :
    ((applyOps kTTClusterSize kMaxTTAge index kExact CorrectScore ops (Clear t N)).deref
        (Probe kTTClusterSize kMaxTTAge index
          (applyOps kTTClusterSize kMaxTTAge index kExact CorrectScore ops (Clear t N))
          key)).key = key % 65536 := by
  have hclear : emptySlotsLast kTTClusterSize ((Clear t N).table_ (index key)) := by
    rw [clear_cluster_zero t N hN hNT hT (index key) hidx]
    intro i j _ _ _
    rfl
  have hinv := applyOps_keeps_emptySlotsLast kTTClusterSize kMaxTTAge index kExact
    CorrectScore (index key) ops (Clear t N) hops hclear
  exact probe_finds_key_of_emptySlotsLast kTTClusterSize kMaxTTAge index _ key j hkey hinv hj
    hstored

/-- C24 as amended, at a table of one cluster after the saves of the keys 1, 2
and 3 and an `Age()`: slot 2 stores the key 3 and `Probe(3)` returns it. -/
theorem probe_finds_stored_key_witness :
    Probe 3 32 (fun _ => 0)
        (applyOps 3 32 (fun _ => 0) 3 (fun s _ => s) sampleOpsNonzero
          (Clear sampleOneCluster 1)) 3 = ⟨0, 2⟩ ∧
      ((applyOps 3 32 (fun _ => 0) 3 (fun s _ => s) sampleOpsNonzero
          (Clear sampleOneCluster 1)).deref
        (Probe 3 32 (fun _ => 0)
          (applyOps 3 32 (fun _ => 0) 3 (fun s _ => s) sampleOpsNonzero
            (Clear sampleOneCluster 1)) 3)).key = 3 % 65536 :=
  ⟨by decide,
    probe_finds_stored_key 3 32 (fun _ => 0) 3 (fun s _ => s) sampleOneCluster 1
      sampleOpsNonzero 3 2 (by decide) (by decide) (by decide) (by decide)
      (by simp [sampleOpsNonzero, TTOp.keyNonzero]) (by decide) (by decide) (by decide)⟩

end TranspositionTable

end search

namespace eval

open chess

/-- A side that is not the given one is its opponent. -/
theorem flipColor_eq_of_ne (a b : Color) (h : a ≠ b) : FlipColor a = b := by
  cases a <;> cases b <;> simp [FlipColor] at h ⊢

/-- Two runs of the loop that differ only in the score: when the score of the
first is the more favourable one for the side that made the original move, a
true result of the second run is a true result of the first. -/
theorem seeLoop_mono (mg : MoveGen) (V : PieceType → Int) (state : BoardState) (to_sq : Nat) :
    ∀ (fuel : Nat) (turn winner : Color) (all_attackers occupied : BitBoard) (s1 s2 : Int),
      (winner = state.turn → s1 ≤ s2) → (winner ≠ state.turn → s2 ≤ s1) →
      seeLoop mg V state to_sq fuel ⟨turn, winner, all_attackers, occupied, s2⟩ = some true →
      seeLoop mg V state to_sq fuel ⟨turn, winner, all_attackers, occupied, s1⟩ = some true := by
  intro fuel
  induction fuel with
  | zero =>
    intro turn winner all_attackers occupied s1 s2 _ _ h
    simp [seeLoop] at h
  | succ fuel ih =>
    intro turn winner all_attackers occupied s1 s2 hle hge h
    simp only [seeLoop, seeIter] at h ⊢
    by_cases hour : seeOurAttackers state (seePins mg state to_sq) (FlipColor turn)
        (all_attackers &&& occupied) = 0
    · simp only [if_pos hour] at h ⊢
      exact h
    · simp only [if_neg hour] at h ⊢
      cases hpick : seePick mg V state to_sq
          (seeOurAttackers state (seePins mg state to_sq) (FlipColor turn)
            (all_attackers &&& occupied))
          (all_attackers &&& occupied) occupied with
      | none =>
        simp only [hpick] at h ⊢
        exact h
      | some pick =>
        obtain ⟨v, occ2, all2⟩ := pick
        simp only [hpick] at h ⊢
        by_cases hw : winner = state.turn
        · have h12 := hle hw
          by_cases hn2 : -s2 + 1 + v ≤ 0
          · simp only [if_pos hn2] at h
            have hne : ¬ state.turn = FlipColor winner := by
              rw [hw]
              exact fun e => flipColor_ne state.turn e.symm
            simp [hne] at h
          · simp only [if_neg hn2] at h
            have hn1 : ¬ (-s1 + 1 + v ≤ 0) := by omega
            simp only [if_neg hn1]
            apply ih _ _ _ _ _ _ _ _ h
            · intro e
              rw [hw] at e
              exact absurd e (flipColor_ne state.turn)
            · intro _
              omega
        · have h21 := hge hw
          have hflip : FlipColor winner = state.turn := flipColor_eq_of_ne winner state.turn hw
          by_cases hn1 : -s1 + 1 + v ≤ 0
          · simp only [if_pos hn1]
            simp [hflip]
          · simp only [if_neg hn1]
            have hn2 : ¬ (-s2 + 1 + v ≤ 0) := by omega
            simp only [if_neg hn2] at h
            apply ih _ _ _ _ _ _ _ _ h
            · intro _
              omega
            · intro e
              exact absurd hflip e

/-- With exact integer scores `StaticExchange` is monotone in the threshold:
for thresholds `t1 <= t2`, when it returns true for `t2` it returns true for
`t1`. -/
theorem staticExchange_mono (mg : MoveGen) (V : PieceType → Int) (move : search.Move)
    (t1 t2 : Int) (state : BoardState) (hle : t1 ≤ t2)
    (h2 : StaticExchange mg V move t2 state = some true) :
    StaticExchange mg V move t1 state = some true := by
  unfold StaticExchange seePrelude at h2 ⊢
  dsimp only at h2 ⊢
  by_cases hsim : seeIgnoresMove mg move state
  · rw [if_pos hsim] at h2 ⊢
    simp only [Option.some.injEq, decide_eq_true_eq] at h2 ⊢
    omega
  · rw [if_neg hsim] at h2 ⊢
    by_cases hm2 : V (state.GetPieceType (mg.GetTo move)) - t2 < 0
    · rw [if_pos hm2] at h2
      simp at h2
    · rw [if_neg hm2] at h2
      rw [if_neg (by omega)]
      by_cases hs1 : V (state.GetPieceType (mg.GetFrom move)) -
          (V (state.GetPieceType (mg.GetTo move)) - t1) ≤ 0
      · rw [if_pos hs1]
      · rw [if_neg hs1]
        rw [if_neg (by omega)] at h2
        dsimp only at h2 ⊢
        exact seeLoop_mono mg V state (mg.GetTo move) 65 _ _ _ _ _ _ (fun _ => by omega)
          (fun e => absurd rfl e) h2

end eval

namespace chess

/-- The bits of `b - 2 ^ sq` when bit `sq` of `b` is set: bit `sq` is cleared
and the others are kept. -/
theorem testBit_sub_two_pow :
    ∀ (sq b : Nat), b.testBit sq = true →
      ∀ i, (b - 2 ^ sq).testBit i = (b.testBit i && decide (i ≠ sq)) := by
  intro sq
  induction sq with
  | zero =>
    intro b h i
    have hodd : b % 2 = 1 := by simpa [Nat.testBit_zero] using h
    cases i with
    | zero =>
      simp only [Nat.testBit_zero, pow_zero]
      have : ¬ ((b - 1) % 2 = 1) := by omega
      simp [this]
    | succ j =>
      simp only [Nat.testBit_succ, pow_zero]
      have : (b - 1) / 2 = b / 2 := by omega
      simp [this]
  | succ sq ih =>
    intro b h i
    have hge : b ≥ 2 ^ (sq + 1) := Nat.testBit_implies_ge h
    have hpow : 2 ^ (sq + 1) = 2 * 2 ^ sq := by rw [pow_succ]; ring
    rw [hpow] at hge ⊢
    have hhalf : (b / 2).testBit sq = true := by
      rw [Nat.testBit_succ] at h
      exact h
    cases i with
    | zero =>
      simp only [Nat.testBit_zero]
      have : (b - 2 * 2 ^ sq) % 2 = b % 2 := by omega
      simp [this]
    | succ j =>
      simp only [Nat.testBit_succ]
      have : (b - 2 * 2 ^ sq) / 2 = b / 2 - 2 ^ sq := by omega
      rw [this, ih (b / 2) hhalf j]
      simp

/-- The intersection of a board with a one-bit board. -/
theorem and_two_pow_eq (b sq : Nat) :
    b &&& 2 ^ sq = if b.testBit sq = true then 2 ^ sq else 0 := by
  apply Nat.eq_of_testBit_eq
  intro i
  rw [Nat.testBit_and, Nat.testBit_two_pow]
  split
  · rename_i h
    rw [Nat.testBit_two_pow]
    by_cases hi : sq = i
    · subst hi; simp [h]
    · simp [hi]
  · rename_i h
    by_cases hi : sq = i
    · subst hi; simp [h]
    · simp [hi]

/-- The bits of a board after `ClearBit`: bit `sq` is cleared and the others
are kept. -/
theorem testBit_clearBit (b sq i : Nat) :
    (ClearBit b sq).testBit i = (b.testBit i && decide (i ≠ sq)) := by
  unfold ClearBit
  rw [Nat.one_shiftLeft, and_two_pow_eq]
  split
  · rename_i h
    exact testBit_sub_two_pow sq b h i
  · rename_i h
    rw [Nat.sub_zero]
    by_cases hi : i = sq
    · subst hi; simp [h]
    · simp [hi]

/-- A board does not grow by `ClearBit`. -/
theorem clearBit_le (b sq : Nat) : ClearBit b sq ≤ b := Nat.sub_le _ _

/-- The search for the lowest set bit finds a set bit when there is one in the
range it looks at. -/
theorem lsbFrom_spec (b : Nat) :
    ∀ (n i : Nat), (∃ j, i ≤ j ∧ j < i + n ∧ b.testBit j = true) →
      b.testBit (lsbFrom b n i) = true ∧ lsbFrom b n i < i + n := by
  intro n
  induction n with
  | zero =>
    intro i h
    obtain ⟨j, h1, h2, _⟩ := h
    omega
  | succ n ih =>
    intro i h
    obtain ⟨j, h1, h2, hj⟩ := h
    unfold lsbFrom
    by_cases hi : b.testBit i = true
    · rw [if_pos hi]
      exact ⟨hi, by omega⟩
    · rw [if_neg hi]
      have hne : j ≠ i := fun e => hi (e ▸ hj)
      obtain ⟨h3, h4⟩ := ih (i + 1) ⟨j, by omega, by omega, hj⟩
      exact ⟨h3, by omega⟩

/-- For a non-empty 64-bit board `GetLsb` is the index of a member. -/
theorem testBit_getLsb (b : Nat) (hne : b ≠ 0) (hlt : b < 2 ^ 64) :
    b.testBit (GetLsb b) = true ∧ GetLsb b < 64 := by
  obtain ⟨j, hj⟩ := Nat.ne_zero_implies_bit_true hne
  have hj64 : j < 64 := by
    by_contra hge
    have hle : 2 ^ 64 ≤ 2 ^ j := Nat.pow_le_pow_right (by decide) (by omega)
    have := Nat.testBit_lt_two_pow (lt_of_lt_of_le hlt hle)
    rw [hj] at this
    exact absurd this (by simp)
  have h := lsbFrom_spec b 64 0 ⟨j, Nat.zero_le _, by omega, hj⟩
  unfold GetLsb
  exact ⟨h.1, by omega⟩

/-- The number of members of a board as a sum of indicators. -/
theorem popCount_eq_sum (b : Nat) :
    PopCount b = Finset.sum (Finset.range 64) (fun i => if b.testBit i = true then 1 else 0) := by
  unfold PopCount
  generalize 64 = n
  induction n with
  | zero => rfl
  | succ n ih =>
    rw [List.range_succ, List.filter_append, List.length_append, ih, Finset.sum_range_succ]
    congr 1
    by_cases h : b.testBit n = true <;> simp [List.filter, h]

/-- Taking a member below 64 off a board lowers the number of members by
one. -/
theorem popCount_clearBit (b sq : Nat) (h : b.testBit sq = true) (hsq : sq < 64) :
    PopCount (ClearBit b sq) + 1 = PopCount b := by
  rw [popCount_eq_sum, popCount_eq_sum]
  have hmem : sq ∈ Finset.range 64 := Finset.mem_range.mpr hsq
  rw [← Finset.add_sum_erase (Finset.range 64) _ hmem,
    ← Finset.add_sum_erase (Finset.range 64)
      (fun i => if b.testBit i = true then 1 else 0) hmem]
  have hrest : Finset.sum ((Finset.range 64).erase sq)
      (fun i => if (ClearBit b sq).testBit i = true then 1 else 0) =
      Finset.sum ((Finset.range 64).erase sq)
        (fun i => if b.testBit i = true then 1 else 0) := by
    apply Finset.sum_congr rfl
    intro i hi
    have hne : i ≠ sq := (Finset.mem_erase.mp hi).1
    rw [testBit_clearBit]
    simp [hne]
  rw [hrest, testBit_clearBit]
  simp [h]
  omega

/-- A board has at most as many members after `ClearBit` as before. -/
theorem popCount_clearBit_le (b sq : Nat) : PopCount (ClearBit b sq) ≤ PopCount b := by
  rw [popCount_eq_sum, popCount_eq_sum]
  apply Finset.sum_le_sum
  intro i _
  rw [testBit_clearBit]
  by_cases h : b.testBit i = true <;> by_cases hi : i = sq <;> simp [h, hi]

/-- A board has at most 64 members. -/
theorem popCount_le (b : Nat) : PopCount b ≤ 64 := by
  unfold PopCount
  calc ((List.range 64).filter (fun i => b.testBit i)).length
      ≤ (List.range 64).length := List.length_filter_le _ _
    _ = 64 := List.length_range 64

/-- Below bit 64 the complement has exactly the bits the board lacks. -/
theorem testBit_bitNot (b i : Nat) (hi : i < 64) :
    (bitNot b).testBit i = !b.testBit i := by
  unfold bitNot
  rw [Nat.testBit_xor, Nat.testBit_two_pow_sub_one, Nat.testBit_mod_two_pow]
  simp [hi]

end chess

namespace eval

open chess

/-- The available attackers are among the attacker set and belong to the side
that is to capture. -/
theorem testBit_seeOurAttackers (state : BoardState) (pins : SeePins) (turn : Color)
    (all_attackers : BitBoard) (i : Nat)
    (h : (seeOurAttackers state pins turn all_attackers).testBit i = true) :
    all_attackers.testBit i = true ∧ (state.OccupiedOf turn).testBit i = true := by
  unfold seeOurAttackers at h
  dsimp only at h
  split_ifs at h <;> simp only [Nat.testBit_and, Bool.and_eq_true] at h <;> tauto

/-- The selected kind of attackers is among the available attackers. -/
theorem testBit_seeNextAttacker (state : BoardState) (our_attackers : BitBoard) (i : Nat)
    (h : (seeNextAttacker state our_attackers).testBit i = true) :
    our_attackers.testBit i = true := by
  unfold seeNextAttacker at h
  split_ifs at h
  all_goals first
    | (simp only [Nat.testBit_and, Bool.and_eq_true] at h; exact h.1)
    | simp at h

/-- The selected kind of attackers is a part of the occupancy of the loop. -/
theorem seeNextAttacker_le (mg : MoveGen) (state : BoardState) (to_sq : Nat) (st : SeeState) :
    seeNextAttacker state (seeAvailable mg state to_sq st) ≤ st.occupied := by
  have h1 : seeNextAttacker state (seeAvailable mg state to_sq st) ≤
      seeAvailable mg state to_sq st := by
    unfold seeNextAttacker
    split_ifs <;> first | exact Nat.and_le_left | exact Nat.zero_le _
  have h2 : seeAvailable mg state to_sq st ≤ st.all_attackers &&& st.occupied := by
    unfold seeAvailable seeOurAttackers
    dsimp only
    split_ifs
    · exact le_trans Nat.and_le_left Nat.and_le_left
    · exact le_trans Nat.and_le_left Nat.and_le_left
    · exact Nat.and_le_left
  exact le_trans h1 (le_trans h2 Nat.and_le_right)

/-- The square the iteration selects is below 64, holds an available attacker
and is still set in the occupancy. -/
theorem seeSelected_spec (mg : MoveGen) (state : BoardState) (to_sq : Nat) (st : SeeState)
    (sq : Nat) (hocc : st.occupied < 2 ^ 64)
    (hsel : seeSelected mg state to_sq st = some sq) :
    sq < 64 ∧ (seeAvailable mg state to_sq st).testBit sq = true ∧
      st.occupied.testBit sq = true := by
  unfold seeSelected at hsel
  split at hsel
  · exact absurd hsel (by simp)
  · rename_i hne
    simp only [Option.some.injEq] at hsel
    subst hsel
    have hlt : seeNextAttacker state (seeAvailable mg state to_sq st) < 2 ^ 64 :=
      lt_of_le_of_lt (seeNextAttacker_le mg state to_sq st) hocc
    obtain ⟨hbit, h64⟩ := testBit_getLsb _ hne hlt
    have hav := testBit_seeNextAttacker state _ _ hbit
    have hall := (testBit_seeOurAttackers state _ _ _ _ hav).1
    simp only [Nat.testBit_and, Bool.and_eq_true] at hall
    exact ⟨h64, hav, hall.2⟩

/-- When an attacker is picked, it is the selected one and the new occupancy
is the old one without its square. -/
theorem seePick_some (mg : MoveGen) (V : PieceType → Int) (state : BoardState) (to_sq : Nat)
    (our_attackers all_attackers occupied : BitBoard) (v : Int) (occ2 all2 : BitBoard)
    (h : seePick mg V state to_sq our_attackers all_attackers occupied = some (v, occ2, all2)) :
    seeNextAttacker state our_attackers ≠ 0 ∧
      occ2 = ClearBit occupied (GetLsb (seeNextAttacker state our_attackers)) := by
  unfold seePick at h
  unfold seeNextAttacker
  dsimp only at h
  split_ifs at h ⊢
  all_goals first
    | (simp only [Option.some.injEq, Prod.mk.injEq] at h
       exact ⟨by assumption, h.2.1.symm⟩)

/-- An iteration that goes on has selected an attacker and taken its square off
the occupancy. -/
theorem seeIter_next_selected (mg : MoveGen) (V : PieceType → Int) (state : BoardState)
    (to_sq : Nat) (st st2 : SeeState) (h : seeIter mg V state to_sq st = .next st2) :
    ∃ sq, seeSelected mg state to_sq st = some sq ∧ st2.occupied = ClearBit st.occupied sq := by
  unfold seeIter at h
  dsimp only at h
  split at h
  · exact absurd h (by simp)
  · split at h
    · split at h <;> exact absurd h (by simp)
    · rename_i v occ2 all2 hpick
      split at h
      · exact absurd h (by simp)
      · injection h with h
        subst h
        obtain ⟨hne, hocc⟩ := seePick_some mg V state to_sq _ _ _ v occ2 all2 hpick
        refine ⟨GetLsb (seeNextAttacker state (seeAvailable mg state to_sq st)), ?_, ?_⟩
        · unfold seeSelected seeAvailable
          rw [if_neg hne]
        · exact hocc

/-- An iteration that goes on takes one member below 64 off the occupancy. -/
theorem seeIter_next_popCount (mg : MoveGen) (V : PieceType → Int) (state : BoardState)
    (to_sq : Nat) (st st2 : SeeState) (hocc : st.occupied < 2 ^ 64)
    (h : seeIter mg V state to_sq st = .next st2) :
    ∃ sq, sq < 64 ∧ st.occupied.testBit sq = true ∧ st2.occupied = ClearBit st.occupied sq ∧
      PopCount st2.occupied + 1 = PopCount st.occupied := by
  obtain ⟨sq, hsel, heq⟩ := seeIter_next_selected mg V state to_sq st st2 h
  obtain ⟨h64, _, hbit⟩ := seeSelected_spec mg state to_sq st sq hocc hsel
  exact ⟨sq, h64, hbit, heq, by rw [heq]; exact popCount_clearBit _ _ hbit h64⟩

/-- The occupancy at the head of iteration `n` is a 64-bit board with at least
`n` members fewer than the snapshot has. -/
theorem seeStateAt_occupied (mg : MoveGen) (V : PieceType → Int) (move : search.Move)
    (threshold : Int) (state : BoardState) (hocc : state.Occupied < 2 ^ 64) :
    ∀ (n : Nat) (st : SeeState), seeStateAt mg V move threshold state n = some st →
      st.occupied < 2 ^ 64 ∧ n + PopCount st.occupied ≤ PopCount state.Occupied := by
  intro n
  induction n with
  | zero =>
    intro st h
    unfold seeStateAt at h
    split at h
    · exact absurd h (by simp)
    · rename_i st0 hpre
      simp only [Option.some.injEq] at h
      subst h
      unfold seePrelude at hpre
      dsimp only at hpre
      split_ifs at hpre
      injection hpre with hpre
      subst hpre
      dsimp only
      constructor
      · exact lt_of_le_of_lt (le_trans (clearBit_le _ _) (clearBit_le _ _)) hocc
      · have h1 := popCount_clearBit_le (ClearBit state.Occupied (mg.GetFrom move))
          (mg.GetTo move)
        have h2 := popCount_clearBit_le state.Occupied (mg.GetFrom move)
        omega
  | succ n ih =>
    intro st h
    unfold seeStateAt at h
    split at h
    · exact absurd h (by simp)
    · rename_i st1 hst1
      split at h
      · exact absurd h (by simp)
      · rename_i st2 hiter
        simp only [Option.some.injEq] at h
        subst h
        obtain ⟨hlt, hcount⟩ := ih st1 hst1
        obtain ⟨sq, _, _, heq, hpop⟩ :=
          seeIter_next_popCount mg V state (mg.GetTo move) st1 st2 hlt hiter
        constructor
        · rw [heq]
          exact lt_of_le_of_lt (clearBit_le _ _) hlt
        · omega

/-- The loop returns when it may run for more iterations than the occupancy
has members. -/
theorem seeLoop_terminates (mg : MoveGen) (V : PieceType → Int) (state : BoardState)
    (to_sq : Nat) :
    ∀ (fuel : Nat) (st : SeeState), st.occupied < 2 ^ 64 → PopCount st.occupied < fuel →
      ∃ b, seeLoop mg V state to_sq fuel st = some b := by
  intro fuel
  induction fuel with
  | zero => intro st _ h; omega
  | succ fuel ih =>
    intro st hocc hpop
    unfold seeLoop
    cases hiter : seeIter mg V state to_sq st with
    | done b => exact ⟨b, rfl⟩
    | next st2 =>
      obtain ⟨sq, _, _, heq, hcount⟩ := seeIter_next_popCount mg V state to_sq st st2 hocc hiter
      have hlt : st2.occupied < 2 ^ 64 := by
        rw [heq]
        exact lt_of_le_of_lt (clearBit_le _ _) hocc
      exact ih st2 hlt (by omega)

/-- C26: the exchange loop of `StaticExchange` terminates for every snapshot
(of 64-bit boards) and move, so `StaticExchange` returns; every iteration that
does not leave the loop takes off the scratch occupancy one square that was
still set in it; and the number of iterations is at most the number of
occupied squares. -/
theorem see_loop_terminates (mg : MoveGen) (V : PieceType → Int) (move : search.Move)
    (threshold : Int) (state : BoardState) (hocc : state.Occupied < 2 ^ 64) :
    (∃ b, StaticExchange mg V move threshold state = some b) ∧
      (∀ (n : Nat) (st st2 : SeeState), seeStateAt mg V move threshold state n = some st →
        seeIter mg V state (mg.GetTo move) st = .next st2 →
        ∃ sq, sq < 64 ∧ st.occupied.testBit sq = true ∧
          st2.occupied = ClearBit st.occupied sq ∧
          PopCount st2.occupied + 1 = PopCount st.occupied) ∧
      (∀ (n : Nat) (st : SeeState), seeStateAt mg V move threshold state n = some st →
        n + PopCount st.occupied ≤ PopCount state.Occupied) := by
  refine ⟨?_, ?_, ?_⟩
  · unfold StaticExchange
    cases hpre : seePrelude mg V move threshold state with
    | done b => exact ⟨b, rfl⟩
    | next st0 =>
      have h0 : seeStateAt mg V move threshold state 0 = some st0 := by
        unfold seeStateAt
        rw [hpre]
      obtain ⟨hlt, _⟩ := seeStateAt_occupied mg V move threshold state hocc 0 st0 h0
      have hpop := popCount_le st0.occupied
      exact seeLoop_terminates mg V state (mg.GetTo move) 65 st0 hlt (by omega)
  · intro n st st2 hst hiter
    obtain ⟨hlt, _⟩ := seeStateAt_occupied mg V move threshold state hocc n st hst
    exact seeIter_next_popCount mg V state (mg.GetTo move) st st2 hlt hiter
  · intro n st hst
    exact (seeStateAt_occupied mg V move threshold state hocc n st hst).2

/-- C26 at the sample position in which the rook d1 takes the pawn d5 and the
king e6 is the only defender. -/
theorem see_loop_terminates_witness :
    StaticExchange sampleMoveGen sampleSeeScores (sampleMove 3 35) 0 sampleKingDefends =
        some true ∧
      ((∃ b, StaticExchange sampleMoveGen sampleSeeScores (sampleMove 3 35) 0
          sampleKingDefends = some b) ∧
        (∀ (n : Nat) (st st2 : SeeState),
          seeStateAt sampleMoveGen sampleSeeScores (sampleMove 3 35) 0 sampleKingDefends n =
            some st →
          seeIter sampleMoveGen sampleSeeScores sampleKingDefends
            (sampleMoveGen.GetTo (sampleMove 3 35)) st = .next st2 →
          ∃ sq, sq < 64 ∧ st.occupied.testBit sq = true ∧
            st2.occupied = ClearBit st.occupied sq ∧
            PopCount st2.occupied + 1 = PopCount st.occupied) ∧
        (∀ (n : Nat) (st : SeeState),
          seeStateAt sampleMoveGen sampleSeeScores (sampleMove 3 35) 0 sampleKingDefends n =
            some st →
          n + PopCount st.occupied ≤ PopCount sampleKingDefends.Occupied)) :=
  ⟨by decide,
    see_loop_terminates sampleMoveGen sampleSeeScores (sampleMove 3 35) 0 sampleKingDefends
      (by decide)⟩

/-- C22: in every iteration of the exchange loop the attacker that is selected
and taken off the scratch occupancy is not a piece in the pin mask of its own
side that lies off `RayIntersecting(destination, own king square)`; and the
pieces of that side in the attacker set that are not in the pin mask, or that
lie on that ray, are available. -/
theorem see_selected_respects_pins (mg : MoveGen) (V : PieceType → Int) (move : search.Move)
    (threshold : Int) (state : BoardState) (n : Nat) (st : SeeState) (sq : Nat)
    (hocc : state.Occupied < 2 ^ 64)
    (hst : seeStateAt mg V move threshold state n = some st)
    (hsel : seeSelected mg state (mg.GetTo move) st = some sq) :
    ¬ ((state.pinned (FlipColor st.turn)).testBit sq = true ∧
        (mg.RayIntersecting (mg.GetTo move)
          (GetLsb (state.KingOf (FlipColor st.turn)))).testBit sq = false) ∧
      ∀ i, i < 64 →
        ((st.all_attackers &&& st.occupied) &&&
          state.OccupiedOf (FlipColor st.turn)).testBit i = true →
        ((state.pinned (FlipColor st.turn)).testBit i = false ∨
          (mg.RayIntersecting (mg.GetTo move)
            (GetLsb (state.KingOf (FlipColor st.turn)))).testBit i = true) →
        (seeAvailable mg state (mg.GetTo move) st).testBit i = true := by
  obtain ⟨hlt, _⟩ := seeStateAt_occupied mg V move threshold state hocc n st hst
  obtain ⟨h64, hav, _⟩ := seeSelected_spec mg state (mg.GetTo move) st sq hlt hsel
  constructor
  · rintro ⟨hpin, hray⟩
    have hown := (testBit_seeOurAttackers state _ _ _ _ hav).2
    unfold seeAvailable seeOurAttackers seePins at hav
    dsimp only at hav
    cases hc : FlipColor st.turn with
    | kWhite =>
      rw [hc] at hav hpin hray hown
      have hp : (state.pinned .kWhite &&& state.OccupiedOf .kWhite).testBit sq = true := by
        simp [hpin, hown]
      have hne : state.pinned .kWhite &&& state.OccupiedOf .kWhite ≠ 0 := by
        intro e
        rw [e] at hp
        simp at hp
      simp only [hne, ne_eq, not_false_eq_true, and_self, if_true, true_and,
        Nat.testBit_and, Nat.testBit_or, testBit_bitNot _ _ h64, Bool.and_eq_true,
        Bool.or_eq_true, Bool.not_eq_true'] at hav hp
      rcases hav.2 with h1 | h1
      · rw [hp.1, hp.2] at h1
        simp at h1
      · rw [hray] at h1
        simp at h1
    | kBlack =>
      rw [hc] at hav hpin hray hown
      have hp : (state.pinned .kBlack &&& state.OccupiedOf .kBlack).testBit sq = true := by
        simp [hpin, hown]
      have hne : state.pinned .kBlack &&& state.OccupiedOf .kBlack ≠ 0 := by
        intro e
        rw [e] at hp
        simp at hp
      simp only [hne, ne_eq, not_false_eq_true, and_self, if_true, true_and, reduceCtorEq,
        false_and, if_false, Nat.testBit_and, Nat.testBit_or, testBit_bitNot _ _ h64,
        Bool.and_eq_true, Bool.or_eq_true, Bool.not_eq_true'] at hav hp
      rcases hav.2 with h1 | h1
      · rw [hp.1, hp.2] at h1
        simp at h1
      · rw [hray] at h1
        simp at h1
  · intro i hi hatt hok
    have hown : (state.OccupiedOf (FlipColor st.turn)).testBit i = true := by
      simp only [Nat.testBit_and, Bool.and_eq_true] at hatt
      exact hatt.2
    unfold seeAvailable seeOurAttackers seePins
    dsimp only
    cases hc : FlipColor st.turn with
    | kWhite =>
      rw [hc] at hatt hok hown
      by_cases hwp : state.pinned .kWhite &&& state.OccupiedOf .kWhite = 0
      · simp only [hwp, ne_eq, not_true_eq_false, and_false, if_false, reduceCtorEq, false_and]
        exact hatt
      · simp only [hwp, ne_eq, not_false_eq_true, and_self, if_true, Nat.testBit_and,
          Nat.testBit_or, testBit_bitNot _ _ hi, Bool.and_eq_true, Bool.or_eq_true,
          Bool.not_eq_true']
        simp only [Nat.testBit_and, Bool.and_eq_true] at hatt
        refine ⟨hatt, ?_⟩
        rcases hok with hp | hr
        · left
          simp [hp]
        · cases hp : (state.pinned Color.kWhite).testBit i
          · left
            simp
          · right
            exact ⟨hr, rfl, hown⟩
    | kBlack =>
      rw [hc] at hatt hok hown
      by_cases hbp : state.pinned .kBlack &&& state.OccupiedOf .kBlack = 0
      · simp only [hbp, ne_eq, not_true_eq_false, and_false, if_false, reduceCtorEq, false_and]
        exact hatt
      · simp only [hbp, ne_eq, not_false_eq_true, and_self, if_true, reduceCtorEq, false_and,
          if_false, Nat.testBit_and, Nat.testBit_or, testBit_bitNot _ _ hi, Bool.and_eq_true,
          Bool.or_eq_true, Bool.not_eq_true']
        simp only [Nat.testBit_and, Bool.and_eq_true] at hatt
        refine ⟨hatt, ?_⟩
        rcases hok with hp | hr
        · left
          simp [hp]
        · cases hp : (state.pinned Color.kBlack).testBit i
          · left
            simp
          · right
            exact ⟨hr, rfl, hown⟩

end eval

namespace eval

open chess

/-- C22 at the sample position, first iteration: the knight f6 attacks d5 but
is pinned off the line through d5 and its king, so it is not available; the
pawn e6 is selected. -/
theorem see_selected_respects_pins_witness :
    (samplePinnedEntry.all_attackers.testBit 45 = true ∧
        (seeAvailable sampleMoveGen samplePinned 35 samplePinnedEntry).testBit 45 = false ∧
        seeSelected sampleMoveGen samplePinned 35 samplePinnedEntry = some 44) ∧
      (¬ ((samplePinned.pinned (FlipColor samplePinnedEntry.turn)).testBit 44 = true ∧
          (sampleMoveGen.RayIntersecting (sampleMoveGen.GetTo (sampleMove 3 35))
            (GetLsb (samplePinned.KingOf (FlipColor samplePinnedEntry.turn)))).testBit 44 =
            false) ∧
        ∀ i, i < 64 →
          ((samplePinnedEntry.all_attackers &&& samplePinnedEntry.occupied) &&&
            samplePinned.OccupiedOf (FlipColor samplePinnedEntry.turn)).testBit i = true →
          ((samplePinned.pinned (FlipColor samplePinnedEntry.turn)).testBit i = false ∨
            (sampleMoveGen.RayIntersecting (sampleMoveGen.GetTo (sampleMove 3 35))
              (GetLsb (samplePinned.KingOf (FlipColor samplePinnedEntry.turn)))).testBit i =
              true) →
          (seeAvailable sampleMoveGen samplePinned (sampleMoveGen.GetTo (sampleMove 3 35))
            samplePinnedEntry).testBit i = true) :=
  ⟨by decide,
    see_selected_respects_pins sampleMoveGen sampleSeeScores (sampleMove 3 35) 0 samplePinned 0
      samplePinnedEntry 44 (by decide) (by decide) (by decide)⟩

end eval

namespace search

/-- A value in the range of a 32-bit `int` is not changed by the conversion to
it. -/
theorem toI32_of_fits (x : Int) (hlo : -2 ^ 31 ≤ x) (hhi : x ≤ INT_MAX) : toI32 x = x := by
  unfold toI32
  unfold INT_MAX at hhi
  omega

end search

namespace eval

open chess

/-- The value of a picked attacker is an entry of the table of piece values. -/
theorem seePick_value (mg : MoveGen) (V : PieceType → Int) (state : BoardState) (to_sq : Nat)
    (our_attackers all_attackers occupied : BitBoard) (v : Int) (occ2 all2 : BitBoard)
    (h : seePick mg V state to_sq our_attackers all_attackers occupied = some (v, occ2, all2)) :
    ∃ p, v = V p := by
  unfold seePick at h
  dsimp only at h
  split_ifs at h
  all_goals
    simp only [Option.some.injEq, Prod.mk.injEq] at h
    exact ⟨_, h.1.symm⟩

/-- With piece values that are non-negative ints and a positive int score at its
head, an iteration of the loop does not overflow: the 32-bit iteration is the
exact one. -/
theorem seeIterI32_eq (mg : MoveGen) (V : PieceType → Int) (state : BoardState) (to_sq : Nat)
    (st : SeeState) (hV : ∀ p, 0 ≤ V p ∧ V p ≤ search.INT_MAX)
    (hpos : 0 < st.score) (hmax : st.score ≤ search.INT_MAX) :
    seeIterI32 mg V state to_sq st = seeIter mg V state to_sq st := by
  unfold seeIterI32 seeIter
  dsimp only
  by_cases hour : seeOurAttackers state (seePins mg state to_sq) (FlipColor st.turn)
      (st.all_attackers &&& st.occupied) = 0
  · simp only [if_pos hour]
  · simp only [if_neg hour]
    cases hpick : seePick mg V state to_sq
        (seeOurAttackers state (seePins mg state to_sq) (FlipColor st.turn)
          (st.all_attackers &&& st.occupied))
        (st.all_attackers &&& st.occupied) st.occupied with
    | none => rfl
    | some pick =>
      obtain ⟨v, occ2, all2⟩ := pick
      obtain ⟨p, hp⟩ := seePick_value mg V state to_sq _ _ _ v occ2 all2 hpick
      have hv := hV p
      rw [← hp] at hv
      have hfit : search.toI32 (-st.score + 1 + v) = -st.score + 1 + v := by
        apply search.toI32_of_fits
        · unfold search.INT_MAX at hmax
          omega
        · omega
      simp only [hfit]

/-- With piece values that are non-negative ints, an exact iteration that goes on
from a positive score leaves a positive int score. -/
theorem seeIter_next_score (mg : MoveGen) (V : PieceType → Int) (state : BoardState)
    (to_sq : Nat) (st st2 : SeeState) (hV : ∀ p, 0 ≤ V p ∧ V p ≤ search.INT_MAX)
    (hpos : 0 < st.score) (h : seeIter mg V state to_sq st = .next st2) :
    0 < st2.score ∧ st2.score ≤ search.INT_MAX := by
  unfold seeIter at h
  dsimp only at h
  by_cases hour : seeOurAttackers state (seePins mg state to_sq) (FlipColor st.turn)
      (st.all_attackers &&& st.occupied) = 0
  · simp only [if_pos hour] at h
    exact absurd h (by simp)
  · simp only [if_neg hour] at h
    cases hpick : seePick mg V state to_sq
        (seeOurAttackers state (seePins mg state to_sq) (FlipColor st.turn)
          (st.all_attackers &&& st.occupied))
        (st.all_attackers &&& st.occupied) st.occupied with
    | none =>
      simp only [hpick] at h
      split_ifs at h
    | some pick =>
      obtain ⟨v, occ2, all2⟩ := pick
      obtain ⟨p, hp⟩ := seePick_value mg V state to_sq _ _ _ v occ2 all2 hpick
      have hv := hV p
      rw [← hp] at hv
      simp only [hpick] at h
      by_cases hn : -st.score + 1 + v ≤ 0
      · simp only [if_pos hn] at h
        exact absurd h (by simp)
      · simp only [if_neg hn] at h
        injection h with h
        subst h
        dsimp only
        constructor <;> omega

/-- With piece values that are non-negative ints, the loop entered with a
positive int score does not overflow: the 32-bit loop is the exact one. -/
theorem seeLoopI32_eq (mg : MoveGen) (V : PieceType → Int) (state : BoardState) (to_sq : Nat)
    (hV : ∀ p, 0 ≤ V p ∧ V p ≤ search.INT_MAX) :
    ∀ (fuel : Nat) (st : SeeState), 0 < st.score → st.score ≤ search.INT_MAX →
      seeLoopI32 mg V state to_sq fuel st = seeLoop mg V state to_sq fuel st := by
  intro fuel
  induction fuel with
  | zero =>
    intro st _ _
    rfl
  | succ fuel ih =>
    intro st hpos hmax
    simp only [seeLoopI32, seeLoop, seeIterI32_eq mg V state to_sq st hV hpos hmax]
    cases hit : seeIter mg V state to_sq st with
    | done b => rfl
    | next st2 =>
      obtain ⟨h1, h2⟩ := seeIter_next_score mg V state to_sq st st2 hV hpos hit
      exact ih st2 h1 h2

/-- With piece values that are non-negative ints and a margin
`V(victim) - threshold` that fits an int, the code before the loop does not
overflow: the 32-bit code is the exact one. -/
theorem seePreludeI32_eq (mg : MoveGen) (V : PieceType → Int) (move : search.Move)
    (threshold : Int) (state : BoardState) (hV : ∀ p, 0 ≤ V p ∧ V p ≤ search.INT_MAX)
    (hlo : -2 ^ 31 ≤ V (state.GetPieceType (mg.GetTo move)) - threshold)
    (hhi : V (state.GetPieceType (mg.GetTo move)) - threshold ≤ search.INT_MAX) :
    seePreludeI32 mg V move threshold state = seePrelude mg V move threshold state := by
  have hm := search.toI32_of_fits _ hlo hhi
  have hf := hV (state.GetPieceType (mg.GetFrom move))
  unfold seePreludeI32 seePrelude
  dsimp only
  rw [hm]
  by_cases hsim : seeIgnoresMove mg move state
  · simp only [if_pos hsim]
  · simp only [if_neg hsim]
    by_cases hneg : V (state.GetPieceType (mg.GetTo move)) - threshold < 0
    · simp only [if_pos hneg]
    · simp only [if_neg hneg]
      have hs : search.toI32 (V (state.GetPieceType (mg.GetFrom move)) -
          (V (state.GetPieceType (mg.GetTo move)) - threshold)) =
          V (state.GetPieceType (mg.GetFrom move)) -
            (V (state.GetPieceType (mg.GetTo move)) - threshold) := by
        apply search.toI32_of_fits
        · unfold search.INT_MAX at hhi
          omega
        · omega
      rw [hs]

/-- With piece values that are non-negative ints, the exact loop is entered with
a positive int score. -/
theorem seePrelude_next_score (mg : MoveGen) (V : PieceType → Int) (move : search.Move)
    (threshold : Int) (state : BoardState) (st : SeeState)
    (hV : ∀ p, 0 ≤ V p ∧ V p ≤ search.INT_MAX)
    (h : seePrelude mg V move threshold state = .next st) :
    0 < st.score ∧ st.score ≤ search.INT_MAX := by
  have hf := hV (state.GetPieceType (mg.GetFrom move))
  unfold seePrelude at h
  dsimp only at h
  split_ifs at h with h1 h2 h3
  injection h with h
  subst h
  dsimp only
  constructor <;> omega

/-- With piece values that are non-negative ints and a margin
`V(victim) - threshold` that fits an int, `StaticExchange` does not overflow:
the 32-bit function is the exact one. -/
theorem staticExchangeI32_eq (mg : MoveGen) (V : PieceType → Int) (move : search.Move)
    (threshold : Int) (state : BoardState) (hV : ∀ p, 0 ≤ V p ∧ V p ≤ search.INT_MAX)
    (hlo : -2 ^ 31 ≤ V (state.GetPieceType (mg.GetTo move)) - threshold)
    (hhi : V (state.GetPieceType (mg.GetTo move)) - threshold ≤ search.INT_MAX) :
    StaticExchangeI32 mg V move threshold state = StaticExchange mg V move threshold state := by
  unfold StaticExchangeI32 StaticExchange
  rw [seePreludeI32_eq mg V move threshold state hV hlo hhi]
  cases hpre : seePrelude mg V move threshold state with
  | done b => rfl
  | next st =>
    obtain ⟨h1, h2⟩ := seePrelude_next_score mg V move threshold state st hV hpre
    exact seeLoopI32_eq mg V state (mg.GetTo move) hV 65 st h1 h2

/-- Outside these bounds the two differ: for the pawn e4 taking the queen d5
with the threshold `-2 ^ 31`, the margin `900 + 2 ^ 31` wraps below zero, so the
32-bit function returns false at its first test where the exact one returns
true. -/
theorem staticExchangeI32_wraps_at_int_min :
    StaticExchangeI32 sampleMoveGen sampleSeeScores (sampleMove 28 35) (-2 ^ 31)
        samplePawnTakesQueen = some false ∧
      StaticExchange sampleMoveGen sampleSeeScores (sampleMove 28 35) (-2 ^ 31)
        samplePawnTakesQueen = some true := by
  decide

/-- C13: for a move that is neither en passant nor castling, when the value
of the piece on the destination minus the threshold is not negative and the
value of the moving piece does not exceed it, `StaticExchange` returns true,
whatever defends the destination.  The function is the one in 32-bit
arithmetic; the two bounds say that the subtractions of lines 61 and 67 do not
overflow the `int`. -/
theorem see_true_when_victim_covers_mover (mg : MoveGen) (V : PieceType → Int)
    (move : search.Move) (threshold : Int) (state : BoardState)
    (hsim : ¬ seeIgnoresMove mg move state)
    (hfit : V (state.GetPieceType (mg.GetTo move)) - threshold ≤ search.INT_MAX)
    (hfit2 : -2 ^ 31 ≤ V (state.GetPieceType (mg.GetFrom move)) -
      (V (state.GetPieceType (mg.GetTo move)) - threshold))
    (hmargin : 0 ≤ V (state.GetPieceType (mg.GetTo move)) - threshold)
    (hvalue : V (state.GetPieceType (mg.GetFrom move)) ≤
      V (state.GetPieceType (mg.GetTo move)) - threshold) :
    StaticExchangeI32 mg V move threshold state = some true := by
  have hm := search.toI32_of_fits _ (by omega : -2 ^ 31 ≤
    V (state.GetPieceType (mg.GetTo move)) - threshold) hfit
  have hs := search.toI32_of_fits _ hfit2 (by unfold search.INT_MAX; omega :
    V (state.GetPieceType (mg.GetFrom move)) -
      (V (state.GetPieceType (mg.GetTo move)) - threshold) ≤ search.INT_MAX)
  have hle : V (state.GetPieceType (mg.GetFrom move)) -
      (V (state.GetPieceType (mg.GetTo move)) - threshold) ≤ 0 := by omega
  unfold StaticExchangeI32 seePreludeI32
  dsimp only
  rw [hm, hs]
  simp only [if_neg hsim, if_neg (not_lt.mpr hmargin), if_pos hle]

/-- C13 at the sample position: the pawn e4 takes the queen d5, which the pawn
e6 defends, with threshold 0. -/
theorem see_true_when_victim_covers_mover_witness :
    StaticExchangeI32 sampleMoveGen sampleSeeScores (sampleMove 28 35) 0 samplePawnTakesQueen =
      some true :=
  see_true_when_victim_covers_mover sampleMoveGen sampleSeeScores (sampleMove 28 35) 0
    samplePawnTakesQueen (by decide) (by decide) (by decide) (by decide) (by decide)

/-- C16: for a simulated move after which the opponent has no available
attacker of the destination, `StaticExchange` returns true exactly when the
value of the piece on the destination minus the threshold is not negative.
The function is the one in 32-bit arithmetic; the two bounds say that the
subtraction of line 61 does not overflow the `int`. -/
theorem see_undefended_iff_margin (mg : MoveGen) (V : PieceType → Int)
    (move : search.Move) (threshold : Int) (state : BoardState)
    (hsim : ¬ seeIgnoresMove mg move state)
    (hnone : seeFirstDefenders mg move state = 0)
    (hlo : -2 ^ 31 ≤ V (state.GetPieceType (mg.GetTo move)) - threshold)
    (hhi : V (state.GetPieceType (mg.GetTo move)) - threshold ≤ search.INT_MAX) :
    StaticExchangeI32 mg V move threshold state =
      some (decide (0 ≤ V (state.GetPieceType (mg.GetTo move)) - threshold)) := by
  have hm := search.toI32_of_fits _ hlo hhi
  unfold StaticExchangeI32 seePreludeI32
  dsimp only
  rw [hm]
  simp only [if_neg hsim]
  by_cases hmargin : 0 ≤ V (state.GetPieceType (mg.GetTo move)) - threshold
  · simp only [if_neg (not_lt.mpr hmargin)]
    by_cases hscore : search.toI32 (V (state.GetPieceType (mg.GetFrom move)) -
        (V (state.GetPieceType (mg.GetTo move)) - threshold)) ≤ 0
    · simp only [if_pos hscore]
      simp [hmargin]
    · unfold seeFirstDefenders at hnone
      simp only [if_neg hscore, seeLoopI32, seeIterI32, if_pos hnone]
      simp [hmargin]
  · simp only [if_pos (not_le.mp hmargin)]
    simp [hmargin]

/-- C16 at the sample position: the queen d4 takes the undefended pawn d5 with
threshold 0, and with threshold 101. -/
theorem see_undefended_iff_margin_witness :
    StaticExchangeI32 sampleMoveGen sampleSeeScores (sampleMove 27 35) 0 sampleUndefended =
        some (decide (0 ≤ sampleSeeScores
          (sampleUndefended.GetPieceType (sampleMoveGen.GetTo (sampleMove 27 35))) - 0)) ∧
      StaticExchangeI32 sampleMoveGen sampleSeeScores (sampleMove 27 35) 101 sampleUndefended =
        some (decide (0 ≤ sampleSeeScores
          (sampleUndefended.GetPieceType (sampleMoveGen.GetTo (sampleMove 27 35))) - 101)) :=
  ⟨see_undefended_iff_margin sampleMoveGen sampleSeeScores (sampleMove 27 35) 0
      sampleUndefended (by decide) (by decide) (by decide) (by decide),
    see_undefended_iff_margin sampleMoveGen sampleSeeScores (sampleMove 27 35) 101
      sampleUndefended (by decide) (by decide) (by decide) (by decide)⟩

/-- C23: `StaticExchange` is monotone in the threshold: for thresholds
`t1 <= t2`, when it returns true for `t2` it returns true for `t1`, for every
snapshot and every move.  The function is the one in 32-bit arithmetic; the
piece values are ints that are not negative, and the two bounds say that the
subtraction of line 61 overflows the `int` for neither threshold. -/
theorem see_monotone_in_threshold (mg : MoveGen) (V : PieceType → Int) (move : search.Move)
    (t1 t2 : Int) (state : BoardState) (hV : ∀ p, 0 ≤ V p ∧ V p ≤ search.INT_MAX)
    (hle : t1 ≤ t2)
    (hfit1 : V (state.GetPieceType (mg.GetTo move)) - t1 ≤ search.INT_MAX)
    (hfit2 : -2 ^ 31 ≤ V (state.GetPieceType (mg.GetTo move)) - t2)
    (h2 : StaticExchangeI32 mg V move t2 state = some true) :
    StaticExchangeI32 mg V move t1 state = some true := by
  rw [staticExchangeI32_eq mg V move t2 state hV hfit2 (by omega)] at h2
  rw [staticExchangeI32_eq mg V move t1 state hV (by omega) hfit1]
  exact staticExchange_mono mg V move t1 t2 state hle h2

/-- C23 at the sample position: the queen d4 takes the undefended pawn d5;
the result is true for the threshold 100 and so for the threshold 0. -/
theorem see_monotone_in_threshold_witness :
    StaticExchangeI32 sampleMoveGen sampleSeeScores (sampleMove 27 35) 0 sampleUndefended =
      some true :=
  see_monotone_in_threshold sampleMoveGen sampleSeeScores (sampleMove 27 35) 0 100
    sampleUndefended (by intro p; cases p <;> decide) (by decide) (by decide) (by decide)
    (by decide)

end eval
